import Mathlib

/-!
# http-gui-tool: request engine and CSV-to-parameter pipeline

A shallow embedding of the request-execution core of `main.go`
(`convertValueByType`, `extractValueFromCSV`, `genParams*`, `sendRequest`, the
worker loop and the rate ticker of `executeRequests`) together with the
properties established about it.

Conventions of the embedding:
* Go strings are lists of Unicode code points (`Str`);
* Go `int` / `time.Duration` are 64-bit: values are `Int`, and `wrap64` is
  applied wherever the source arithmetic can leave the 64-bit range;
* a Go slice that may be `nil` is an `Option (List _)` (`none` is `nil`);
* library results that cannot be computed here (`strconv.ParseFloat`, the
  outcome of an HTTP exchange, cancellation) are inputs of the model.
-/

namespace HttpGuiTool

/-! ## Strings (Go `strings`, `unicode`, `strconv`) -/

/-- Go strings, as lists of code points. -/
abbrev Str := List Char

/-- Go `unicode.IsSpace`: the code points with the White_Space property. -/
def isSpace (c : Char) : Bool :=
  let n := c.toNat
  (decide (9 ≤ n) && decide (n ≤ 13)) || n == 32 || n == 0x85 || n == 0xA0 || n == 0x1680 ||
    (decide (0x2000 ≤ n) && decide (n ≤ 0x200a)) || n == 0x2028 || n == 0x2029 ||
    n == 0x202f || n == 0x205f || n == 0x3000

/-- Go `strings.TrimSpace`: drop leading and trailing white space. -/
def trimSpace (s : Str) : Str :=
  ((s.dropWhile isSpace).reverse.dropWhile isSpace).reverse

/-- Go `strings.Contains(s, substr)`. -/
def stringsContains (s substr : Str) : Bool :=
  s.tails.any (fun t => substr.isPrefixOf t)

/-- Go `strings.Split(s, sep)` for a separator of one character (every call in
`main.go` passes a one-character separator). -/
def stringsSplit (s : Str) (sep : Char) : List Str :=
  match s with
  | [] => [[]]
  | c :: cs =>
    if c = sep then [] :: stringsSplit cs sep
    else
      match stringsSplit cs sep with
      | [] => [[c]]
      | p :: ps => (c :: p) :: ps

/-- Value of a decimal digit, `none` for any other character. -/
def digitVal (c : Char) : Option Nat :=
  if 48 ≤ c.toNat ∧ c.toNat ≤ 57 then some (c.toNat - 48) else none

/-- Accumulate decimal digits onto `acc`; `none` when a character is not a digit. -/
def parseDigits (s : Str) (acc : Nat) : Option Nat :=
  match s with
  | [] => some acc
  | c :: cs =>
    match digitVal c with
    | none => none
    | some d => parseDigits cs (acc * 10 + d)

/-- Go `strconv.Atoi` on a 64-bit platform: an optional sign, at least one
decimal digit, nothing else, and a value inside the `int64` range; `none`
stands for the returned error. -/
def atoi (s : Str) : Option Int :=
  match s with
  | [] => none
  | c :: cs =>
    let neg := decide (c = '-')
    let ds := if c = '-' ∨ c = '+' then cs else c :: cs
    match ds with
    | [] => none
    | _ :: _ =>
      match parseDigits ds 0 with
      | none => none
      | some n =>
        if neg then (if n ≤ 2 ^ 63 then some (-(n : Int)) else none)
        else (if n < 2 ^ 63 then some (n : Int) else none)

/-- Go `strconv.ParseBool`. -/
def parseBool (s : Str) : Option Bool :=
  if s ∈ ["1".toList, "t".toList, "T".toList, "TRUE".toList, "true".toList, "True".toList] then
    some true
  else if s ∈ ["0".toList, "f".toList, "F".toList, "FALSE".toList, "false".toList,
      "False".toList] then
    some false
  else none

/-! ## Data model -/

/-- `ParamMapping` of `main.go`. -/
structure ParamMapping where
  CSVColumn : Str
  ParamName : Str
  ParamType : Str
  DefaultValue : Str
  ArrayIndex : Int
  deriving DecidableEq, Repr

/-- `RequestTask` of `main.go`; `ParamsJSON` plays no part in the properties
below and is kept as text. -/
structure RequestTask where
  ParamsJSON : Str
  RowIndex : Int
  deriving DecidableEq, Repr

/-- The dynamic values (`interface{}`) that `convertValueByType` returns.
A `float64` is carried as its IEEE-754 bit pattern; a slice is `none` when it
is the `nil` slice. -/
inductive Value
  | str (s : Str)
  | int (n : Int)
  | float (bits : Nat)
  | bool (b : Bool)
  | strSlice (xs : Option (List Str))
  | intSlice (xs : Option (List Int))
  deriving DecidableEq, Repr, Inhabited

/-- The errors `convertValueByType` can return. -/
inductive ConvError
  | atoiError
  | parseFloatError
  | parseBoolError
  deriving DecidableEq, Repr

deriving instance DecidableEq for Except

/-- Go `append` on a slice that may be `nil`. -/
def appendSlice {α : Type} (xs : Option (List α)) (x : α) : Option (List α) :=
  match xs with
  | none => some [x]
  | some l => some (l ++ [x])

/-! ## Type converter -/

/-- The separator priority list of `convertValueByType`. -/
def separators : List Char := [',', ';', '|', ' ']

/-- The `parts` computation shared by the `string[]` and `int[]` cases: split
on the first separator of the priority list that occurs in `value`, the whole
value when none does. -/
def splitParts (value : Str) : List Str :=
  let parts : List Str :=
    match separators.find? (fun sep => stringsContains value [sep]) with
    | some sep => stringsSplit value sep
    | none => []
  if parts.length = 0 then [value] else parts

/-- The `string[]` result loop: trimmed non-empty pieces, appended to a `nil` slice. -/
def collectStrings (parts : List Str) : Option (List Str) :=
  parts.foldl (fun result part =>
    let trimmed := trimSpace part
    if trimmed ≠ [] then appendSlice result trimmed else result) none

/-- The `int[]` result loop: the pieces that `Atoi` accepts, appended to a `nil` slice. -/
def collectInts (parts : List Str) : Option (List Int) :=
  parts.foldl (fun result part =>
    let trimmed := trimSpace part
    if trimmed ≠ [] then
      match atoi trimmed with
      | some num => appendSlice result num
      | none => result
    else result) none

/-- `HTTPTool.convertValueByType`. `parseFloat` stands for
`strconv.ParseFloat(_, 64)` and returns the bit pattern of the parsed number. -/
def convertValueByType (parseFloat : Str → Option Nat) (value paramType : Str) :
    Except ConvError Value :=
  let value := trimSpace value
  if paramType = "string".toList then .ok (.str value)
  else if paramType = "int".toList then
    if value = [] then .ok (.int 0)
    else match atoi value with
      | some n => .ok (.int n)
      | none => .error .atoiError
  else if paramType = "float".toList then
    if value = [] then .ok (.float 0)
    else match parseFloat value with
      | some b => .ok (.float b)
      | none => .error .parseFloatError
  else if paramType = "bool".toList then
    if value = [] then .ok (.bool false)
    else match parseBool value with
      | some b => .ok (.bool b)
      | none => .error .parseBoolError
  else if paramType = "string[]".toList then
    if value = [] then .ok (.strSlice (some []))
    else .ok (.strSlice (collectStrings (splitParts value)))
  else if paramType = "int[]".toList then
    if value = [] then .ok (.intSlice (some []))
    else .ok (.intSlice (collectInts (splitParts value)))
  else .ok (.str value)

/-! ## Parameter mapper -/

/-- `HTTPTool.extractValueFromCSV`. -/
def extractValueFromCSV (parseFloat : Str → Option Nat) (rows : List Str)
    (mapping : ParamMapping) : Except ConvError Value :=
  let rawValue : Str :=
    match atoi mapping.CSVColumn with
    | some index =>
      if 0 ≤ index ∧ index < (rows.length : Int) then rows.getD index.toNat []
      else mapping.DefaultValue
    | none => mapping.DefaultValue
  let rawValue := if trimSpace rawValue = [] then mapping.DefaultValue else rawValue
  convertValueByType parseFloat rawValue mapping.ParamType

/-- The raw text selected for a mapping, as the specification words it: the
field `row[i]` when the selector is an integer `i` inside the row and that
field is not blank, the default value otherwise. -/
def selectedRaw (rows : List Str) (mapping : ParamMapping) : Str :=
  match atoi mapping.CSVColumn with
  | some i =>
    if 0 ≤ i ∧ i < (rows.length : Int) ∧ trimSpace (rows.getD i.toNat []) ≠ [] then
      rows.getD i.toNat []
    else mapping.DefaultValue
  | none => mapping.DefaultValue

/-- What `json.Marshal` writes for a `Value`: a `nil` slice is written `null`. -/
inductive JsonValue
  | null
  | str (s : Str)
  | int (n : Int)
  | float (bits : Nat)
  | bool (b : Bool)
  | strArray (xs : List Str)
  | intArray (xs : List Int)
  deriving DecidableEq, Repr, Inhabited

/-- The JSON text returned by `genParams`, by structure: `null`, an array or
an object. The order of the members of an object carries no meaning
(`json.Marshal` writes them sorted by key). -/
inductive Payload
  | null
  | array (xs : List JsonValue)
  | object (members : List (Str × JsonValue))
  deriving DecidableEq, Repr

/-- The errors `genParams` can return. -/
inductive GenError
  | marshalError
  | rowTooShort
  deriving DecidableEq, Repr

/-- Whether a `float64` bit pattern is a finite number (exponent field not all ones). -/
def floatIsFinite (bits : Nat) : Bool := (bits / 2 ^ 52) % 2 ^ 11 != 2047

/-- Go `json.Marshal` on one converted value; `none` is the
`UnsupportedValueError` for a float that is NaN or infinite. -/
def marshalValue (v : Value) : Option JsonValue :=
  match v with
  | .str s => some (.str s)
  | .int n => some (.int n)
  | .float bits => if floatIsFinite bits then some (.float bits) else none
  | .bool b => some (.bool b)
  | .strSlice none => some .null
  | .strSlice (some xs) => some (.strArray xs)
  | .intSlice none => some .null
  | .intSlice (some xs) => some (.intArray xs)

/-- `json.Marshal` on the elements of a slice, in order. -/
def marshalValues (vs : List Value) : Option (List JsonValue) :=
  match vs with
  | [] => some []
  | v :: rest =>
    match marshalValue v, marshalValues rest with
    | some j, some js => some (j :: js)
    | _, _ => none

/-- `json.Marshal` on a `[]interface{}` that may be `nil`. -/
def marshalSlice (params : Option (List Value)) : Except GenError Payload :=
  match params with
  | none => .ok .null
  | some vs =>
    match marshalValues vs with
    | some js => .ok (.array js)
    | none => .error .marshalError

/-- A Go `map[string]interface{}` as an association list with distinct keys. -/
abbrev GoMap := List (Str × Value)

/-- Go `m[key] = value`: replace the entry of `key` or add one. -/
def mapStore (m : GoMap) (key : Str) (value : Value) : GoMap :=
  match m with
  | [] => [(key, value)]
  | (k, v) :: rest =>
    if k = key then (k, value) :: rest else (k, v) :: mapStore rest key value

/-- Go `m[key]`, `none` when the key is absent. -/
def mapLookup (m : GoMap) (key : Str) : Option Value :=
  match m with
  | [] => none
  | (k, v) :: rest => if k = key then some v else mapLookup rest key

/-- `json.Marshal` on the entries of a map. -/
def marshalMembers (m : GoMap) : Option (List (Str × JsonValue)) :=
  match m with
  | [] => some []
  | (k, v) :: rest =>
    match marshalValue v, marshalMembers rest with
    | some j, some js => some ((k, j) :: js)
    | _, _ => none

/-- `json.Marshal` on a `map[string]interface{}`. -/
def marshalMap (params : GoMap) : Except GenError Payload :=
  match marshalMembers params with
  | some members => .ok (.object members)
  | none => .error .marshalError

/-- The member of a JSON object with a given name. -/
def memberLookup (members : List (Str × JsonValue)) (name : Str) : Option JsonValue :=
  match members with
  | [] => none
  | (k, j) :: rest => if k = name then some j else memberLookup rest name

/-- The map `params` that `genParamsObject` fills: each mapping in order,
a failing extraction skipped, a successful one stored under `ParamName`. -/
def objectParams (parseFloat : Str → Option Nat) (rows : List Str)
    (mappings : List ParamMapping) : GoMap :=
  mappings.foldl (fun params mapping =>
    match extractValueFromCSV parseFloat rows mapping with
    | .error _ => params
    | .ok value => mapStore params mapping.ParamName value) []

/-- `HTTPTool.genParamsObject`. -/
def genParamsObject (parseFloat : Str → Option Nat) (rows : List Str)
    (mappings : List ParamMapping) : Except GenError Payload :=
  marshalMap (objectParams parseFloat rows mappings)

/-- The slice `params` that `genParamsArray` fills: the mappings as
`sort.Slice` leaves them, a failing extraction skipped, a successful one
appended. `sortSlice` stands for `sort.Slice` with the comparison
`mappings[i].ArrayIndex < mappings[j].ArrayIndex`. -/
def arrayParams (sortSlice : List ParamMapping → List ParamMapping)
    (parseFloat : Str → Option Nat) (rows : List Str) (mappings : List ParamMapping) :
    Option (List Value) :=
  (sortSlice mappings).foldl (fun params mapping =>
    match extractValueFromCSV parseFloat rows mapping with
    | .error _ => params
    | .ok value => appendSlice params value) none

/-- `HTTPTool.genParamsArray`. -/
def genParamsArray (sortSlice : List ParamMapping → List ParamMapping)
    (parseFloat : Str → Option Nat) (rows : List Str) (mappings : List ParamMapping) :
    Except GenError Payload :=
  marshalSlice (arrayParams sortSlice parseFloat rows mappings)

/-- The documented contract of `sort.Slice` for the comparison by
`ArrayIndex`: the result holds the same elements and no element is followed by
one that is less. -/
def SortSliceContract (sortSlice : List ParamMapping → List ParamMapping) : Prop :=
  ∀ l, (sortSlice l).Perm l ∧
    (sortSlice l).Pairwise (fun a b => ¬ b.ArrayIndex < a.ArrayIndex)

/-- The value a mapping contributes to the payload, `none` when its
extraction fails. -/
def extracted (parseFloat : Str → Option Nat) (rows : List Str) (mapping : ParamMapping) :
    Option Value :=
  (extractValueFromCSV parseFloat rows mapping).toOption

/-- A sort that meets `SortSliceContract`: insertion sort by `ArrayIndex`. -/
def insertionSortByIndex (l : List ParamMapping) : List ParamMapping :=
  l.insertionSort (fun a b => a.ArrayIndex ≤ b.ArrayIndex)

/-- The value of the last mapping named `name` whose extraction succeeds,
`none` when no mapping of that name succeeds. -/
def lastSuccess (parseFloat : Str → Option Nat) (rows : List Str)
    (mappings : List ParamMapping) (name : Str) : Option Value :=
  ((mappings.filter (fun m => m.ParamName = name)).filterMap
    (extracted parseFloat rows)).getLast?

/-- `HTTPTool.genParamsLegacy`. -/
def genParamsLegacy (rows : List Str) : Except GenError Payload :=
  if rows.length < 5 then .error .rowTooShort
  else
    let settleOrderId : Value := .str (rows.getD 4 [])
    let orderId : Value :=
      if rows.length > 2 then
        match atoi (rows.getD 2 []) with
        | some orderId => .int orderId
        | none => .int 0
      else .int 0
    marshalSlice (some [settleOrderId, orderId])

/-- `HTTPTool.genParams`. `paramMode` is `h.config.ParamMode` and `mappings`
what `h.getParamMappings()` returns. -/
def genParams (sortSlice : List ParamMapping → List ParamMapping)
    (parseFloat : Str → Option Nat) (paramMode : Str) (mappings : List ParamMapping)
    (rows : List Str) : Except GenError Payload :=
  let rows := if rows.length = 1 then stringsSplit (rows.getD 0 []) (Char.ofNat 9) else rows
  if mappings.length = 0 then genParamsLegacy rows
  else if paramMode = "array".toList then genParamsArray sortSlice parseFloat rows mappings
  else genParamsObject parseFloat rows mappings

/-- The row after the normalization the specification describes: a row of
exactly one field is split again at tab characters. -/
def normalizedRow (row : List Str) : List Str :=
  match row with
  | [field] => stringsSplit field (Char.ofNat 9)
  | _ => row

/-- The legacy extraction as the specification words it: an error for a row
of fewer than five fields, otherwise the array of field 4 as a string and
field 2 as a base-10 integer, 0 when it does not parse. -/
def legacyReference (row : List Str) : Except GenError Payload :=
  if row.length < 5 then .error .rowTooShort
  else .ok (.array [.str (row.getD 4 []), .int ((atoi (row.getD 2 [])).getD 0)])

/-- The part of `strconv.ParseFloat` that reads the text `NaN`: the result
is the bit pattern of a NaN. Other texts are left undecided (`none`). -/
def parseFloatNaN (s : Str) : Option Nat :=
  if s = "NaN".toList then some 0x7FF8000000000001 else none

/-! ## References for the type converter -/

/-- The trimmed pieces of a list value as the specification words them: trim
the value, take the first of comma, semicolon, pipe and space that occurs in
it, split at that separator only (the whole text is the single piece when none
occurs), trim every piece. -/
def referencePieces (value : Str) : List Str :=
  let v := trimSpace value
  let pieces :=
    match [',', ';', '|', ' '].find? (fun sep => decide (sep ∈ v)) with
    | some sep => v.splitOn sep
    | none => [v]
  pieces.map trimSpace

/-- The reference result for `string[]`: the trimmed pieces that are not empty. -/
def stringListReference (value : Str) : List Str :=
  (referencePieces value).filter (fun piece => decide (piece ≠ []))

/-- A text that is not empty and neither starts nor ends with white space. -/
def TrimmedText (x : Str) : Prop :=
  x ≠ [] ∧ (∀ c, x.head? = some c → isSpace c = false) ∧
    (∀ c, x.getLast? = some c → isSpace c = false)

/-- A non-empty text of decimal digits. -/
def isDigits (ds : Str) : Bool :=
  !ds.isEmpty && ds.all (fun c => decide (48 ≤ c.toNat ∧ c.toNat ≤ 57))

/-- The number written by a text of decimal digits. -/
def digitsValue (ds : Str) : Nat :=
  ds.foldl (fun acc c => 10 * acc + (c.toNat - 48)) 0

/-- The integer written by a text made of an optional sign followed by
decimal digits, `none` for any other text. -/
def integerValue (s : Str) : Option Int :=
  match s with
  | [] => none
  | c :: rest =>
    if c = '-' then (if isDigits rest then some (-(digitsValue rest : Int)) else none)
    else if c = '+' then (if isDigits rest then some (digitsValue rest : Int) else none)
    else if isDigits (c :: rest) then some (digitsValue (c :: rest) : Int) else none

/-- Whether an integer is in the range of the machine integer (`int`, 64 bits). -/
def inIntRange (n : Int) : Bool := decide (-2 ^ 63 ≤ n ∧ n < 2 ^ 63)

/-- The value of a text that is a base-10 integer within the machine range. -/
def machineInteger (s : Str) : Option Int :=
  match integerValue s with
  | some n => if inIntRange n then some n else none
  | none => none

/-- The reference result for `int[]`: the values of the trimmed pieces that
are base-10 integers, in order. -/
def intListReference (value : Str) : List Int :=
  (referencePieces value).filterMap machineInteger

/-- The documented zero value of a type tag. -/
def zeroValue (paramType : Str) : Value :=
  if paramType = "int".toList then .int 0
  else if paramType = "float".toList then .float 0
  else if paramType = "bool".toList then .bool false
  else if paramType = "string[]".toList then .strSlice (some [])
  else if paramType = "int[]".toList then .intSlice (some [])
  else .str []

/-- The character of a decimal digit. -/
def digitChar (d : Nat) : Char := Char.ofNat (48 + d)

/-- The decimal digits of `n` put in front of `acc`; the first argument bounds
the number of digits. -/
def formatNatAux : Nat → Nat → Str → Str
  | 0, _, acc => acc
  | fuel + 1, n, acc =>
    if n < 10 then digitChar n :: acc
    else formatNatAux fuel (n / 10) (digitChar (n % 10) :: acc)

/-- A natural number in decimal. -/
def formatNat (n : Nat) : Str := formatNatAux (n + 1) n []

/-- An integer in decimal, as `strconv.Itoa` writes it. -/
def formatInt (n : Int) : Str :=
  if n < 0 then '-' :: formatNat n.natAbs else formatNat n.toNat

/-- The normal form of an integer text as the specification words it: the
text without surrounding white space, without a leading `+` and without
leading zeros, `-0` being written `0`. -/
def normalize (s : Str) : Str :=
  let t := trimSpace s
  let negative := decide (t.head? = some '-')
  let body := if t.head? = some '-' ∨ t.head? = some '+' then t.tail else t
  let digits := body.dropWhile (fun c => decide (c = '0'))
  if digits = [] then ['0'] else if negative then '-' :: digits else digits

/-- A text of digits without its leading zeros, `0` when nothing is left. -/
def canonicalDigits (ds : Str) : Str :=
  if ds.dropWhile (fun c => decide (c = '0')) = [] then ['0']
  else ds.dropWhile (fun c => decide (c = '0'))

/-! ## Go `sort.Slice` (package `sort` of Go 1.19 and later: pattern-defeating quicksort)

`sort.Slice` is library code. It is modelled here on lists, with `Less(i, j)`
and `Swap(i, j)` acting on positions, one definition per function of the
package; loops carry a bound on their iterations as first argument. -/

/-- `data.Less(i, j)` for the comparison `lt`. -/
def lessAt {α : Type} (lt : α → α → Bool) (data : List α) (i j : Nat) : Bool :=
  match data.get? i, data.get? j with
  | some x, some y => lt x y
  | _, _ => false

/-- `data.Swap(i, j)`. -/
def swapAt {α : Type} (data : List α) (i j : Nat) : List α :=
  match data.get? i, data.get? j with
  | some x, some y => (data.set i y).set j x
  | _, _ => data

/-- The inner loop of `insertionSort_func`, entered with `j`:
`for ; j > a && data.Less(j, j-1); j-- { data.Swap(j, j-1) }`. -/
def insertionInner {α : Type} (lt : α → α → Bool) (a : Nat) : Nat → List α → List α
  | 0, data => data
  | j + 1, data =>
    if j + 1 > a ∧ lessAt lt data (j + 1) j = true then
      insertionInner lt a j (swapAt data (j + 1) j)
    else data

/-- `insertionSort_func(data, a, b)`: the inner loop for `i = a+1, ..., b-1`. -/
def insertionSortFunc {α : Type} (lt : α → α → Bool) (data : List α) (a b : Nat) : List α :=
  (List.range' (a + 1) (b - (a + 1))).foldl (fun data i => insertionInner lt a i data) data

/-- `siftDown_func(data, lo, hi, first)`, entered with `root = lo`. -/
def siftDown {α : Type} (lt : α → α → Bool) (hi first : Nat) : Nat → Nat → List α → List α
  | 0, _, data => data
  | fuel + 1, root, data =>
    let child := 2 * root + 1
    if child ≥ hi then data
    else
      let child :=
        if child + 1 < hi ∧ lessAt lt data (first + child) (first + child + 1) = true then
          child + 1
        else child
      if lessAt lt data (first + root) (first + child) = false then data
      else siftDown lt hi first fuel child (swapAt data (first + root) (first + child))

/-- `heapSort_func(data, a, b)`. -/
def heapSortFunc {α : Type} (lt : α → α → Bool) (data : List α) (a b : Nat) : List α :=
  let first := a
  let hi := b - a
  let data := (List.range ((hi - 1) / 2 + 1)).reverse.foldl
    (fun data i => siftDown lt hi first hi i data) data
  (List.range hi).reverse.foldl
    (fun data i => siftDown lt i first hi 0 (swapAt data first (first + i))) data

/-- `xorshift.Next` on a 64-bit state. -/
def xorshiftNext (r : Nat) : Nat :=
  let r := r ^^^ ((r <<< 13) % 2 ^ 64)
  let r := r ^^^ (r >>> 7)
  r ^^^ ((r <<< 17) % 2 ^ 64)

/-- Go `bits.Len`: the number of bits needed to write `n`. -/
def bitsLen (n : Nat) : Nat := if n = 0 then 0 else Nat.log2 n + 1

/-- `nextPowerOfTwo(length)`. -/
def nextPowerOfTwo (length : Nat) : Nat := 2 ^ bitsLen length

/-- `breakPatterns_func(data, a, b)`: three swaps at pseudo-random places. -/
def breakPatterns {α : Type} (data : List α) (a b : Nat) : List α :=
  let length := b - a
  if length ≥ 8 then
    let modulus := nextPowerOfTwo length
    let idx := a + (length / 4) * 2 - 1
    let r1 := xorshiftNext length
    let r2 := xorshiftNext r1
    let r3 := xorshiftNext r2
    let place := fun (r : Nat) =>
      let other := r % modulus
      if other ≥ length then other - length else other
    let data := swapAt data (idx - 1 + 0) (a + place r1)
    let data := swapAt data (idx - 1 + 1) (a + place r2)
    swapAt data (idx - 1 + 2) (a + place r3)
  else data

/-- The `sortedHint` of `choosePivot_func`. -/
inductive SortedHint
  | unknownHint
  | increasingHint
  | decreasingHint
  deriving DecidableEq, Repr

/-- `order2_func`: the two positions in order, and the swap count. -/
def order2 {α : Type} (lt : α → α → Bool) (data : List α) (a b swaps : Nat) :
    Nat × Nat × Nat :=
  if lessAt lt data b a = true then (b, a, swaps + 1) else (a, b, swaps)

/-- `median_func`: the position of the median of three, and the swap count. -/
def median {α : Type} (lt : α → α → Bool) (data : List α) (a b c swaps : Nat) : Nat × Nat :=
  match order2 lt data a b swaps with
  | (a, b, swaps) =>
    match order2 lt data b c swaps with
    | (b, _, swaps) =>
      match order2 lt data a b swaps with
      | (_, b, swaps) => (b, swaps)

/-- `medianAdjacent_func`. -/
def medianAdjacent {α : Type} (lt : α → α → Bool) (data : List α) (a swaps : Nat) : Nat × Nat :=
  median lt data (a - 1) a (a + 1) swaps

/-- `choosePivot_func(data, a, b)`. -/
def choosePivot {α : Type} (lt : α → α → Bool) (data : List α) (a b : Nat) :
    Nat × SortedHint :=
  let l := b - a
  let i := a + l / 4 * 1
  let j := a + l / 4 * 2
  let k := a + l / 4 * 3
  let js : Nat × Nat :=
    if l ≥ 8 then
      if l ≥ 50 then
        match medianAdjacent lt data i 0 with
        | (i, swaps) =>
          match medianAdjacent lt data j swaps with
          | (j, swaps) =>
            match medianAdjacent lt data k swaps with
            | (k, swaps) => median lt data i j k swaps
      else median lt data i j k 0
    else (j, 0)
  (js.1, if js.2 = 0 then .increasingHint else if js.2 = 4 * 3 then .decreasingHint
    else .unknownHint)

/-- `reverseRange_func(data, a, b)`. -/
def reverseRange {α : Type} (data : List α) (a b : Nat) : List α :=
  data.take a ++ ((data.drop a).take (b - a)).reverse ++ data.drop b

/-- `for i <= j && p(i) { i++ }`. -/
def scanUp (p : Nat → Bool) (j : Nat) : Nat → Nat → Nat
  | 0, i => i
  | fuel + 1, i => if i ≤ j ∧ p i = true then scanUp p j fuel (i + 1) else i

/-- `for i <= j && p(j) { j-- }`. -/
def scanDown (p : Nat → Bool) (i : Nat) : Nat → Nat → Nat
  | 0, j => j
  | fuel + 1, j => if i ≤ j ∧ p j = true then scanDown p i fuel (j - 1) else j

/-- The shifting loops of `partialInsertionSort_func`: the smaller element to
the left, entered with `j = i - 1`. -/
def shiftSmaller {α : Type} (lt : α → α → Bool) : Nat → List α → List α
  | 0, data => data
  | j + 1, data =>
    if lessAt lt data (j + 1) j = false then data
    else shiftSmaller lt j (swapAt data (j + 1) j)

/-- The shifting loops of `partialInsertionSort_func`: the greater element to
the right, entered with `j = i + 1`. -/
def shiftGreater {α : Type} (lt : α → α → Bool) (b : Nat) : Nat → Nat → List α → List α
  | 0, _, data => data
  | fuel + 1, j, data =>
    if j < b then
      if lessAt lt data j (j - 1) = false then data
      else shiftGreater lt b fuel (j + 1) (swapAt data j (j - 1))
    else data

/-- `partialInsertionSort_func(data, a, b)`, with the steps left and the
current `i`; the Boolean tells whether the range is sorted at the end. -/
def insertionSortUpTo {α : Type} (lt : α → α → Bool) (a b : Nat) :
    Nat → Nat → List α → List α × Bool
  | 0, _, data => (data, false)
  | steps + 1, i, data =>
    let i := scanUp (fun i => decide (i < b) && !lessAt lt data i (i - 1)) b b i
    if i = b then (data, true)
    else if b - a < 50 then (data, false)
    else
      let data := swapAt data i (i - 1)
      let data := if i - a ≥ 2 then shiftSmaller lt (i - 1) data else data
      let data := if b - i ≥ 2 then shiftGreater lt b b (i + 1) data else data
      insertionSortUpTo lt a b steps i data

/-- `partitionEqual_func(data, a, b, pivot)` after the first swap: the main
loop, with the data and the returned position as result. -/
def equalLoop {α : Type} (lt : α → α → Bool) (a : Nat) :
    Nat → Nat → Nat → List α → List α × Nat
  | 0, i, _, data => (data, i)
  | fuel + 1, i, j, data =>
    let i := scanUp (fun i => !lessAt lt data a i) j (j + 1) i
    let j := scanDown (fun j => lessAt lt data a j) i (j + 1) j
    if i > j then (data, i)
    else equalLoop lt a fuel (i + 1) (j - 1) (swapAt data i j)

/-- `partitionEqual_func(data, a, b, pivot)`. -/
def partitionEqual {α : Type} (lt : α → α → Bool) (data : List α) (a b pivot : Nat) :
    List α × Nat :=
  equalLoop lt a (b - a) (a + 1) (b - 1) (swapAt data a pivot)

/-- The main loop of `partition_func`, with the data and the final `j` as result. -/
def partitionLoop {α : Type} (lt : α → α → Bool) (a : Nat) :
    Nat → Nat → Nat → List α → List α × Nat
  | 0, _, j, data => (data, j)
  | fuel + 1, i, j, data =>
    let i := scanUp (fun i => lessAt lt data i a) j (j + 1) i
    let j := scanDown (fun j => !lessAt lt data j a) i (j + 1) j
    if i > j then (data, j)
    else partitionLoop lt a fuel (i + 1) (j - 1) (swapAt data i j)

/-- `partition_func(data, a, b, pivot)`: the data, the new position of the
pivot, and whether the range was already partitioned. -/
def partitionFunc {α : Type} (lt : α → α → Bool) (data : List α) (a b pivot : Nat) :
    List α × Nat × Bool :=
  let data := swapAt data a pivot
  let i := scanUp (fun i => lessAt lt data i a) (b - 1) b (a + 1)
  let j := scanDown (fun j => !lessAt lt data j a) i b (b - 1)
  if i > j then (swapAt data j a, j, true)
  else
    match partitionLoop lt a (b - a) (i + 1) (j - 1) (swapAt data i j) with
    | (data, j) => (swapAt data j a, j, false)

/-- `pdqsort_func(data, a, b, limit)`, with the two flags of its loop; `none`
when the bound on the iterations is used up. -/
def pdqsortFunc {α : Type} (lt : α → α → Bool) :
    Nat → List α → Nat → Nat → Nat → Bool → Bool → Option (List α)
  | 0, _, _, _, _, _, _ => none
  | fuel + 1, data, a, b, limit, wasBalanced, wasPartitioned =>
    let length := b - a
    if length ≤ 12 then some (insertionSortFunc lt data a b)
    else if limit = 0 then some (heapSortFunc lt data a b)
    else
      let data := if wasBalanced then data else breakPatterns data a b
      let limit := if wasBalanced then limit else limit - 1
      let ph := choosePivot lt data a b
      let data := if ph.2 = .decreasingHint then reverseRange data a b else data
      let pivot := if ph.2 = .decreasingHint then (b - 1) - (ph.1 - a) else ph.1
      let hint := if ph.2 = .decreasingHint then SortedHint.increasingHint else ph.2
      let tried : List α × Bool :=
        if wasBalanced && wasPartitioned && decide (hint = .increasingHint) then
          insertionSortUpTo lt a b 5 (a + 1) data
        else (data, false)
      if tried.2 then some tried.1
      else
        let data := tried.1
        if a > 0 ∧ lessAt lt data (a - 1) pivot = false then
          match partitionEqual lt data a b pivot with
          | (data, mid) => pdqsortFunc lt fuel data mid b limit wasBalanced wasPartitioned
        else
          match partitionFunc lt data a b pivot with
          | (data, mid, alreadyPartitioned) =>
            let leftLen := mid - a
            let rightLen := b - mid
            let balanceThreshold := length / 8
            if leftLen < rightLen then
              match pdqsortFunc lt fuel data a mid limit true true with
              | none => none
              | some data =>
                pdqsortFunc lt fuel data (mid + 1) b limit
                  (decide (leftLen ≥ balanceThreshold)) alreadyPartitioned
            else
              match pdqsortFunc lt fuel data (mid + 1) b limit true true with
              | none => none
              | some data =>
                pdqsortFunc lt fuel data a mid limit
                  (decide (rightLen ≥ balanceThreshold)) alreadyPartitioned

/-- `sort.Slice(x, less)`: `pdqsort_func` on the whole slice with
`limit = bits.Len(length)`. Every iteration passes a shorter range on, so
`length + 1` iterations are allowed for. -/
def sortSlice {α : Type} (lt : α → α → Bool) (data : List α) : Option (List α) :=
  pdqsortFunc lt (data.length + 1) data 0 data.length (bitsLen data.length) true true

/-- The comparison `genParamsArray` hands to `sort.Slice`. -/
def lessByIndex (x y : ParamMapping) : Bool := decide (x.ArrayIndex < y.ArrayIndex)

/-- The call `sort.Slice(mappings, ...)` of `genParamsArray`, the slice being
left as it is if the model of the sort gives no result. -/
def sortMappings (mappings : List ParamMapping) : List ParamMapping :=
  (sortSlice lessByIndex mappings).getD mappings

/-- Thirteen string mappings of the columns 0 to 12, the first with
`ArrayIndex` 1 and the others with `ArrayIndex` 0. -/
def thirteenMappings : List ParamMapping :=
  (List.range 13).map (fun i =>
    ⟨(Nat.repr i).toList, [], "string".toList, [], if i = 0 then 1 else 0⟩)

/-- A row of thirteen fields `r0` to `r12`. -/
def thirteenFields : List Str :=
  (List.range 13).map (fun i => 'r' :: (Nat.repr i).toList)

/-! ## Request sender -/

/-- Go 64-bit signed arithmetic: the representative of `x` in `[-2^63, 2^63)`. -/
def wrap64 (x : Int) : Int := (x + 2 ^ 63) % 2 ^ 64 - 2 ^ 63

/-- Go `time.Millisecond`, in nanoseconds. -/
def millisecond : Int := 1000000

/-- Go `time.Second`, in nanoseconds. -/
def second : Int := 1000000000

/-- The `backoffDelay` of `sendRequest` for a given `retryCount`:
`time.Duration(retryCount*retryCount*100) * time.Millisecond`, replaced by
`5 * time.Second` when greater; every product is a 64-bit product. -/
def backoffDelay (retryCount : Int) : Int :=
  let backoffDelay := wrap64 (wrap64 (wrap64 (retryCount * retryCount) * 100) * millisecond)
  if backoffDelay > 5 * second then 5 * second else backoffDelay

/-- The time `time.Sleep d` pauses the caller: `d`, and no time at all when
`d` is zero or negative. -/
def sleepTime (d : Int) : Int := if d ≤ 0 then 0 else d

/-- What one HTTP exchange of `sendRequest` produced: an error of
`httpClient.Do`, an error of `io.ReadAll`, or a status code with the body
text that was read (`respBody`, at most 5 MiB of the response). -/
inductive AttemptResult
  | transportError
  | readError
  | response (status : Int) (respBody : Str)
  deriving DecidableEq, Repr

/-- How `sendRequest` continues after an exchange. -/
inductive AttemptClass
  | retry
  | clientFailed
  | succeeded
  deriving DecidableEq, Repr

/-- The literal marker text looked for in a response body. -/
def callFailedMarker : Str := "call failed".toList

/-- The decisions taken by `sendRequest` after `httpClient.Do` returns
(lines 931 to 972): errors and status `>= 500` are retried, status `>= 400`
returns at once, a body holding the marker is retried, anything else is a
success. -/
def classifyAttempt (r : AttemptResult) : AttemptClass :=
  match r with
  | .transportError => .retry
  | .readError => .retry
  | .response status respBody =>
    if status ≥ 500 then .retry
    else if status ≥ 400 then .clientFailed
    else if stringsContains respBody callFailedMarker then .retry
    else .succeeded

/-- The log lines written by `sendRequest`, by kind. -/
inductive LogEvent
  | templateParseFailed
  | marshalFailed
  | requestCreationFailed
  | requestFailed (retry : Nat)
  | readFailed (retry : Nat)
  | serverError (status : Int) (retry : Nat)
  | clientError (status : Int)
  | callFailed (retry : Nat)
  | success
  | finalFailure
  deriving DecidableEq, Repr

/-- How a call of `sendRequest` ends. `Aborted` is a return after a template,
marshal or request-creation failure, `Panicked` a run-time panic of the
endpoint selection, `OutOfFuel` the model running out of iterations (shown
below never to happen). -/
inductive SendState
  | Succeeded
  | ClientFailed
  | Exhausted
  | Cancelled
  | Aborted
  | Panicked
  | OutOfFuel
  deriving DecidableEq, Repr

/-- Everything around one call of `sendRequest` that the code cannot decide
itself: whether the body template parses, whether the request body marshals,
whether the request can be created, whether the context is found cancelled at
the head of the iteration with a given `retryCount`, and what the HTTP
exchange made at a given `retryCount` produces. -/
structure SendEnv where
  templateOk : Bool
  marshalOk : Bool
  requestOk : Bool
  cancelled : Nat → Bool
  outcome : Nat → AttemptResult

/-- What a call of `sendRequest` did: its final state, the number of calls of
`httpClient.Do`, the arguments of `time.Sleep` in order, the endpoint chosen
in each iteration in order, and the log lines in order. -/
structure SendResult where
  state : SendState
  attempts : Nat
  sleeps : List Int
  endpoints : List Str
  log : List LogEvent
  deriving DecidableEq, Repr

/-- Go `a % b` on `int`, with the panic on a zero divisor as `none`. -/
def goMod (a b : Int) : Option Int := if b = 0 then none else some (Int.tmod a b)

/-- Go `xs[i]`, with the index-out-of-range panic as `none`. -/
def goIndex {α : Type} (xs : List α) (i : Int) : Option α :=
  if 0 ≤ i ∧ i < (xs.length : Int) then xs.get? i.toNat else none

/-- The endpoint selection `ipList[task.RowIndex%len(ipList)]`. -/
def selectEndpoint (ipList : List Str) (task : RequestTask) : Option Str :=
  match goMod task.RowIndex (ipList.length : Int) with
  | none => none
  | some i => goIndex ipList i

/-- The endpoint list built by `executeRequests`: the text field trimmed,
split at line feeds, each line trimmed. -/
def parseIPList (text : Str) : List Str :=
  (stringsSplit (trimSpace text) (Char.ofNat 10)).map trimSpace

/-- A return of `sendRequest` with a last log line. -/
def SendResult.stop (state : SendState) (log : List LogEvent) : SendResult :=
  ⟨state, 0, [], [], log⟩

/-- Record a `time.Sleep` in front of what follows. -/
def SendResult.slept (d : Int) (r : SendResult) : SendResult :=
  ⟨r.state, r.attempts, d :: r.sleeps, r.endpoints, r.log⟩

/-- Record a chosen endpoint in front of what follows. -/
def SendResult.chose (ip : Str) (r : SendResult) : SendResult :=
  ⟨r.state, r.attempts, r.sleeps, ip :: r.endpoints, r.log⟩

/-- Record a call of `httpClient.Do` and its log line in front of what follows. -/
def SendResult.attempted (ev : LogEvent) (r : SendResult) : SendResult :=
  ⟨r.state, r.attempts + 1, r.sleeps, r.endpoints, ev :: r.log⟩

/-- The `for retryCount < maxRetries` loop of `sendRequest`, from the
iteration with the given `retryCount` on. The first argument bounds the
number of iterations; `sendRequest` passes `maxRetries`. -/
def sendLoop (env : SendEnv) (task : RequestTask) (ipList : List Str) (maxRetries : Int) :
    Nat → Nat → SendResult
  | 0, retryCount =>
    if (retryCount : Int) < maxRetries then .stop .OutOfFuel []
    else .stop .Exhausted [.finalFailure]
  | fuel + 1, retryCount =>
    if (retryCount : Int) < maxRetries then
      if env.cancelled retryCount then .stop .Cancelled []
      else
        let pause : SendResult → SendResult :=
          if retryCount > 0 then .slept (backoffDelay retryCount) else id
        pause <|
          match selectEndpoint ipList task with
          | none => .stop .Panicked []
          | some randomIP =>
            .chose randomIP <|
              if !env.marshalOk then .stop .Aborted [.marshalFailed]
              else if !env.requestOk then .stop .Aborted [.requestCreationFailed]
              else
                match env.outcome retryCount with
                | .transportError =>
                  .attempted (.requestFailed (retryCount + 1))
                    (sendLoop env task ipList maxRetries fuel (retryCount + 1))
                | .readError =>
                  .attempted (.readFailed (retryCount + 1))
                    (sendLoop env task ipList maxRetries fuel (retryCount + 1))
                | .response status respBody =>
                  match classifyAttempt (.response status respBody) with
                  | .retry =>
                    .attempted
                      (if status ≥ 500 then .serverError status (retryCount + 1)
                        else .callFailed (retryCount + 1))
                      (sendLoop env task ipList maxRetries fuel (retryCount + 1))
                  | .clientFailed =>
                    .attempted (.clientError status) (.stop .ClientFailed [])
                  | .succeeded => .attempted .success (.stop .Succeeded [])
    else .stop .Exhausted [.finalFailure]

/-- `HTTPTool.sendRequest`. -/
def sendRequest (env : SendEnv) (task : RequestTask) (ipList : List Str) (maxRetries : Int) :
    SendResult :=
  if !env.templateOk then .stop .Aborted [.templateParseFailed]
  else sendLoop env task ipList maxRetries maxRetries.toNat 0

/-- An environment in which nothing but the HTTP exchanges can end the call:
the template parses, the request can be built, the run is not cancelled. -/
def SendEnv.undisturbed (env : SendEnv) : Prop :=
  env.templateOk = true ∧ env.marshalOk = true ∧ env.requestOk = true ∧
    ∀ n, env.cancelled n = false

/-- The environment of a run that is never disturbed and whose exchanges are
given by `outcome`. -/
def SendEnv.ofOutcomes (outcome : Nat → AttemptResult) : SendEnv :=
  ⟨true, true, true, fun _ => false, outcome⟩

/-! ## Worker pool and rate ticker of `executeRequests` -/

/-- Where a worker goroutine stands: at the outer `select` (`idle`), holding a
task at the inner `select` and waiting for `rateLimiter.C` (`gated`), inside
`sendRequest` at the head of the loop with the given `retryCount` (`sending`),
or returned (`exited`). -/
inductive WorkerPhase
  | idle
  | gated (task : RequestTask)
  | sending (task : RequestTask) (retryCount : Nat)
  | exited
  deriving DecidableEq, Repr

/-- A worker with its history: ticks received from `rateLimiter.C`, calls of
`sendRequest`, first attempts (`httpClient.Do` at `retryCount = 0`) and all
attempts (`httpClient.Do`). -/
structure Worker where
  phase : WorkerPhase
  ticks : Nat
  sends : Nat
  firsts : Nat
  attempts : Nat
  deriving DecidableEq, Repr

/-- The shared state the workers act on: the content of `requestQueue`,
whether it is closed, whether the context is cancelled, and the workers. -/
structure PoolState where
  queue : List RequestTask
  closed : Bool
  cancelled : Bool
  workers : List Worker
  deriving DecidableEq, Repr

/-- The steps of the pool: the producer sends a task to the queue or closes
it, the context is cancelled, worker `w` receives a task, returns, receives a
tick and calls `sendRequest`, makes one HTTP attempt with a given result, or
returns from `sendRequest` without a further attempt. -/
inductive PoolEvent
  | enqueue (task : RequestTask)
  | close
  | cancel
  | receive (w : Nat)
  | quit (w : Nat)
  | tick (w : Nat)
  | attempt (w : Nat) (result : AttemptResult)
  | finish (w : Nat)
  deriving DecidableEq, Repr

/-- Replace worker `w`. -/
def PoolState.setWorker (s : PoolState) (w : Nat) (wk : Worker) : PoolState :=
  ⟨s.queue, s.closed, s.cancelled, s.workers.set w wk⟩

/-- One step of the pool, `none` when the step is not possible in `s`.
The queue has capacity `2 * workers`; a worker at a `select` may take any
ready case; the loop of `sendRequest` makes an attempt only while
`retryCount < maxRetries` and the context is not cancelled, and `sendRequest`
may return at the head of any iteration (loop condition, cancellation, or a
template, marshal or request-creation failure). -/
def poolStep (maxRetries : Int) (s : PoolState) (ev : PoolEvent) : Option PoolState :=
  match ev with
  | .enqueue task =>
    if s.closed = false ∧ s.queue.length < 2 * s.workers.length then
      some ⟨s.queue ++ [task], s.closed, s.cancelled, s.workers⟩
    else none
  | .close => if s.closed then none else some ⟨s.queue, true, s.cancelled, s.workers⟩
  | .cancel => some ⟨s.queue, s.closed, true, s.workers⟩
  | .receive w =>
    match s.workers.get? w, s.queue with
    | some ⟨.idle, t, n, f, a⟩, task :: rest =>
      some ⟨rest, s.closed, s.cancelled, s.workers.set w ⟨.gated task, t, n, f, a⟩⟩
    | _, _ => none
  | .quit w =>
    match s.workers.get? w with
    | some ⟨.idle, t, n, f, a⟩ =>
      if s.cancelled ∨ (s.closed ∧ s.queue = []) then s.setWorker w ⟨.exited, t, n, f, a⟩
      else none
    | some ⟨.gated _, t, n, f, a⟩ =>
      if s.cancelled then s.setWorker w ⟨.exited, t, n, f, a⟩ else none
    | _ => none
  | .tick w =>
    match s.workers.get? w with
    | some ⟨.gated task, t, n, f, a⟩ => s.setWorker w ⟨.sending task 0, t + 1, n + 1, f, a⟩
    | _ => none
  | .attempt w result =>
    match s.workers.get? w with
    | some ⟨.sending task retryCount, t, n, f, a⟩ =>
      if (retryCount : Int) < maxRetries ∧ s.cancelled = false then
        let f' := if retryCount = 0 then f + 1 else f
        match classifyAttempt result with
        | .retry => s.setWorker w ⟨.sending task (retryCount + 1), t, n, f', a + 1⟩
        | _ => s.setWorker w ⟨.idle, t, n, f', a + 1⟩
      else none
    | _ => none
  | .finish w =>
    match s.workers.get? w with
    | some ⟨.sending _ _, t, n, f, a⟩ => s.setWorker w ⟨.idle, t, n, f, a⟩
    | _ => none

/-- The pool after a sequence of steps, `none` when one of them is not possible. -/
def poolRun (maxRetries : Int) (s : PoolState) : List PoolEvent → Option PoolState
  | [] => some s
  | ev :: evs =>
    match poolStep maxRetries s ev with
    | none => none
    | some s' => poolRun maxRetries s' evs

/-- The pool when the workers have just been started. -/
def poolInit (workers : Nat) : PoolState :=
  ⟨[], false, false, List.replicate workers ⟨.idle, 0, 0, 0, 0⟩⟩

/-- Ticks received by all workers. -/
def PoolState.totalTicks (s : PoolState) : Nat := (s.workers.map (fun wk => wk.ticks)).sum

/-- Calls of `sendRequest` by all workers. -/
def PoolState.totalSends (s : PoolState) : Nat := (s.workers.map (fun wk => wk.sends)).sum

/-- First attempts started by all workers. -/
def PoolState.totalFirsts (s : PoolState) : Nat := (s.workers.map (fun wk => wk.firsts)).sum

/-- HTTP attempts started by all workers. -/
def PoolState.totalAttempts (s : PoolState) : Nat :=
  (s.workers.map (fun wk => wk.attempts)).sum

/-- The interval handed to `time.NewTicker` by `executeRequests`,
`time.Second / time.Duration(qps)`; `none` is the panic of the integer
division by zero or of `NewTicker` on an interval that is not positive. -/
def tickerInterval (qps : Int) : Option Int :=
  if qps = 0 then none
  else
    let d := Int.tdiv second qps
    if d ≤ 0 then none else some d

/-- The time of the `j`-th tick of a ticker of interval `d`, counted from its
creation: ticks fall at the successive multiples of the interval. -/
def tickTime (d : Int) (j : Nat) : Int := j * d

/-- Whether the `j`-th tick falls in the half-open window of one second that
starts at time `a`. -/
def tickInWindow (d : Int) (a : Int) (j : Nat) : Bool :=
  decide (a ≤ tickTime d j) && decide (tickTime d j < a + second)

/-- What holds of every worker at every reachable state, for the retry bound
`m`: it has called `sendRequest` once per tick received; it has started no
more first attempts than it made calls, one less while a call has not made
its first attempt yet; and its attempts, with those the current call may
still make, number at most `m` per call. -/
def Worker.inv (m : Nat) (wk : Worker) : Prop :=
  wk.sends = wk.ticks ∧
  match wk.phase with
  | .sending _ k =>
    (k = 0 → wk.firsts + 1 ≤ wk.sends) ∧ wk.firsts ≤ wk.sends ∧
      wk.attempts + (m - k) ≤ m * wk.sends
  | _ => wk.firsts ≤ wk.sends ∧ wk.attempts ≤ m * wk.sends

/-! ## Input validation and producer loop of `executeRequests` -/

/-- The text fields read by `validateInputs` and `executeRequests`. -/
structure Entries where
  urlEntry : Str
  csvPathEntry : Str
  qpsEntry : Str
  workersEntry : Str
  retriesEntry : Str
  ipListEntry : Str
  deriving DecidableEq, Repr

/-- The errors `validateInputs` can return. -/
inductive InputError
  | urlEmpty
  | csvPathEmpty
  | qpsNotNumber
  | workersNotNumber
  | retriesNotNumber
  deriving DecidableEq, Repr

/-- `HTTPTool.validateInputs`, `none` for the `nil` error. -/
def validateInputs (h : Entries) : Option InputError :=
  if trimSpace h.urlEntry = [] then some .urlEmpty
  else if trimSpace h.csvPathEntry = [] then some .csvPathEmpty
  else if atoi h.qpsEntry = none then some .qpsNotNumber
  else if atoi h.workersEntry = none then some .workersNotNumber
  else if atoi h.retriesEntry = none then some .retriesNotNumber
  else none

/-- The configuration `executeRequests` parses at its start. -/
structure RunConfig where
  qps : Int
  workers : Int
  maxRetries : Int
  ipList : List Str
  deriving DecidableEq, Repr

/-- `HTTPTool.startExecution` as far as the run is concerned: no run (`none`)
when `validateInputs` returns an error, otherwise `executeRequests` is started
and parses its configuration (`strconv.Atoi` with the error dropped, which
leaves 0). -/
def startExecution (h : Entries) : Option RunConfig :=
  match validateInputs h with
  | some _ => none
  | none =>
    some ⟨(atoi h.qpsEntry).getD 0, (atoi h.workersEntry).getD 0, (atoi h.retriesEntry).getD 0,
      parseIPList h.ipListEntry⟩

/-- The arguments of one call of `updateProgress`. -/
structure ProgressSnapshot where
  processed : Int
  total : Int
  success : Int
  error : Int
  deriving DecidableEq, Repr

/-- Where the producer (the goroutine of `executeRequests`) stands: at the
head of iteration `i` of the loop over `allRows`, before the periodic check
of the context (`loopHead`); in iteration `i` after that check (`mapping`); at
the `select` that sends the task of row `i` (`sending`); or returned, for a
CSV without data rows, after a cancellation was seen, or after the loop with
the completion report. -/
inductive ProducerPhase
  | loopHead
  | mapping
  | sending (task : RequestTask)
  | returnedNoData
  | returnedCancelled
  | returnedCompleted
  deriving DecidableEq, Repr

/-- The state of the producer: its phase, the loop index `i`, its counters,
the rows handed to `genParams`, the tasks sent to `requestQueue`, the calls
of `updateProgress`, the completion report (success and error totals), and
whether the context has been cancelled. -/
structure ProducerState where
  phase : ProducerPhase
  i : Nat
  rowIndex : Int
  successCount : Int
  errorCount : Int
  processedCount : Int
  mapped : List (List Str)
  enqueued : List RequestTask
  snapshots : List ProgressSnapshot
  report : Option (Int × Int)
  ctxDone : Bool
  deriving DecidableEq, Repr

/-- The steps of the producer's run: the context is cancelled by the user;
the producer goes on to its next observation point; the `select` of the
enqueue takes the send; the `select` takes `ctx.Done()`. -/
inductive ProducerEvent
  | cancel
  | advance
  | send
  | stop
  deriving DecidableEq, Repr

/-- `totalRows` of `executeRequests`: the rows read minus the header row. -/
def totalRows (allRows : List (List Str)) : Int := (allRows.length : Int) - 1

/-- The progress update made when `processedCount%batchSize == 0` or
`processedCount == totalRows`. -/
def maybeProgress (total : Int) (s : ProducerState) : ProducerState :=
  if Int.tmod s.processedCount 100 = 0 ∨ s.processedCount = total then
    { s with snapshots := s.snapshots ++
        [⟨s.processedCount, total, s.successCount, s.errorCount⟩] }
  else s

/-- The producer after the rows are read: returned at once when there is no
data row, otherwise at the head of the loop with its counters at zero. -/
def producerInit (allRows : List (List Str)) : ProducerState :=
  if totalRows allRows ≤ 0 then ⟨.returnedNoData, 0, 0, 0, 0, 0, [], [], [], none, false⟩
  else ⟨.loopHead, 0, 0, 0, 0, 0, [], [], [], none, false⟩

/-- One step of the producer, `none` when the step is not possible. `gen`
stands for `genParams` followed by the text of the payload, `none` for its
error. -/
def producerStep (gen : List Str → Option Str) (allRows : List (List Str))
    (s : ProducerState) (ev : ProducerEvent) : Option ProducerState :=
  match ev with
  | .cancel => some { s with ctxDone := true }
  | .advance =>
    match s.phase with
    | .loopHead =>
      match allRows.get? s.i with
      | none =>
        some { s with
          phase := .returnedCompleted
          snapshots := s.snapshots ++
            [⟨totalRows allRows, totalRows allRows, s.successCount, s.errorCount⟩]
          report := some (s.successCount, s.errorCount) }
      | some _ =>
        if s.i % 10 = 0 ∧ s.ctxDone = true then some { s with phase := .returnedCancelled }
        else some { s with phase := .mapping }
    | .mapping =>
      match allRows.get? s.i with
      | none => none
      | some row =>
        let rowIndex := s.rowIndex + 1
        if rowIndex ≤ 1 then some { s with phase := .loopHead, i := s.i + 1, rowIndex := rowIndex }
        else
          match gen row with
          | none =>
            let counted : ProducerState :=
              { s with
                rowIndex := rowIndex
                mapped := s.mapped ++ [row]
                errorCount := s.errorCount + 1
                processedCount := s.processedCount + 1 }
            if s.ctxDone = true then some { counted with phase := .returnedCancelled }
            else
              some (maybeProgress (totalRows allRows)
                { counted with phase := .loopHead, i := s.i + 1 })
          | some paramsJSON =>
            some { s with
              rowIndex := rowIndex
              mapped := s.mapped ++ [row]
              phase := .sending ⟨paramsJSON, rowIndex⟩ }
    | _ => none
  | .send =>
    match s.phase with
    | .sending task =>
      some (maybeProgress (totalRows allRows)
        { s with
          phase := .loopHead
          i := s.i + 1
          enqueued := s.enqueued ++ [task]
          successCount := s.successCount + 1
          processedCount := s.processedCount + 1 })
    | _ => none
  | .stop =>
    match s.phase with
    | .sending _ => if s.ctxDone = true then some { s with phase := .returnedCancelled } else none
    | _ => none

/-- The producer after a sequence of steps, `none` when one is not possible. -/
def producerRun (gen : List Str → Option Str) (allRows : List (List Str))
    (s : ProducerState) : List ProducerEvent → Option ProducerState
  | [] => some s
  | ev :: evs =>
    match producerStep gen allRows s ev with
    | none => none
    | some s' => producerRun gen allRows s' evs

/-- The tasks of the rows of a stretch of the file that starts at index `k`:
the header (index 0) gives none, a row whose mapping fails gives none, a row
at index `k` whose mapping succeeds gives the task with row number `k + 1`. -/
def tasksFrom (gen : List Str → Option Str) : Nat → List (List Str) → List RequestTask
  | _, [] => []
  | k, row :: rest =>
    (if k = 0 then []
      else match gen row with
        | some paramsJSON => [⟨paramsJSON, (k : Int) + 1⟩]
        | none => []) ++ tasksFrom gen (k + 1) rest

/-- The number of data rows of a stretch of the file that starts at index `k`
whose mapping fails. -/
def errorsFrom (gen : List Str → Option Str) : Nat → List (List Str) → Int
  | _, [] => 0
  | k, row :: rest =>
    (if k = 0 then 0 else match gen row with
      | some _ => 0
      | none => 1) + errorsFrom gen (k + 1) rest

/-- The tasks of a file as the specification words them: the data rows whose
mapping succeeds, in file order, each with its row number counted from 1
with the header as row 1. -/
def expectedTasks (gen : List Str → Option Str) (allRows : List (List Str)) :
    List RequestTask :=
  (allRows.tail.enumFrom 2).filterMap
    (fun nr => (gen nr.2).map (fun paramsJSON => ⟨paramsJSON, (nr.1 : Int)⟩))

/-- The rows still to be counted, at most, once the context is cancelled: the
row in progress and those up to the next periodic check. -/
def overrunBudget (s : ProducerState) : Nat :=
  match s.phase with
  | .loopHead => (10 - s.i % 10) % 10
  | .mapping => 1 + (10 - (s.i + 1) % 10) % 10
  | .sending _ => 1 + (10 - (s.i + 1) % 10) % 10
  | _ => 0

/-- What a progress snapshot of a run that is not cancelled satisfies: its
total is `totalRows`, its processed count is the sum of its success and error
counts and is at most the total, and its success count is the number of
tasks of the rows processed so far. -/
def snapshotOk (gen : List Str → Option Str) (allRows : List (List Str))
    (snap : ProgressSnapshot) : Prop :=
  snap.total = totalRows allRows ∧ snap.processed = snap.success + snap.error ∧
  snap.processed ≤ snap.total ∧
  snap.success = ((tasksFrom gen 0 (allRows.take (snap.processed.toNat + 1))).length : Int)

/-- The invariant of the producer while the context is not cancelled: the
rows before index `i` have been handled, the tasks enqueued and the errors
counted are those of these rows, and the counters agree. -/
def producerInv (gen : List Str → Option Str) (allRows : List (List Str))
    (s : ProducerState) : Prop :=
  s.ctxDone = false ∧ s.i ≤ allRows.length ∧
  s.enqueued = tasksFrom gen 0 (allRows.take s.i) ∧
  s.errorCount = errorsFrom gen 0 (allRows.take s.i) ∧
  s.successCount = (s.enqueued.length : Int) ∧
  s.processedCount = s.successCount + s.errorCount ∧
  s.processedCount = ((s.i - 1 : Nat) : Int) ∧
  (∀ snap ∈ s.snapshots, snapshotOk gen allRows snap) ∧
  match s.phase with
  | .loopHead => s.rowIndex = (s.i : Int) ∧ s.report = none
  | .mapping => s.rowIndex = (s.i : Int) ∧ s.i < allRows.length ∧ s.report = none
  | .sending task =>
    s.rowIndex = (s.i : Int) + 1 ∧ 1 ≤ s.i ∧ s.report = none ∧
      ∃ row, allRows.get? s.i = some row ∧ gen row = some task.ParamsJSON ∧
        task.RowIndex = (s.i : Int) + 1
  | .returnedNoData => False
  | .returnedCancelled => False
  | .returnedCompleted =>
    s.i = allRows.length ∧ s.report = some (s.successCount, s.errorCount)

/-- The steps of a run that is never cancelled, for the rows from index `k`
on: for each row the periodic check and the mapping, the send when the
mapping succeeds, and at the end of the rows the step out of the loop. -/
def completingRun (gen : List Str → Option Str) : Nat → List (List Str) → List ProducerEvent
  | _, [] => [.advance]
  | k, row :: rest =>
    (if k = 0 then [.advance, .advance]
      else match gen row with
        | some _ => [.advance, .advance, .send]
        | none => [.advance, .advance]) ++ completingRun gen (k + 1) rest

/-! ## Lemmas on the request sender -/

@[simp] theorem SendResult.stop_state (st : SendState) (log : List LogEvent) :
    (SendResult.stop st log).state = st := rfl

@[simp] theorem SendResult.stop_attempts (st : SendState) (log : List LogEvent) :
    (SendResult.stop st log).attempts = 0 := rfl

@[simp] theorem SendResult.stop_sleeps (st : SendState) (log : List LogEvent) :
    (SendResult.stop st log).sleeps = [] := rfl

@[simp] theorem SendResult.stop_endpoints (st : SendState) (log : List LogEvent) :
    (SendResult.stop st log).endpoints = [] := rfl

@[simp] theorem SendResult.stop_log (st : SendState) (log : List LogEvent) :
    (SendResult.stop st log).log = log := rfl

/-- One iteration of the loop in an undisturbed environment, once the
endpoint is known: the exchange is made and classified. -/
theorem sendLoop_succ (env : SendEnv) (task : RequestTask) (ipList : List Str)
    (maxRetries : Int) (fuel k : Nat) (ip : Str) (henv : env.undisturbed)
    (hsel : selectEndpoint ipList task = some ip) (hk : (k : Int) < maxRetries) :
    sendLoop env task ipList maxRetries (fuel + 1) k =
      (if k > 0 then SendResult.slept (backoffDelay k) else id)
        (SendResult.chose ip
          (match classifyAttempt (env.outcome k) with
            | .retry =>
              SendResult.attempted
                (match env.outcome k with
                  | .transportError => .requestFailed (k + 1)
                  | .readError => .readFailed (k + 1)
                  | .response status _ =>
                    if status ≥ 500 then .serverError status (k + 1) else .callFailed (k + 1))
                (sendLoop env task ipList maxRetries fuel (k + 1))
            | .clientFailed =>
              SendResult.attempted
                (match env.outcome k with
                  | .response status _ => .clientError status
                  | _ => .success)
                (.stop .ClientFailed [])
            | .succeeded => SendResult.attempted .success (.stop .Succeeded []))) := by
  obtain ⟨_, hm, hr, hc⟩ := henv
  rw [sendLoop]
  simp only [hk, if_true, hc k, hsel, hm, hr, Bool.not_true, Bool.false_eq_true, if_false]
  cases hout : env.outcome k with
  | transportError => simp [classifyAttempt]
  | readError => simp [classifyAttempt]
  | response status body =>
    cases hcl : classifyAttempt (.response status body) <;> simp [hcl]

@[simp] theorem SendResult.pause_attempts (k : Nat) (d : Int) (r : SendResult) :
    ((if k > 0 then SendResult.slept d else id) r).attempts = r.attempts := by
  split <;> rfl

@[simp] theorem SendResult.pause_state (k : Nat) (d : Int) (r : SendResult) :
    ((if k > 0 then SendResult.slept d else id) r).state = r.state := by
  split <;> rfl

@[simp] theorem SendResult.pause_endpoints (k : Nat) (d : Int) (r : SendResult) :
    ((if k > 0 then SendResult.slept d else id) r).endpoints = r.endpoints := by
  split <;> rfl

@[simp] theorem SendResult.pause_log (k : Nat) (d : Int) (r : SendResult) :
    ((if k > 0 then SendResult.slept d else id) r).log = r.log := by
  split <;> rfl

theorem SendResult.pause_sleeps (k : Nat) (d : Int) (r : SendResult) :
    ((if k > 0 then SendResult.slept d else id) r).sleeps =
      (if k > 0 then d :: r.sleeps else r.sleeps) := by
  split <;> rfl

/-- The loop when the condition `retryCount < maxRetries` fails. -/
theorem sendLoop_exit (env : SendEnv) (task : RequestTask) (ipList : List Str)
    (maxRetries : Int) (fuel k : Nat) (hk : ¬ (k : Int) < maxRetries) :
    sendLoop env task ipList maxRetries fuel k = .stop .Exhausted [.finalFailure] := by
  cases fuel <;> simp [sendLoop, hk]

/-- The loop when every remaining exchange is retried: it runs to the bound. -/
theorem sendLoop_all_retry (env : SendEnv) (task : RequestTask) (ipList : List Str)
    (maxRetries : Int) (ip : Str) (henv : env.undisturbed)
    (hsel : selectEndpoint ipList task = some ip) :
    ∀ (fuel k : Nat), (maxRetries - k).toNat ≤ fuel →
      (∀ i : Nat, k ≤ i → (i : Int) < maxRetries → classifyAttempt (env.outcome i) = .retry) →
      (sendLoop env task ipList maxRetries fuel k).attempts = (maxRetries - k).toNat ∧
      (sendLoop env task ipList maxRetries fuel k).state = .Exhausted ∧
      LogEvent.finalFailure ∈ (sendLoop env task ipList maxRetries fuel k).log ∧
      (sendLoop env task ipList maxRetries fuel k).sleeps =
        ((List.range' k (maxRetries - k).toNat).filter (fun j => decide (0 < j))).map
          (fun j : Nat => backoffDelay (j : Int)) ∧
      (sendLoop env task ipList maxRetries fuel k).endpoints =
        List.replicate (maxRetries - k).toNat ip := by
  intro fuel
  induction fuel with
  | zero =>
    intro k hfuel _
    have hk : ¬ (k : Int) < maxRetries := by omega
    have h0 : (maxRetries - k).toNat = 0 := by omega
    rw [sendLoop_exit _ _ _ _ _ _ hk, h0]
    simp
  | succ fuel ih =>
    intro k hfuel hall
    by_cases hk : (k : Int) < maxRetries
    · have hcl := hall k (le_refl k) hk
      have hstep : (maxRetries - k).toNat = (maxRetries - ((k + 1 : Nat) : Int)).toNat + 1 := by
        push_cast; omega
      obtain ⟨ha, hs, hl, hsl, he⟩ := ih (k + 1) (by push_cast at hstep ⊢; omega)
        (fun i hi hiM => hall i (by omega) hiM)
      rw [sendLoop_succ env task ipList maxRetries fuel k ip henv hsel hk, hcl]
      simp only [SendResult.pause_attempts, SendResult.pause_state, SendResult.pause_endpoints,
        SendResult.pause_log, SendResult.pause_sleeps, SendResult.chose, SendResult.attempted]
      rw [hstep, ha, hs, hsl, he]
      refine ⟨rfl, rfl, List.mem_cons_of_mem _ hl, ?_, by simp [List.replicate_succ]⟩
      rw [List.range'_succ, List.filter_cons]
      by_cases hk0 : 0 < k <;> simp [hk0]
    · have h0 : (maxRetries - k).toNat = 0 := by omega
      rw [sendLoop_exit _ _ _ _ _ _ hk, h0]
      simp

/-- The loop when the exchange at `retryCount = p` is the first that is not
retried: it stops there. -/
theorem sendLoop_first_final (env : SendEnv) (task : RequestTask) (ipList : List Str)
    (maxRetries : Int) (ip : Str) (henv : env.undisturbed)
    (hsel : selectEndpoint ipList task = some ip) (p : Nat) (hp : (p : Int) < maxRetries)
    (hlast : classifyAttempt (env.outcome p) ≠ .retry) :
    ∀ (fuel k : Nat), k ≤ p → (maxRetries - k).toNat ≤ fuel →
      (∀ i : Nat, k ≤ i → i < p → classifyAttempt (env.outcome i) = .retry) →
      (sendLoop env task ipList maxRetries fuel k).attempts = p - k + 1 ∧
      (sendLoop env task ipList maxRetries fuel k).state =
        (if classifyAttempt (env.outcome p) = .clientFailed then .ClientFailed
          else .Succeeded) := by
  intro fuel
  induction fuel with
  | zero => intro k hkp hfuel _; omega
  | succ fuel ih =>
    intro k hkp hfuel hall
    have hk : (k : Int) < maxRetries := by omega
    rw [sendLoop_succ env task ipList maxRetries fuel k ip henv hsel hk]
    rcases Nat.eq_or_lt_of_le hkp with heq | hlt
    · subst heq
      cases hcl : classifyAttempt (env.outcome k) with
      | retry => exact absurd hcl hlast
      | clientFailed => simp [SendResult.chose, SendResult.attempted]
      | succeeded => simp [SendResult.chose, SendResult.attempted]
    · obtain ⟨ha, hs⟩ := ih (k + 1) hlt (by push_cast; omega)
        (fun i hi hip => hall i (by omega) hip)
      rw [hall k (le_refl k) hlt]
      simp only [SendResult.pause_attempts, SendResult.pause_state, SendResult.chose,
        SendResult.attempted]
      rw [ha, hs]
      exact ⟨by omega, rfl⟩

/-- For a non-empty list and a row number that is not negative the selection
does not panic and picks the element at `RowIndex mod len`. -/
theorem selectEndpoint_eq (ipList : List Str) (task : RequestTask) (hip : ipList ≠ [])
    (hrow : 0 ≤ task.RowIndex) :
    task.RowIndex.toNat % ipList.length < ipList.length ∧
    selectEndpoint ipList task = ipList.get? (task.RowIndex.toNat % ipList.length) := by
  have hlen : 0 < ipList.length := List.length_pos.mpr hip
  have hlt : task.RowIndex.toNat % ipList.length < ipList.length := Nat.mod_lt _ hlen
  refine ⟨hlt, ?_⟩
  have hne : (ipList.length : Int) ≠ 0 := by omega
  have hmod : Int.tmod task.RowIndex (ipList.length : Int)
      = ((task.RowIndex.toNat % ipList.length : Nat) : Int) := by
    rw [Int.tmod_eq_emod hrow (by omega)]
    conv_lhs => rw [← Int.toNat_of_nonneg hrow]
    norm_cast
  simp only [selectEndpoint, goMod, hne, if_false, hmod, goIndex]
  rw [if_pos ⟨by omega, by exact_mod_cast hlt⟩, Int.toNat_ofNat]

/-- Every endpoint recorded by the loop is the one the selection picks. -/
theorem sendLoop_endpoints (env : SendEnv) (task : RequestTask) (ipList : List Str)
    (maxRetries : Int) :
    ∀ (fuel k : Nat), ∀ e ∈ (sendLoop env task ipList maxRetries fuel k).endpoints,
      selectEndpoint ipList task = some e := by
  intro fuel
  induction fuel with
  | zero =>
    intro k e he
    rw [sendLoop] at he
    split at he <;> simp at he
  | succ fuel ih =>
    intro k e he
    rw [sendLoop] at he
    split at he
    · split at he
      · simp at he
      · rw [SendResult.pause_endpoints] at he
        cases hsel : selectEndpoint ipList task with
        | none => rw [hsel] at he; simp at he
        | some ip =>
          rw [hsel] at he
          simp only [SendResult.chose] at he
          rcases List.mem_cons.mp he with h | h
          · rw [h]
          · have ih' := ih (k + 1) e
            rw [hsel] at ih'
            split at h
            · simp at h
            · split at h
              · simp at h
              · split at h
                · exact ih' h
                · exact ih' h
                · split at h
                  · exact ih' h
                  · simp [SendResult.attempted] at h
                  · simp [SendResult.attempted] at h
    · simp at he

/-- With a template that parses, `sendRequest` is its loop from `retryCount = 0`. -/
theorem sendRequest_eq_loop (env : SendEnv) (task : RequestTask) (ipList : List Str)
    (maxRetries : Int) (henv : env.undisturbed) :
    sendRequest env task ipList maxRetries =
      sendLoop env task ipList maxRetries maxRetries.toNat 0 := by
  simp [sendRequest, henv.1]

/-- `wrap64` leaves a value of the 64-bit range unchanged. -/
theorem wrap64_of_range (x : Int) (hlo : -2 ^ 63 ≤ x) (hhi : x < 2 ^ 63) : wrap64 x = x := by
  unfold wrap64
  rw [Int.emod_eq_of_lt (by omega) (by omega)]
  omega

/-- Up to `retryCount = 303700` no product of the backoff computation leaves
the 64-bit range and the delay is `min(k*k*100 ms, 5 s)`. -/
theorem backoffDelay_small (k : Nat) (hk : k ≤ 303700) :
    backoffDelay k = min ((k : Int) * k * 100 * millisecond) (5 * second) := by
  have hsq : k * k ≤ 303700 * 303700 := Nat.mul_le_mul hk hk
  have hsq' : (k : Int) * k ≤ 303700 * 303700 := by exact_mod_cast hsq
  have h0 : (0 : Int) ≤ (k : Int) * k := by positivity
  unfold backoffDelay millisecond second
  rw [wrap64_of_range ((k : Int) * k) (by omega) (by omega),
    wrap64_of_range ((k : Int) * k * 100) (by omega) (by omega),
    wrap64_of_range ((k : Int) * k * 100 * 1000000) (by omega) (by omega)]
  simp only [gt_iff_lt]
  split
  · rw [min_eq_right (by omega)]
  · rw [min_eq_left (by omega)]

/-- The delay handed to `time.Sleep` never exceeds five seconds. -/
theorem backoffDelay_le (k : Int) : backoffDelay k ≤ 5 * second := by
  unfold backoffDelay
  simp only [gt_iff_lt]
  split <;> omega

/-- When every exchange is retried, the sleep before the exchange with
`retryCount = k` (for `1 <= k < maxRetries`) has argument `backoffDelay k`, and
there are `maxRetries - 1` sleeps in all: none before the first exchange. -/
theorem sendRequest_sleeps (env : SendEnv) (task : RequestTask) (ipList : List Str)
    (maxRetries : Int) (ip : Str) (henv : env.undisturbed)
    (hsel : selectEndpoint ipList task = some ip)
    (hall : ∀ i : Nat, (i : Int) < maxRetries → classifyAttempt (env.outcome i) = .retry) :
    (sendRequest env task ipList maxRetries).sleeps.length = maxRetries.toNat - 1 ∧
    ∀ k : Nat, 1 ≤ k → (k : Int) < maxRetries →
      (sendRequest env task ipList maxRetries).sleeps.get? (k - 1) = some (backoffDelay k) := by
  have h := (sendLoop_all_retry env task ipList maxRetries ip henv hsel maxRetries.toNat 0
    (by simp) (fun i _ hi => hall i hi)).2.2.2.1
  rw [← sendRequest_eq_loop env task ipList maxRetries henv] at h
  have hfilter : ∀ n : Nat, (List.range' 0 n).filter (fun j => decide (0 < j))
      = List.range' 1 (n - 1) := by
    intro n
    cases n with
    | zero => rfl
    | succ n =>
      rw [List.range'_succ, List.filter_cons]
      simp only [lt_self_iff_false, decide_False, Bool.false_eq_true, if_false, Nat.zero_add,
        Nat.add_sub_cancel]
      rw [List.filter_eq_self]
      intro a ha
      have := (List.mem_range'_1.mp ha).1
      simpa using this
  simp only [Nat.cast_zero, sub_zero] at h
  rw [hfilter] at h
  rw [h]
  refine ⟨by simp, ?_⟩
  intro k hk1 hkM
  have hlt : k - 1 < maxRetries.toNat - 1 := by omega
  rw [List.get?_eq_getElem?, List.getElem?_map, List.getElem?_range' _ _ hlt]
  simp only [Option.map_some', one_mul]
  congr 2
  push_cast
  omega

/-! ## Claims on the request sender -/

/-- C1: in a run that is not cancelled and whose template and request can be
built, `sendRequest` with `maxRetries >= 0` makes exactly `min(maxRetries, p)`
HTTP attempts, `p` being the position (counted from 1, written `q + 1` here)
of the first outcome that is not retried; it then ends `ClientFailed` or
`Succeeded` according to that outcome when `p <= maxRetries`. When every
outcome is retried it makes `maxRetries` attempts and ends `Exhausted` with the
final-failure log line. -/
theorem sendRequest_attempts_min (env : SendEnv) (task : RequestTask) (ipList : List Str)
    (maxRetries : Int) (hmax : 0 ≤ maxRetries) (henv : env.undisturbed) (hip : ipList ≠ [])
    (hrow : 0 ≤ task.RowIndex) :
    (∀ q : Nat, (∀ i < q, classifyAttempt (env.outcome i) = .retry) →
        classifyAttempt (env.outcome q) ≠ .retry →
        (sendRequest env task ipList maxRetries).attempts = min maxRetries.toNat (q + 1) ∧
        ((q : Int) < maxRetries →
          (sendRequest env task ipList maxRetries).state =
            (if classifyAttempt (env.outcome q) = .clientFailed then .ClientFailed
              else .Succeeded)) ∧
        (maxRetries ≤ (q : Int) →
          (sendRequest env task ipList maxRetries).state = .Exhausted)) ∧
    ((∀ i : Nat, classifyAttempt (env.outcome i) = .retry) →
        (sendRequest env task ipList maxRetries).attempts = maxRetries.toNat ∧
        (sendRequest env task ipList maxRetries).state = .Exhausted ∧
        LogEvent.finalFailure ∈ (sendRequest env task ipList maxRetries).log) := by
  obtain ⟨hlt, hsel⟩ := selectEndpoint_eq ipList task hip hrow
  obtain ⟨ip, hget⟩ : ∃ ip, ipList.get? (task.RowIndex.toNat % ipList.length) = some ip :=
    ⟨_, List.get?_eq_get hlt⟩
  rw [hget] at hsel
  rw [sendRequest_eq_loop env task ipList maxRetries henv]
  constructor
  · intro q hbefore hq
    by_cases hqM : (q : Int) < maxRetries
    · obtain ⟨ha, hs⟩ := sendLoop_first_final env task ipList maxRetries ip henv hsel q hqM hq
        maxRetries.toNat 0 (Nat.zero_le q) (by simp) (fun i _ hi => hbefore i hi)
      refine ⟨?_, fun _ => hs, fun h => absurd hqM (by omega)⟩
      rw [ha, min_eq_right (by omega)]
      omega
    · obtain ⟨ha, hs, _⟩ := sendLoop_all_retry env task ipList maxRetries ip henv hsel
        maxRetries.toNat 0 (by simp) (fun i _ hi => hbefore i (by omega))
      refine ⟨?_, fun h => absurd h hqM, fun _ => hs⟩
      rw [ha, min_eq_left (by omega)]
      simp
  · intro hall
    obtain ⟨ha, hs, hl, _⟩ := sendLoop_all_retry env task ipList maxRetries ip henv hsel
      maxRetries.toNat 0 (by simp) (fun i _ _ => hall i)
    exact ⟨by simpa using ha, hs, hl⟩

/-- C1, at concrete inputs: with `maxRetries = 3` a server that always answers
500 is tried exactly 3 times and the task ends `Exhausted`; a server that
answers 404 first is tried exactly once and the task ends `ClientFailed`. -/
theorem sendRequest_attempts_min_witness :
    ((sendRequest (.ofOutcomes fun _ => .response 500 []) ⟨[], 2⟩ ["10.0.0.1:80".toList] 3).attempts
        = 3 ∧
      (sendRequest (.ofOutcomes fun _ => .response 500 []) ⟨[], 2⟩ ["10.0.0.1:80".toList] 3).state
        = .Exhausted) ∧
    ((sendRequest (.ofOutcomes fun _ => .response 404 []) ⟨[], 2⟩ ["10.0.0.1:80".toList] 3).attempts
        = 1 ∧
      (sendRequest (.ofOutcomes fun _ => .response 404 []) ⟨[], 2⟩ ["10.0.0.1:80".toList] 3).state
        = .ClientFailed) := by
  have h500 := (sendRequest_attempts_min (.ofOutcomes fun _ => .response 500 []) ⟨[], 2⟩
    ["10.0.0.1:80".toList] 3 (by decide) ⟨rfl, rfl, rfl, fun _ => rfl⟩ (by decide) (by decide)).2
    (fun _ => (by decide : classifyAttempt (AttemptResult.response 500 []) = .retry))
  have h404 := (sendRequest_attempts_min (.ofOutcomes fun _ => .response 404 []) ⟨[], 2⟩
    ["10.0.0.1:80".toList] 3 (by decide) ⟨rfl, rfl, rfl, fun _ => rfl⟩ (by decide) (by decide)).1
    0 (fun i hi => absurd hi (Nat.not_lt_zero i)) (by decide)
  exact ⟨⟨h500.1, h500.2.1⟩, ⟨h404.1, h404.2.1 (by decide)⟩⟩

/-- In an undisturbed run an iteration that passes the loop condition makes an
HTTP attempt. -/
theorem sendLoop_attempts_pos (env : SendEnv) (task : RequestTask) (ipList : List Str)
    (maxRetries : Int) (fuel k : Nat) (ip : Str) (henv : env.undisturbed)
    (hsel : selectEndpoint ipList task = some ip) (hk : (k : Int) < maxRetries) :
    1 ≤ (sendLoop env task ipList maxRetries (fuel + 1) k).attempts := by
  rw [sendLoop_succ env task ipList maxRetries fuel k ip henv hsel hk]
  cases classifyAttempt (env.outcome k) <;> simp [SendResult.chose, SendResult.attempted]

/-- C2: for every status code and body read, the first exchange of an
undisturbed `sendRequest` (with room for a retry, `maxRetries >= 2`) falls in
exactly one class: status `>= 500` is logged as a server error and a further
attempt follows; status in `[400, 500)` ends the call `ClientFailed` after this
single attempt, whatever the body; status `< 400` with the marker text in the
body is logged as call-failed and a further attempt follows; status `< 400`
without the marker ends the call `Succeeded` after this single attempt. -/
theorem sendRequest_classification (env : SendEnv) (task : RequestTask) (ipList : List Str)
    (maxRetries : Int) (status : Int) (respBody : Str) (hmax : 2 ≤ maxRetries)
    (henv : env.undisturbed) (hip : ipList ≠ []) (hrow : 0 ≤ task.RowIndex)
    (hout : env.outcome 0 = .response status respBody) :
    (500 ≤ status →
      classifyAttempt (.response status respBody) = .retry ∧
      2 ≤ (sendRequest env task ipList maxRetries).attempts ∧
      (sendRequest env task ipList maxRetries).log.head? = some (.serverError status 1)) ∧
    (400 ≤ status ∧ status < 500 →
      classifyAttempt (.response status respBody) = .clientFailed ∧
      (sendRequest env task ipList maxRetries).attempts = 1 ∧
      (sendRequest env task ipList maxRetries).state = .ClientFailed) ∧
    (status < 400 ∧ stringsContains respBody "call failed".toList = true →
      classifyAttempt (.response status respBody) = .retry ∧
      2 ≤ (sendRequest env task ipList maxRetries).attempts ∧
      (sendRequest env task ipList maxRetries).log.head? = some (.callFailed 1)) ∧
    (status < 400 ∧ stringsContains respBody "call failed".toList = false →
      classifyAttempt (.response status respBody) = .succeeded ∧
      (sendRequest env task ipList maxRetries).attempts = 1 ∧
      (sendRequest env task ipList maxRetries).state = .Succeeded) := by
  obtain ⟨hlt, hsel⟩ := selectEndpoint_eq ipList task hip hrow
  obtain ⟨ip, hget⟩ : ∃ ip, ipList.get? (task.RowIndex.toNat % ipList.length) = some ip :=
    ⟨_, List.get?_eq_get hlt⟩
  rw [hget] at hsel
  obtain ⟨n, hn⟩ : ∃ n, maxRetries.toNat = n + 2 := ⟨maxRetries.toNat - 2, by omega⟩
  have hpos := sendLoop_attempts_pos env task ipList maxRetries n (0 + 1) ip henv hsel
    (by push_cast; omega)
  have hstep := sendLoop_succ env task ipList maxRetries (n + 1) 0 ip henv hsel (by omega)
  rw [sendRequest_eq_loop env task ipList maxRetries henv, hn, hstep, hout]
  refine ⟨fun h => ?_, fun h => ?_, fun h => ?_, fun h => ?_⟩
  · have hc : classifyAttempt (.response status respBody) = .retry := by
      simp [classifyAttempt, h]
    rw [hc]
    refine ⟨rfl, ?_, ?_⟩
    · simp only [SendResult.pause_attempts, SendResult.chose, SendResult.attempted]
      omega
    · simp [SendResult.chose, SendResult.attempted, h]
  · have hc : classifyAttempt (.response status respBody) = .clientFailed := by
      have : ¬ 500 ≤ status := by omega
      simp [classifyAttempt, h.1, this]
    rw [hc]
    simp [SendResult.chose, SendResult.attempted]
  · have hc : classifyAttempt (.response status respBody) = .retry := by
      have h1 : ¬ 500 ≤ status := by omega
      have h2 : ¬ 400 ≤ status := by omega
      have hm : stringsContains respBody callFailedMarker = true := h.2
      simp [classifyAttempt, h1, h2, hm]
    have h1 : ¬ 500 ≤ status := by omega
    rw [hc]
    refine ⟨rfl, ?_, ?_⟩
    · simp only [SendResult.pause_attempts, SendResult.chose, SendResult.attempted]
      omega
    · simp [SendResult.chose, SendResult.attempted, h1]
  · have hc : classifyAttempt (.response status respBody) = .succeeded := by
      have h1 : ¬ 500 ≤ status := by omega
      have h2 : ¬ 400 ≤ status := by omega
      have hm : stringsContains respBody callFailedMarker = false := h.2
      simp [classifyAttempt, h1, h2, hm]
    rw [hc]
    simp [SendResult.chose, SendResult.attempted]

/-- C2, at a concrete input: a 200 response whose body holds the marker is
retried, so with `maxRetries = 2` both attempts are made. -/
theorem sendRequest_classification_witness :
    2 ≤ (sendRequest (.ofOutcomes fun _ => .response 200 "x call failed y".toList) ⟨[], 2⟩
      ["10.0.0.1:80".toList] 2).attempts :=
  ((sendRequest_classification (.ofOutcomes fun _ => .response 200 "x call failed y".toList)
    ⟨[], 2⟩ ["10.0.0.1:80".toList] 2 200 "x call failed y".toList (by decide)
    ⟨rfl, rfl, rfl, fun _ => rfl⟩ (by decide) (by decide) rfl).2.2.1
    ⟨by decide, by decide⟩).2.1

/-- C3 (evaluation at the failing input): with `maxRetries = 303702` and a
server that always answers 500, the sleep before the exchange with
`retryCount = 303701` is given `backoffDelay 303701`, which the 64-bit
product has wrapped to a negative duration: `time.Sleep` returns at once,
although `min(k*k*100 ms, 5 s)` is 5 s there and the sleep before it
(`retryCount = 303700`) lasts 5 s. -/
theorem backoffDelay_overflow :
    (sendRequest (.ofOutcomes fun _ => .response 500 []) ⟨[], 2⟩ ["10.0.0.1:80".toList]
        303702).sleeps.get? 303700 = some (backoffDelay 303701) ∧
    backoffDelay 303701 = -9223314333609551616 ∧
    sleepTime (backoffDelay 303701) = 0 ∧
    min (303701 * 303701 * 100 * millisecond) (5 * second) = 5 * second ∧
    sleepTime (backoffDelay 303700) = 5 * second := by
  refine ⟨?_, by decide, by decide, by decide, by decide⟩
  exact (sendRequest_sleeps (.ofOutcomes fun _ => .response 500 []) ⟨[], 2⟩
    ["10.0.0.1:80".toList] 303702 "10.0.0.1:80".toList ⟨rfl, rfl, rfl, fun _ => rfl⟩ (by decide)
    (fun _ _ => (by decide : classifyAttempt (AttemptResult.response 500 []) = .retry))).2
    303701 (by decide) (by decide)

/-- Each HTTP attempt follows an endpoint selection of its own iteration. -/
theorem sendLoop_attempts_le (env : SendEnv) (task : RequestTask) (ipList : List Str)
    (maxRetries : Int) :
    ∀ (fuel k : Nat), (sendLoop env task ipList maxRetries fuel k).attempts ≤
      (sendLoop env task ipList maxRetries fuel k).endpoints.length := by
  intro fuel
  induction fuel with
  | zero =>
    intro k
    rw [sendLoop]
    split <;> simp
  | succ fuel ih =>
    intro k
    have ih' := ih (k + 1)
    rw [sendLoop]
    split
    · split
      · simp
      · rw [SendResult.pause_attempts, SendResult.pause_endpoints]
        split
        · simp
        · simp only [SendResult.chose, List.length_cons]
          split
          · simp
          · split
            · simp
            · split
              · simp only [SendResult.attempted]; omega
              · simp only [SendResult.attempted]; omega
              · split
                · simp only [SendResult.attempted]; omega
                · simp [SendResult.attempted]
                · simp [SendResult.attempted]
    · simp

/-- The endpoint list built by `executeRequests` is never empty. -/
theorem parseIPList_ne_nil (text : Str) : parseIPList text ≠ [] := by
  unfold parseIPList
  cases h : trimSpace text with
  | nil => simp [stringsSplit]
  | cons c cs =>
    rw [stringsSplit]
    split
    · simp
    · split <;> simp

/-- C4: for a non-empty endpoint list and a task whose row number is not
negative (the producer numbers rows from 2), the index `RowIndex mod len` is
within the list and the selection returns that element; every endpoint
`sendRequest` uses for the task, at the first attempt and at every retry, is
that element, and every attempt has one; a task with the same row number gets
the same endpoint, and the task with the next row number gets the cyclically
next one. -/
theorem sendRequest_endpoint (ipList : List Str) (task : RequestTask) (hip : ipList ≠ [])
    (hrow : 0 ≤ task.RowIndex) :
    task.RowIndex.toNat % ipList.length < ipList.length ∧
    selectEndpoint ipList task = ipList.get? (task.RowIndex.toNat % ipList.length) ∧
    (∀ (env : SendEnv) (maxRetries : Int),
      (∀ e ∈ (sendRequest env task ipList maxRetries).endpoints,
        ipList.get? (task.RowIndex.toNat % ipList.length) = some e) ∧
      (sendRequest env task ipList maxRetries).attempts ≤
        (sendRequest env task ipList maxRetries).endpoints.length) ∧
    (∀ task' : RequestTask, task'.RowIndex = task.RowIndex →
      selectEndpoint ipList task' = selectEndpoint ipList task) ∧
    (∀ task' : RequestTask, task'.RowIndex = task.RowIndex + 1 →
      selectEndpoint ipList task' =
        ipList.get? ((task.RowIndex.toNat % ipList.length + 1) % ipList.length)) := by
  obtain ⟨hlt, hsel⟩ := selectEndpoint_eq ipList task hip hrow
  refine ⟨hlt, hsel, ?_, ?_, ?_⟩
  · intro env maxRetries
    unfold sendRequest
    split
    · simp
    · refine ⟨fun e he => ?_, sendLoop_attempts_le env task ipList maxRetries _ _⟩
      rw [← hsel]
      exact sendLoop_endpoints env task ipList maxRetries _ _ e he
  · intro task' h
    simp [selectEndpoint, h]
  · intro task' h
    have hrow' : 0 ≤ task'.RowIndex := by omega
    rw [(selectEndpoint_eq ipList task' hip hrow').2, h]
    have : (task.RowIndex + 1).toNat = task.RowIndex.toNat + 1 := by omega
    rw [this]
    congr 1
    exact (Nat.mod_add_mod _ _ _).symm

/-- C4, at a concrete input: row 5 of a run with three endpoints uses the
endpoint at index 2. -/
theorem sendRequest_endpoint_witness :
    selectEndpoint ["a".toList, "b".toList, "c".toList] ⟨[], 5⟩ = some "c".toList :=
  (sendRequest_endpoint ["a".toList, "b".toList, "c".toList] ⟨[], 5⟩ (by decide)
    (by decide)).2.1

/-! ## Lemmas on the worker pool -/

/-- Replacing one element by one that satisfies `P` keeps `P` on the list. -/
theorem forall_mem_set {α : Type} {P : α → Prop} {l : List α} (hl : ∀ x ∈ l, P x) (w : Nat)
    {y : α} (hy : P y) : ∀ x ∈ l.set w y, P x := by
  intro x hx
  rcases List.mem_or_eq_of_mem_set hx with h | h
  · exact hl x h
  · exact h ▸ hy

/-- Every step of the pool keeps the worker invariant. -/
theorem poolStep_inv (maxRetries : Int) (s s' : PoolState) (ev : PoolEvent)
    (hinv : ∀ wk ∈ s.workers, wk.inv maxRetries.toNat)
    (hstep : poolStep maxRetries s ev = some s') :
    ∀ wk ∈ s'.workers, wk.inv maxRetries.toNat := by
  cases ev with
  | enqueue task =>
    simp only [poolStep] at hstep
    split at hstep
    · cases hstep; exact hinv
    · cases hstep
  | close =>
    simp only [poolStep] at hstep
    split at hstep
    · cases hstep
    · cases hstep; exact hinv
  | cancel =>
    simp only [poolStep] at hstep
    cases hstep; exact hinv
  | receive w =>
    simp only [poolStep] at hstep
    split at hstep
    · rename_i t n f a task rest hget _
      cases hstep
      have hwk := hinv _ (List.get?_mem hget)
      exact forall_mem_set hinv w (by simpa [Worker.inv] using hwk)
    · cases hstep
  | quit w =>
    simp only [poolStep] at hstep
    split at hstep
    · rename_i t n f a hget
      have hwk := hinv _ (List.get?_mem hget)
      split at hstep
      · cases hstep
        exact forall_mem_set hinv w (by simpa [Worker.inv] using hwk)
      · cases hstep
    · rename_i task t n f a hget
      have hwk := hinv _ (List.get?_mem hget)
      split at hstep
      · cases hstep
        exact forall_mem_set hinv w (by simpa [Worker.inv] using hwk)
      · cases hstep
    · cases hstep
  | tick w =>
    simp only [poolStep] at hstep
    split at hstep
    · rename_i task t n f a hget
      have hwk := hinv _ (List.get?_mem hget)
      cases hstep
      refine forall_mem_set hinv w ?_
      simp only [Worker.inv] at hwk ⊢
      obtain ⟨h1, h2, h3⟩ := hwk
      refine ⟨by omega, fun _ => by omega, by omega, ?_⟩
      rw [Nat.mul_succ]
      omega
    · cases hstep
  | attempt w result =>
    simp only [poolStep] at hstep
    split at hstep
    · rename_i task k t n f a hget
      have hwk := hinv _ (List.get?_mem hget)
      simp only [Worker.inv] at hwk
      obtain ⟨h1, h2, h3, h4⟩ := hwk
      split at hstep
      · rename_i hk
        have hkm : k < maxRetries.toNat := by omega
        split at hstep
        · cases hstep
          refine forall_mem_set hinv w ?_
          simp only [Worker.inv]
          refine ⟨h1, fun h => absurd h (Nat.succ_ne_zero k), ?_, by omega⟩
          split
          · rename_i hk0; exact h2 hk0
          · exact h3
        · cases hstep
          refine forall_mem_set hinv w ?_
          simp only [Worker.inv]
          refine ⟨h1, ?_, by omega⟩
          split
          · rename_i hk0; exact h2 hk0
          · exact h3
      · cases hstep
    · cases hstep
  | finish w =>
    simp only [poolStep] at hstep
    split at hstep
    · rename_i task k t n f a hget
      have hwk := hinv _ (List.get?_mem hget)
      simp only [Worker.inv] at hwk
      obtain ⟨h1, h2, h3, h4⟩ := hwk
      cases hstep
      refine forall_mem_set hinv w ?_
      simp only [Worker.inv]
      exact ⟨h1, h3, by omega⟩
    · cases hstep

/-- The worker invariant holds along every run of the pool. -/
theorem poolRun_inv (maxRetries : Int) (evs : List PoolEvent) :
    ∀ (s s' : PoolState), (∀ wk ∈ s.workers, wk.inv maxRetries.toNat) →
      poolRun maxRetries s evs = some s' → ∀ wk ∈ s'.workers, wk.inv maxRetries.toNat := by
  induction evs with
  | nil =>
    intro s s' hinv hrun
    simp only [poolRun, Option.some.injEq] at hrun
    exact hrun ▸ hinv
  | cons ev evs ih =>
    intro s s' hinv hrun
    simp only [poolRun] at hrun
    cases hstep : poolStep maxRetries s ev with
    | none => rw [hstep] at hrun; cases hrun
    | some s1 =>
      rw [hstep] at hrun
      exact ih s1 s' (poolStep_inv maxRetries s s1 ev hinv hstep) hrun

/-- The worker invariant holds when the workers are started. -/
theorem poolInit_inv (m workers : Nat) : ∀ wk ∈ (poolInit workers).workers, wk.inv m := by
  intro wk hwk
  rw [poolInit] at hwk
  rw [List.eq_of_mem_replicate hwk]
  simp [Worker.inv]

/-- What the worker invariant gives whatever the phase. -/
theorem Worker.inv_bounds (m : Nat) (wk : Worker) (h : wk.inv m) :
    wk.sends = wk.ticks ∧ wk.firsts ≤ wk.ticks ∧ wk.attempts ≤ m * wk.ticks := by
  obtain ⟨h1, h2⟩ := h
  rw [← h1]
  refine ⟨rfl, ?_⟩
  split at h2
  · exact ⟨h2.2.1, by omega⟩
  · exact h2

/-! ## Claims on the worker pool and the rate ticker -/

/-- C5 as stated fails: with one worker and `maxRetries = 2`, after a single
tick the worker makes two HTTP attempts for its task (the retry follows the
first attempt inside `sendRequest`, with no further tick), so the attempts
started exceed the ticks received. -/
theorem pool_attempts_exceed_ticks :
    ∃ s, poolRun 2 (poolInit 1)
        [.enqueue ⟨[], 2⟩, .receive 0, .tick 0, .attempt 0 (.response 500 []),
          .attempt 0 (.response 500 [])] = some s ∧
      s.totalTicks = 1 ∧ s.totalAttempts = 2 ∧ ¬ s.totalAttempts ≤ s.totalTicks :=
  ⟨_, rfl, by decide, by decide, by decide⟩

/-- C5, amended: at every state the pool can reach, whatever the number of
workers, the calls of `sendRequest` equal the ticks received (a worker calls
it only after a tick), the first attempts started are at most the ticks
received, and the attempts started, retries included, are at most
`maxRetries` per tick received. -/
theorem pool_sends_gated (maxRetries : Int) (workers : Nat) (evs : List PoolEvent)
    (s : PoolState) (hrun : poolRun maxRetries (poolInit workers) evs = some s) :
    s.totalSends = s.totalTicks ∧ s.totalFirsts ≤ s.totalTicks ∧
      s.totalAttempts ≤ maxRetries.toNat * s.totalTicks := by
  have hinv := poolRun_inv maxRetries evs (poolInit workers) s
    (poolInit_inv maxRetries.toNat workers) hrun
  have hb := fun wk hwk => Worker.inv_bounds maxRetries.toNat wk (hinv wk hwk)
  refine ⟨?_, ?_, ?_⟩
  · unfold PoolState.totalSends PoolState.totalTicks
    rw [List.map_congr_left (fun wk hwk => (hb wk hwk).1)]
  · exact List.sum_le_sum (fun wk hwk => (hb wk hwk).2.1)
  · unfold PoolState.totalAttempts PoolState.totalTicks
    rw [← List.sum_map_mul_left]
    exact List.sum_le_sum (fun wk hwk => (hb wk hwk).2.2)

/-- C5 amended, at a concrete run: after the same steps as in the
counterexample the two attempts stay within `maxRetries = 2` per tick. -/
theorem pool_sends_gated_witness :
    poolRun 2 (poolInit 1)
        [.enqueue ⟨[], 2⟩, .receive 0, .tick 0, .attempt 0 (.response 500 []),
          .attempt 0 (.response 500 [])]
      = some ⟨[], false, false, [⟨.sending ⟨[], 2⟩ 2, 1, 1, 1, 2⟩]⟩ ∧
    (PoolState.mk [] false false [⟨.sending ⟨[], 2⟩ 2, 1, 1, 1, 2⟩]).totalAttempts
      ≤ (2 : Int).toNat *
        (PoolState.mk [] false false [⟨.sending ⟨[], 2⟩ 2, 1, 1, 1, 2⟩]).totalTicks :=
  ⟨rfl, (pool_sends_gated 2 1
    [.enqueue ⟨[], 2⟩, .receive 0, .tick 0, .attempt 0 (.response 500 []),
      .attempt 0 (.response 500 [])]
    ⟨[], false, false, [⟨.sending ⟨[], 2⟩ 2, 1, 1, 1, 2⟩]⟩ rfl).2.2⟩

/-- Ticks of a ticker of positive interval `d` that fall in one half-open
window of one second number at most `ceil(1 s / d)`. -/
theorem ticks_in_window_le (d : Int) (hd : 0 < d) (a : Int) (s : Finset Nat)
    (hs : ∀ j ∈ s, tickInWindow d a j = true) :
    (s.card : Int) ≤ (second + d - 1) / d := by
  have hc0 : 0 ≤ (second + d - 1) / d := Int.ediv_nonneg (by unfold second; omega) hd.le
  rcases s.eq_empty_or_nonempty with rfl | hne
  · simpa using hc0
  · have hm : s.min' hne ∈ s := s.min'_mem hne
    have hsub : s ⊆ Finset.Ico (s.min' hne) (s.min' hne + ((second + d - 1) / d).toNat) := by
      intro j hj
      have hmj : s.min' hne ≤ j := s.min'_le j hj
      have h1 := hs j hj
      have h2 := hs _ hm
      simp only [tickInWindow, tickTime, Bool.and_eq_true, decide_eq_true_eq] at h1 h2
      rw [Finset.mem_Ico]
      refine ⟨hmj, ?_⟩
      have h3 : ((j : Int) - (s.min' hne : Nat) + 1) * d ≤ second + d - 1 := by nlinarith
      have h4 := Int.le_ediv_of_mul_le hd h3
      omega
    have h5 := Finset.card_le_card hsub
    rw [Nat.card_Ico] at h5
    omega

/-- C6 as stated fails: for `QPS = 1000000001` the integer division gives the
interval 0, which is not positive (`time.NewTicker` panics); and for `QPS = 3`
the interval is 333333333 ns, so the four ticks number 1 to 4, at 333333333,
666666666, 999999999 and 1333333332 ns, all fall in the window of one second
that starts with the first of them: more than `QPS`. -/
theorem ticker_bound_fails :
    Int.tdiv second 1000000001 = 0 ∧ tickerInterval 1000000001 = none ∧
    tickerInterval 3 = some 333333333 ∧
    (∀ j ∈ ({1, 2, 3, 4} : Finset Nat), tickInWindow 333333333 333333333 j = true) ∧
    ¬ (({1, 2, 3, 4} : Finset Nat).card : Int) ≤ 3 := by
  refine ⟨by decide, by decide, by decide, by decide, by decide⟩

/-- C6, amended: for every `QPS` from 1 to 10^9 the interval of the rate
ticker is `floor(10^9 / QPS)` nanoseconds and is strictly positive; with ticks
at the successive multiples of the interval, the ticks inside any half-open
window of exactly one second number at most `ceil(10^9 / interval)`, which is
`QPS` itself whenever `QPS` divides 10^9 (so at most 10 for `QPS = 10`). -/
theorem ticker_interval_bound (qps : Int) (hlo : 1 ≤ qps) (hhi : qps ≤ 1000000000) :
    tickerInterval qps = some (second / qps) ∧ 0 < second / qps ∧
    ∀ (a : Int) (s : Finset Nat), (∀ j ∈ s, tickInWindow (second / qps) a j = true) →
      (s.card : Int) ≤ (second + second / qps - 1) / (second / qps) ∧
      (qps ∣ second → (s.card : Int) ≤ qps) := by
  have hq : 0 < qps := by omega
  have hpos : 0 < second / qps := by
    have h1 : 1 * qps ≤ second := by unfold second; omega
    have := Int.le_ediv_of_mul_le hq h1
    omega
  refine ⟨?_, hpos, ?_⟩
  · have hne : qps ≠ 0 := by omega
    have htd : Int.tdiv second qps = second / qps :=
      Int.tdiv_eq_ediv (by unfold second; omega) hq.le
    simp only [tickerInterval, hne, if_false, htd]
    rw [if_neg (by omega)]
  · intro a s hs
    have hb := ticks_in_window_le (second / qps) hpos a s hs
    refine ⟨hb, fun hdvd => ?_⟩
    have hmul : qps * (second / qps) = second := Int.mul_ediv_cancel' hdvd
    have hlt : second + second / qps - 1 < (qps + 1) * (second / qps) := by
      rw [add_mul, hmul]
      omega
    have := Int.ediv_lt_of_lt_mul hpos hlt
    omega

/-- C6 amended, at `QPS = 10`: the interval is 100 ms, and no window of one
second holds more than 10 ticks; the ten ticks number 1 to 10 do fall in the
window that starts with the first of them. -/
theorem ticker_interval_bound_witness :
    tickerInterval 10 = some 100000000 ∧
    (∀ j ∈ Finset.Icc 1 10, tickInWindow (second / 10) 100000000 j = true) ∧
    ((Finset.Icc 1 10).card : Int) ≤ 10 :=
  ⟨(ticker_interval_bound 10 (by decide) (by decide)).1, by decide,
    ((ticker_interval_bound 10 (by decide) (by decide)).2.2 100000000 (Finset.Icc 1 10)
      (by decide)).2 (by decide)⟩

/-! ## Claims on the parameter mapper -/

/-- C7: for every row and every mapping, `extractValueFromCSV` returns
`convertValueByType(raw, ParamType)` where `raw` is `row[i]` when the column
selector parses as an integer `i` with `0 <= i < len(row)` and `row[i]` is not
blank after trimming, and the default value in every other case; in
particular a selector that is not a number yields the converted default value
whatever the row holds. -/
theorem extractValueFromCSV_selected (parseFloat : Str → Option Nat) (rows : List Str)
    (mapping : ParamMapping) :
    extractValueFromCSV parseFloat rows mapping =
      convertValueByType parseFloat (selectedRaw rows mapping) mapping.ParamType ∧
    (atoi mapping.CSVColumn = none →
      extractValueFromCSV parseFloat rows mapping =
        convertValueByType parseFloat mapping.DefaultValue mapping.ParamType) := by
  constructor
  · unfold extractValueFromCSV selectedRaw
    cases hcol : atoi mapping.CSVColumn with
    | none =>
      simp only
      split <;> rfl
    | some i =>
      simp only
      by_cases hb : 0 ≤ i ∧ i < (rows.length : Int)
      · by_cases ht : trimSpace (rows.getD i.toNat []) = []
        · have h3 : ¬ (0 ≤ i ∧ i < (rows.length : Int) ∧ trimSpace (rows.getD i.toNat []) ≠ []) :=
            fun h => h.2.2 ht
          rw [if_pos hb, if_pos ht, if_neg h3]
        · have h3 : 0 ≤ i ∧ i < (rows.length : Int) ∧ trimSpace (rows.getD i.toNat []) ≠ [] :=
            ⟨hb.1, hb.2, ht⟩
          rw [if_pos hb, if_neg ht, if_pos h3]
      · have h3 : ¬ (0 ≤ i ∧ i < (rows.length : Int) ∧ trimSpace (rows.getD i.toNat []) ≠ []) :=
          fun h => hb ⟨h.1, h.2.1⟩
        rw [if_neg hb, if_neg h3]
        split <;> rfl
  · intro hcol
    unfold extractValueFromCSV
    rw [hcol]
    simp only
    split <;> rfl

/-- C7, at a concrete input: the selector `name` is not a number, so the
default value `7` is converted although the row holds other text. -/
theorem extractValueFromCSV_selected_witness :
    extractValueFromCSV (fun _ => none) ["1".toList, "2".toList]
        ⟨"name".toList, "p".toList, "int".toList, "7".toList, 0⟩ =
      convertValueByType (fun _ => none) "7".toList "int".toList :=
  (extractValueFromCSV_selected (fun _ => none) ["1".toList, "2".toList]
    ⟨"name".toList, "p".toList, "int".toList, "7".toList, 0⟩).2 (by decide)

/-- The loop of `genParamsArray` appends the values of the successful
extractions, in the order of the mappings it is given. -/
theorem foldl_appendSlice (parseFloat : Str → Option Nat) (rows : List Str)
    (l : List ParamMapping) :
    ∀ acc : Option (List Value),
      (l.foldl (fun params mapping =>
        match extractValueFromCSV parseFloat rows mapping with
        | .error _ => params
        | .ok value => appendSlice params value) acc).getD [] =
        acc.getD [] ++ l.filterMap (extracted parseFloat rows) := by
  induction l with
  | nil => intro acc; simp
  | cons m ms ih =>
    intro acc
    rw [List.foldl_cons, ih]
    cases hm : extractValueFromCSV parseFloat rows m with
    | error e => simp [extracted, hm, Except.toOption]
    | ok v => cases acc <;> simp [extracted, hm, Except.toOption, appendSlice]

/-- The successful extractions of a list are as many as its mappings that succeed. -/
theorem length_filterMap_extracted (parseFloat : Str → Option Nat) (rows : List Str)
    (l : List ParamMapping) :
    (l.filterMap (extracted parseFloat rows)).length =
      l.countP (fun m => (extracted parseFloat rows m).isSome) := by
  induction l with
  | nil => rfl
  | cons m ms ih =>
    cases hm : extracted parseFloat rows m with
    | none => simp [List.filterMap_cons, hm, ih]
    | some v => simp [List.filterMap_cons, hm, ih]

/-- `json.Marshal` keeps the number of elements. -/
theorem marshalValues_length : ∀ (vs : List Value) (js : List JsonValue),
    marshalValues vs = some js → js.length = vs.length := by
  intro vs
  induction vs with
  | nil => intro js h; simp [marshalValues] at h; simp [← h]
  | cons v rest ih =>
    intro js h
    rw [marshalValues] at h
    split at h
    · rename_i j js' _ hrest
      simp only [Option.some.injEq] at h
      rw [← h, List.length_cons, ih js' hrest, List.length_cons]
    · cases h

/-- A sorted arrangement of three mappings with the indices 2, 0, 1 lists
them by index. -/
theorem sorted_three (l : List ParamMapping) (m2 m0 m1 : ParamMapping)
    (hperm : l.Perm [m2, m0, m1])
    (hsorted : l.Pairwise (fun a b => ¬ b.ArrayIndex < a.ArrayIndex))
    (h2 : m2.ArrayIndex = 2) (h0 : m0.ArrayIndex = 0) (h1 : m1.ArrayIndex = 1) :
    l = [m0, m1, m2] := by
  have hlen := hperm.length_eq
  match l, hlen with
  | [x, y, z], _ =>
    have hx : x ∈ [m2, m0, m1] := hperm.subset (by simp)
    have hy : y ∈ [m2, m0, m1] := hperm.subset (by simp)
    have hz : z ∈ [m2, m0, m1] := hperm.subset (by simp)
    have hidx : [x.ArrayIndex, y.ArrayIndex, z.ArrayIndex] = [0, 1, 2] := by
      apply List.eq_of_perm_of_sorted (r := (· ≤ ·))
      · have := hperm.map (fun m => m.ArrayIndex)
        simp only [List.map_cons, List.map_nil, h2, h0, h1] at this
        exact this.trans (by decide)
      · have := List.Pairwise.map (S := (· ≤ ·)) (fun m : ParamMapping => m.ArrayIndex)
          (fun a b h => not_lt.mp h) hsorted
        simpa using this
      · decide
    simp only [List.cons.injEq, and_true] at hidx
    obtain ⟨ix, iy, iz⟩ := hidx
    simp only [List.mem_cons, List.mem_singleton, List.not_mem_nil, or_false] at hx hy hz
    have ex : x = m0 := by
      rcases hx with h | h | h
      · rw [h, h2] at ix; omega
      · exact h
      · rw [h, h1] at ix; omega
    have ey : y = m1 := by
      rcases hy with h | h | h
      · rw [h, h2] at iy; omega
      · rw [h, h0] at iy; omega
      · exact h
    have ez : z = m2 := by
      rcases hz with h | h | h
      · exact h
      · rw [h, h0] at iz; omega
      · rw [h, h1] at iz; omega
    rw [ex, ey, ez]

/-- Insertion sort by `ArrayIndex` meets the contract of `sort.Slice`. -/
theorem insertionSortByIndex_contract : SortSliceContract insertionSortByIndex := by
  intro l
  haveI : IsTotal ParamMapping (fun a b => a.ArrayIndex ≤ b.ArrayIndex) :=
    ⟨fun a b => le_total a.ArrayIndex b.ArrayIndex⟩
  haveI : IsTrans ParamMapping (fun a b => a.ArrayIndex ≤ b.ArrayIndex) :=
    ⟨fun a b c h1 h2 => le_trans h1 h2⟩
  refine ⟨List.perm_insertionSort _ l, ?_⟩
  have h := List.sorted_insertionSort (fun a b : ParamMapping => a.ArrayIndex ≤ b.ArrayIndex) l
  exact List.Pairwise.imp (fun hab => not_lt.mpr hab) h

/-- Array mode, with `sort.Slice` taken by its documented contract: the list
of parameters filled by `genParamsArray` is the list of converted values of
the mappings whose extraction succeeds, taken in ascending `ArrayIndex` order:
the mappings are visited in an arrangement of the configured list sorted by
index; the values are those of the successful extractions in that order (a
failing mapping contributes no element, the later values move up); their
number is the number of succeeding mappings; when there is a value and every
value can be written, the payload returned is the JSON array of these values;
and for the indices `[2, 0, 1]` with all extractions successful position 0
holds the value of the mapping with index 0, position 1 that of index 1 and
position 2 that of index 2. -/
theorem genParamsArray_sorted_values (sortSlice : List ParamMapping → List ParamMapping)
    (hsort : SortSliceContract sortSlice) (parseFloat : Str → Option Nat) (rows : List Str)
    (mappings : List ParamMapping) :
    (sortSlice mappings).Perm mappings ∧
    (sortSlice mappings).Pairwise (fun a b => a.ArrayIndex ≤ b.ArrayIndex) ∧
    (arrayParams sortSlice parseFloat rows mappings).getD [] =
      (sortSlice mappings).filterMap (extracted parseFloat rows) ∧
    ((arrayParams sortSlice parseFloat rows mappings).getD []).length =
      mappings.countP (fun m => (extracted parseFloat rows m).isSome) ∧
    (∀ js, (arrayParams sortSlice parseFloat rows mappings).getD [] ≠ [] →
      marshalValues ((arrayParams sortSlice parseFloat rows mappings).getD []) = some js →
      genParamsArray sortSlice parseFloat rows mappings = .ok (.array js) ∧
      js.length = mappings.countP (fun m => (extracted parseFloat rows m).isSome)) ∧
    (∀ m2 m0 m1 v2 v0 v1, mappings = [m2, m0, m1] →
      m2.ArrayIndex = 2 → m0.ArrayIndex = 0 → m1.ArrayIndex = 1 →
      extracted parseFloat rows m2 = some v2 → extracted parseFloat rows m0 = some v0 →
      extracted parseFloat rows m1 = some v1 →
      (arrayParams sortSlice parseFloat rows mappings).getD [] = [v0, v1, v2]) := by
  obtain ⟨hperm, hsorted⟩ := hsort mappings
  have hvals : (arrayParams sortSlice parseFloat rows mappings).getD [] =
      (sortSlice mappings).filterMap (extracted parseFloat rows) := by
    unfold arrayParams
    rw [foldl_appendSlice]
    simp
  have hlen : ((arrayParams sortSlice parseFloat rows mappings).getD []).length =
      mappings.countP (fun m => (extracted parseFloat rows m).isSome) := by
    rw [hvals, length_filterMap_extracted, hperm.countP_eq]
  refine ⟨hperm, List.Pairwise.imp (fun hab => not_lt.mp hab) hsorted, hvals, hlen, ?_, ?_⟩
  · intro js hne hjs
    refine ⟨?_, by rw [marshalValues_length _ _ hjs, hlen]⟩
    unfold genParamsArray
    cases hp : arrayParams sortSlice parseFloat rows mappings with
    | none => rw [hp] at hne; simp at hne
    | some vs =>
      rw [hp] at hjs
      simp only [Option.getD_some] at hjs
      simp [marshalSlice, hjs]
  · intro m2 m0 m1 v2 v0 v1 hm h2 h0 h1 e2 e0 e1
    rw [hvals]
    subst hm
    rw [sorted_three _ m2 m0 m1 hperm hsorted h2 h0 h1]
    simp [List.filterMap_cons, e0, e1, e2]

/-- Array mode at a concrete input: three string mappings with the indices
2, 0, 1 on the columns 0, 1, 2 of the row `a, b, c` give the parameters
`b, c, a`. -/
theorem genParamsArray_sorted_values_witness :
    (arrayParams insertionSortByIndex (fun _ => none) ["a".toList, "b".toList, "c".toList]
      [⟨"0".toList, [], "string".toList, [], 2⟩, ⟨"1".toList, [], "string".toList, [], 0⟩,
        ⟨"2".toList, [], "string".toList, [], 1⟩]).getD [] =
      [.str "b".toList, .str "c".toList, .str "a".toList] :=
  (genParamsArray_sorted_values insertionSortByIndex insertionSortByIndex_contract
    (fun _ => none) ["a".toList, "b".toList, "c".toList]
    [⟨"0".toList, [], "string".toList, [], 2⟩, ⟨"1".toList, [], "string".toList, [], 0⟩,
      ⟨"2".toList, [], "string".toList, [], 1⟩]).2.2.2.2.2
    ⟨"0".toList, [], "string".toList, [], 2⟩ ⟨"1".toList, [], "string".toList, [], 0⟩
    ⟨"2".toList, [], "string".toList, [], 1⟩ (.str "a".toList) (.str "b".toList)
    (.str "c".toList) rfl rfl rfl rfl (by decide) (by decide) (by decide)

/-- C8 fails on the code: on the row `x` with one `int` mapping on column 0
the extraction fails, so no mapping succeeds and the payload should be the
list of length 0; `genParamsArray` leaves its slice `nil` and returns the
payload `null`, which is no list (object mode on the same input returns the
empty object). The model of `sort.Slice` is run here, nothing is assumed of
it. -/
theorem genParamsArray_null_payload :
    extracted (fun _ => none) ["x".toList] ⟨"0".toList, "a".toList, "int".toList, [], 0⟩ =
      none ∧
    [(⟨"0".toList, "a".toList, "int".toList, [], 0⟩ : ParamMapping)].countP
      (fun m => (extracted (fun _ => none) ["x".toList] m).isSome) = 0 ∧
    arrayParams sortMappings (fun _ => none) ["x".toList]
      [⟨"0".toList, "a".toList, "int".toList, [], 0⟩] = none ∧
    genParamsArray sortMappings (fun _ => none) ["x".toList]
      [⟨"0".toList, "a".toList, "int".toList, [], 0⟩] = .ok .null ∧
    genParamsArray sortMappings (fun _ => none) ["x".toList]
      [⟨"0".toList, "a".toList, "int".toList, [], 0⟩] ≠ .ok (.array []) ∧
    genParamsObject (fun _ => none) ["x".toList]
      [⟨"0".toList, "a".toList, "int".toList, [], 0⟩] = .ok (.object []) := by
  refine ⟨by decide, by decide, by decide, by decide, by decide, by decide⟩

/-- Reading a map after a store. -/
theorem mapLookup_mapStore (m : GoMap) (k : Str) (v : Value) (name : Str) :
    mapLookup (mapStore m k v) name = if k = name then some v else mapLookup m name := by
  induction m with
  | nil => simp [mapStore, mapLookup]
  | cons e rest ih =>
    obtain ⟨k', v'⟩ := e
    by_cases hk : k' = k
    · subst hk
      by_cases hn : k' = name <;> simp [mapStore, mapLookup, hn]
    · by_cases hn : k' = name
      · have h1 : ¬ k = name := fun h => hk (hn.trans h.symm)
        have h2 : ¬ name = k := fun h => h1 h.symm
        simp [mapStore, mapLookup, hn, h1, h2]
      · simp [mapStore, mapLookup, hk, hn, ih]

/-- The keys of a map after a store. -/
theorem keys_mapStore (m : GoMap) (k : Str) (v : Value) :
    (mapStore m k v).map Prod.fst =
      if k ∈ m.map Prod.fst then m.map Prod.fst else m.map Prod.fst ++ [k] := by
  induction m with
  | nil => simp [mapStore]
  | cons e rest ih =>
    obtain ⟨k', v'⟩ := e
    by_cases hk : k' = k
    · subst hk
      simp [mapStore]
    · have hk' : ¬ k = k' := fun h => hk h.symm
      simp only [mapStore, hk, if_false, List.map_cons, ih, List.mem_cons, hk', false_or]
      split <;> simp

/-- A store keeps the keys of a map distinct. -/
theorem nodup_keys_mapStore (m : GoMap) (k : Str) (v : Value)
    (h : (m.map Prod.fst).Nodup) : ((mapStore m k v).map Prod.fst).Nodup := by
  rw [keys_mapStore]
  split
  · exact h
  · rename_i hk
    rw [List.nodup_append]
    refine ⟨h, List.nodup_singleton k, ?_⟩
    intro a ha hb
    rw [List.mem_singleton] at hb
    exact hk (hb ▸ ha)

/-- The loop of `genParamsObject` from any starting map: keys stay distinct,
the entry of `name` is the last successful value for that name if there is one
and is left as it was otherwise, and every value stored by the loop is the
value of a successful extraction. -/
theorem objectLoop_spec (parseFloat : Str → Option Nat) (rows : List Str) (name : Str)
    (ms : List ParamMapping) :
    ∀ acc : GoMap, (acc.map Prod.fst).Nodup →
      ((ms.foldl (fun params mapping =>
          match extractValueFromCSV parseFloat rows mapping with
          | .error _ => params
          | .ok value => mapStore params mapping.ParamName value) acc).map Prod.fst).Nodup ∧
      mapLookup (ms.foldl (fun params mapping =>
          match extractValueFromCSV parseFloat rows mapping with
          | .error _ => params
          | .ok value => mapStore params mapping.ParamName value) acc) name =
        (lastSuccess parseFloat rows ms name).or (mapLookup acc name) := by
  induction ms with
  | nil => intro acc h; simp [lastSuccess, h]
  | cons m rest ih =>
    intro acc hacc
    rw [List.foldl_cons]
    have hlast : lastSuccess parseFloat rows (m :: rest) name =
        (lastSuccess parseFloat rows rest name).or
          (if m.ParamName = name then extracted parseFloat rows m else none) := by
      unfold lastSuccess
      by_cases hn : m.ParamName = name
      · cases he : extracted parseFloat rows m with
        | none => simp [List.filter_cons, hn, List.filterMap_cons, he]
        | some v =>
          simp only [List.filter_cons, hn, decide_True, if_true, List.filterMap_cons, he]
          rw [List.getLast?_cons]
          cases (List.filterMap (extracted parseFloat rows)
            (List.filter (fun m => decide (m.ParamName = name)) rest)).getLast? <;> simp
      · simp [List.filter_cons, hn]
    cases he : extractValueFromCSV parseFloat rows m with
    | error e =>
      have hex : extracted parseFloat rows m = none := by simp [extracted, he, Except.toOption]
      obtain ⟨h1, h2⟩ := ih acc hacc
      refine ⟨h1, ?_⟩
      rw [h2, hlast, hex]
      simp
    | ok v =>
      have hex : extracted parseFloat rows m = some v := by
        simp [extracted, he, Except.toOption]
      obtain ⟨h1, h2⟩ := ih (mapStore acc m.ParamName v) (nodup_keys_mapStore acc _ v hacc)
      refine ⟨h1, ?_⟩
      rw [h2, hlast, hex, mapLookup_mapStore]
      by_cases hn : m.ParamName = name
      · simp only [hn, if_true]
        cases lastSuccess parseFloat rows rest name <;> simp
      · simp [hn]

/-- What `json.Marshal` writes for a map: the same keys, and for each key the
marshalled value. -/
theorem marshalMembers_spec : ∀ (m : GoMap) (members : List (Str × JsonValue)),
    marshalMembers m = some members →
      members.map Prod.fst = m.map Prod.fst ∧
      ∀ name, memberLookup members name = (mapLookup m name).bind marshalValue ∧
        ∀ v, mapLookup m name = some v → marshalValue v ≠ none := by
  intro m
  induction m with
  | nil =>
    intro members h
    simp only [marshalMembers, Option.some.injEq] at h
    subst h
    simp [memberLookup, mapLookup]
  | cons e rest ih =>
    obtain ⟨k, v⟩ := e
    intro members h
    rw [marshalMembers] at h
    split at h
    · rename_i j js hj hrest
      simp only [Option.some.injEq] at h
      subst h
      obtain ⟨hkeys, hlook⟩ := ih js hrest
      refine ⟨by simp [hkeys], fun name => ?_⟩
      by_cases hn : k = name
      · simp [memberLookup, mapLookup, hn, hj]
      · simpa [memberLookup, mapLookup, hn] using hlook name
    · cases h

/-- A key is in a map exactly when reading it gives a value. -/
theorem mem_keys_iff_mapLookup (m : GoMap) (name : Str) :
    name ∈ m.map Prod.fst ↔ mapLookup m name ≠ none := by
  induction m with
  | nil => simp [mapLookup]
  | cons e rest ih =>
    obtain ⟨k, v⟩ := e
    by_cases hn : k = name
    · simp [mapLookup, hn]
    · have hn' : ¬ name = k := fun h => hn h.symm
      simp [mapLookup, hn, hn', ih]

/-- An entry of a map after a store is an old entry or the stored one. -/
theorem mem_mapStore (m : GoMap) (k : Str) (v : Value) (e : Str × Value)
    (h : e ∈ mapStore m k v) : e ∈ m ∨ e = (k, v) := by
  induction m with
  | nil => simpa [mapStore] using h
  | cons e' rest ih =>
    obtain ⟨k', v'⟩ := e'
    simp only [mapStore] at h
    split at h
    · rename_i hk
      rcases List.mem_cons.mp h with h | h
      · exact Or.inr (by rw [h, hk])
      · exact Or.inl (List.mem_cons_of_mem _ h)
    · rcases List.mem_cons.mp h with h | h
      · exact Or.inl (by rw [h]; exact List.mem_cons_self _ _)
      · rcases ih h with h | h
        · exact Or.inl (List.mem_cons_of_mem _ h)
        · exact Or.inr h

/-- Every value the loop of `genParamsObject` leaves in the map is a value of
the starting map or the value of a successful extraction. -/
theorem objectLoop_values (parseFloat : Str → Option Nat) (rows : List Str)
    (P : Value → Prop) (ms : List ParamMapping)
    (hms : ∀ m ∈ ms, ∀ v, extracted parseFloat rows m = some v → P v) :
    ∀ acc : GoMap, (∀ e ∈ acc, P e.2) →
      ∀ e ∈ ms.foldl (fun params mapping =>
          match extractValueFromCSV parseFloat rows mapping with
          | .error _ => params
          | .ok value => mapStore params mapping.ParamName value) acc, P e.2 := by
  induction ms with
  | nil => intro acc h; simpa using h
  | cons m rest ih =>
    intro acc hacc
    rw [List.foldl_cons]
    apply ih (fun m' hm' => hms m' (List.mem_cons_of_mem _ hm'))
    cases he : extractValueFromCSV parseFloat rows m with
    | error e => exact hacc
    | ok v =>
      intro e hmem
      rcases mem_mapStore acc _ v e hmem with h | h
      · exact hacc e h
      · rw [h]
        exact hms m (List.mem_cons_self _ _) v (by simp [extracted, he, Except.toOption])

/-- `json.Marshal` succeeds on a map whose values can all be written. -/
theorem marshalMembers_isSome (m : GoMap) (h : ∀ e ∈ m, marshalValue e.2 ≠ none) :
    ∃ members, marshalMembers m = some members := by
  induction m with
  | nil => exact ⟨[], rfl⟩
  | cons e rest ih =>
    obtain ⟨k, v⟩ := e
    obtain ⟨js, hjs⟩ := ih (fun e he => h e (List.mem_cons_of_mem _ he))
    obtain ⟨j, hj⟩ := Option.ne_none_iff_exists'.mp (h (k, v) (List.mem_cons_self _ _))
    exact ⟨(k, j) :: js, by simp [marshalMembers, hj, hjs]⟩

/-- An object with distinct names has exactly one member of a name it holds. -/
theorem length_filter_name (members : List (Str × JsonValue)) (name : Str)
    (hn : (members.map Prod.fst).Nodup) (hin : name ∈ members.map Prod.fst) :
    (members.filter (fun e => decide (e.1 = name))).length = 1 := by
  induction members with
  | nil => simp at hin
  | cons e rest ih =>
    obtain ⟨k, j⟩ := e
    simp only [List.map_cons, List.nodup_cons] at hn
    by_cases hk : k = name
    · subst hk
      have hrest : rest.filter (fun e => decide (e.1 = k)) = [] := by
        rw [List.filter_eq_nil_iff]
        intro e he
        have hne : ¬ e.1 = k := fun h => hn.1 (h ▸ List.mem_map_of_mem Prod.fst he)
        simpa using hne
      simp [List.filter_cons, hrest]
    · have hin' : name ∈ rest.map Prod.fst := by
        rcases List.mem_cons.mp hin with h | h
        · exact absurd h.symm hk
        · exact h
      simp [List.filter_cons, hk, ih hn.2 hin']

/-- C10 as stated fails: on the row `x`, with a first mapping of column 0 to
the name `a` as a string and a later mapping of column 0 to the same name as
an int, the extraction of the later mapping fails (`x` is not an integer), it
is skipped, and the payload holds under `a` the value of the earlier
mapping. -/
theorem genParamsObject_keeps_earlier :
    extractValueFromCSV (fun _ => none) ["x".toList]
        ⟨"0".toList, "a".toList, "int".toList, [], 0⟩ = .error .atoiError ∧
    genParamsObject (fun _ => none) ["x".toList]
        [⟨"0".toList, "a".toList, "string".toList, [], 0⟩,
          ⟨"0".toList, "a".toList, "int".toList, [], 0⟩] =
      .ok (.object [("a".toList, .str "x".toList)]) := by
  constructor <;> decide

/-- C10, amended: for every row, every object-mode mapping list and every
parameter name, a payload returned by `genParamsObject` is an object with
distinct names that has exactly one entry for the name when some mapping of
that name extracts successfully, its value being the converted value of the
last such mapping, and no entry for the name otherwise; a payload is returned
whenever every converted value can be written as JSON; and when the later of
two mappings sharing a name is the last of that name and its extraction
succeeds, the value is that of the later mapping. -/
theorem genParamsObject_last_success (parseFloat : Str → Option Nat) (rows : List Str)
    (mappings : List ParamMapping) (name : Str) :
    (∀ p, genParamsObject parseFloat rows mappings = .ok p →
      ∃ members, p = .object members ∧ (members.map Prod.fst).Nodup ∧
        match lastSuccess parseFloat rows mappings name with
        | none => name ∉ members.map Prod.fst
        | some v => (members.filter (fun e => decide (e.1 = name))).length = 1 ∧
            ∃ j, marshalValue v = some j ∧ memberLookup members name = some j) ∧
    ((∀ m ∈ mappings, ∀ v, extracted parseFloat rows m = some v → marshalValue v ≠ none) →
      ∃ p, genParamsObject parseFloat rows mappings = .ok p) ∧
    (∀ pre later post v, mappings = pre ++ later :: post → later.ParamName = name →
      extracted parseFloat rows later = some v → (∀ m ∈ post, m.ParamName ≠ name) →
      lastSuccess parseFloat rows mappings name = some v) := by
  obtain ⟨hnodup, hlook⟩ := objectLoop_spec parseFloat rows name mappings [] (by simp)
  simp only [mapLookup, Option.or_none] at hlook
  refine ⟨?_, ?_, ?_⟩
  · intro p hp
    unfold genParamsObject marshalMap at hp
    cases hm : marshalMembers (objectParams parseFloat rows mappings) with
    | none => rw [hm] at hp; cases hp
    | some members =>
      rw [hm] at hp
      simp only [Except.ok.injEq] at hp
      obtain ⟨hkeys, hmem⟩ := marshalMembers_spec _ members hm
      refine ⟨members, hp.symm, by rw [hkeys]; exact hnodup, ?_⟩
      have hl : mapLookup (objectParams parseFloat rows mappings) name =
          lastSuccess parseFloat rows mappings name := hlook
      cases hls : lastSuccess parseFloat rows mappings name with
      | none =>
        simp only
        rw [hkeys, mem_keys_iff_mapLookup, hl, hls]
        simp
      | some v =>
        simp only
        rw [hls] at hl
        have hin : name ∈ members.map Prod.fst := by
          rw [hkeys, mem_keys_iff_mapLookup, hl]
          simp
        obtain ⟨j, hj⟩ := Option.ne_none_iff_exists'.mp ((hmem name).2 v hl)
        refine ⟨length_filter_name members name (by rw [hkeys]; exact hnodup) hin, j, hj, ?_⟩
        rw [(hmem name).1, hl]
        simpa using hj
  · intro hall
    obtain ⟨members, hm⟩ := marshalMembers_isSome (objectParams parseFloat rows mappings)
      (objectLoop_values parseFloat rows (fun v => marshalValue v ≠ none) mappings hall []
        (by simp))
    exact ⟨.object members, by simp [genParamsObject, marshalMap, hm]⟩
  · intro pre later post v hm hname hv hpost
    subst hm
    unfold lastSuccess
    have hfp : post.filter (fun m => decide (m.ParamName = name)) = [] := by
      rw [List.filter_eq_nil_iff]
      intro m hmem
      simpa using hpost m hmem
    rw [List.filter_append, List.filter_cons, hfp]
    simp only [hname, decide_True, if_true, List.filterMap_append, List.filterMap_cons, hv,
      List.filterMap_nil]
    exact List.getLast?_concat _

/-! ## Lemmas and claim on the order of `sort.Slice` -/

/-- A swap below the head of a list. -/
theorem swapAt_cons_succ {α : Type} (z : α) (r : List α) (i j : Nat) :
    swapAt (z :: r) (i + 1) (j + 1) = z :: swapAt r i j := by
  unfold swapAt
  simp only [List.get?_cons_succ]
  cases r.get? i <;> cases r.get? j <;> simp [List.set]

/-- Swapping two neighbours of which at most one satisfies `p` does not change
the elements that satisfy `p`, nor their order. -/
theorem filter_swapAt_adjacent {α : Type} (p : α → Bool) :
    ∀ (j : Nat) (data : List α),
      (∀ x y, data.get? (j + 1) = some x → data.get? j = some y →
        ¬ (p x = true ∧ p y = true)) →
      (swapAt data (j + 1) j).filter p = data.filter p := by
  intro j
  induction j with
  | zero =>
    intro data h
    match data with
    | [] => rfl
    | [_] => rfl
    | y :: x :: r =>
      have hxy := h x y rfl rfl
      have hs : swapAt (y :: x :: r) (0 + 1) 0 = x :: y :: r := rfl
      rw [hs]
      cases hx : p x <;> cases hy : p y <;> simp_all [List.filter_cons]
  | succ j ih =>
    intro data h
    match data with
    | [] => rfl
    | z :: r =>
      rw [swapAt_cons_succ, List.filter_cons, List.filter_cons, ih r]
      intro x y hx hy
      exact h x y (by simpa using hx) (by simpa using hy)

/-- The inner loop of the insertion sort keeps, for a property `p` that no two
elements compared as less both have, the elements with `p` in their order. -/
theorem filter_insertionInner {α : Type} (lt : α → α → Bool) (p : α → Bool)
    (hlt : ∀ x y, lt x y = true → ¬ (p x = true ∧ p y = true)) (a : Nat) :
    ∀ (j : Nat) (data : List α), (insertionInner lt a j data).filter p = data.filter p := by
  intro j
  induction j with
  | zero => intro data; rfl
  | succ j ih =>
    intro data
    rw [insertionInner]
    split
    · rename_i hc
      rw [ih, filter_swapAt_adjacent p j data]
      intro x y hx hy
      have hless := hc.2
      simp only [lessAt, hx, hy] at hless
      exact hlt x y hless
    · rfl

/-- The insertion sort of `sort.Slice` is stable. -/
theorem filter_insertionSortFunc {α : Type} (lt : α → α → Bool) (p : α → Bool)
    (hlt : ∀ x y, lt x y = true → ¬ (p x = true ∧ p y = true)) (data : List α) (a b : Nat) :
    (insertionSortFunc lt data a b).filter p = data.filter p := by
  unfold insertionSortFunc
  generalize List.range' (a + 1) (b - (a + 1)) = is
  induction is generalizing data with
  | nil => rfl
  | cons i rest ih =>
    rw [List.foldl_cons, ih, filter_insertionInner lt p hlt]

/-- Up to twelve elements `sort.Slice` is the insertion sort. -/
theorem sortMappings_short (mappings : List ParamMapping) (h : mappings.length ≤ 12) :
    sortMappings mappings = insertionSortFunc lessByIndex mappings 0 mappings.length := by
  simp [sortMappings, sortSlice, pdqsortFunc, h]

/-- C9 as stated fails: with thirteen mappings of which the first has
`ArrayIndex` 1 and the twelve others `ArrayIndex` 0, `sort.Slice` (Go 1.19 and
later) moves the mapping of column 6 to the front, before the mappings of the
columns 1 to 5, which have the same `ArrayIndex` and were configured before
it; the payload starts with the field `r6`, followed by `r1`. -/
theorem genParamsArray_unstable :
    (thirteenMappings.map (fun m => m.ArrayIndex)) = [1, 0, 0, 0, 0, 0, 0, 0, 0, 0, 0, 0, 0] ∧
    (sortMappings thirteenMappings).map (fun m => m.CSVColumn) =
      ["6".toList, "1".toList, "2".toList, "3".toList, "4".toList, "5".toList, "7".toList,
        "8".toList, "9".toList, "10".toList, "11".toList, "12".toList, "0".toList] ∧
    genParamsArray sortMappings (fun _ => none) thirteenFields thirteenMappings =
      .ok (.array [.str "r6".toList, .str "r1".toList, .str "r2".toList, .str "r3".toList,
        .str "r4".toList, .str "r5".toList, .str "r7".toList, .str "r8".toList,
        .str "r9".toList, .str "r10".toList, .str "r11".toList, .str "r12".toList,
        .str "r0".toList]) ∧
    (sortMappings thirteenMappings).filter (fun m => decide (m.ArrayIndex = 0)) ≠
      thirteenMappings.filter (fun m => decide (m.ArrayIndex = 0)) := by
  refine ⟨by decide, by decide, by decide, by decide⟩

/-- C9, amended: `genParamsArray` visits the mappings in the order in which
`sort.Slice` leaves them, and for a mapping list of at most twelve mappings
(where `sort.Slice` is an insertion sort) the mappings of any one `ArrayIndex`
are visited, and their values appear in the payload, in the relative order in
which they were configured. -/
theorem genParamsArray_stable_short (parseFloat : Str → Option Nat) (rows : List Str)
    (mappings : List ParamMapping) (hlen : mappings.length ≤ 12) (index : Int) :
    (arrayParams sortMappings parseFloat rows mappings).getD [] =
      (sortMappings mappings).filterMap (extracted parseFloat rows) ∧
    (sortMappings mappings).filter (fun m => decide (m.ArrayIndex = index)) =
      mappings.filter (fun m => decide (m.ArrayIndex = index)) ∧
    ((sortMappings mappings).filter (fun m => decide (m.ArrayIndex = index))).filterMap
        (extracted parseFloat rows) =
      (mappings.filter (fun m => decide (m.ArrayIndex = index))).filterMap
        (extracted parseFloat rows) := by
  have hstable : (sortMappings mappings).filter (fun m => decide (m.ArrayIndex = index)) =
      mappings.filter (fun m => decide (m.ArrayIndex = index)) := by
    rw [sortMappings_short mappings hlen]
    apply filter_insertionSortFunc
    intro x y hxy hp
    simp only [lessByIndex, decide_eq_true_eq] at hxy hp
    omega
  refine ⟨?_, hstable, by rw [hstable]⟩
  unfold arrayParams
  rw [foldl_appendSlice]
  simp

/-- C9 amended, at a concrete input: two mappings with the same `ArrayIndex`
keep their configured order. -/
theorem genParamsArray_stable_short_witness :
    (sortMappings [⟨"1".toList, [], "string".toList, [], 0⟩,
        ⟨"0".toList, [], "string".toList, [], 0⟩]).filter
        (fun m => decide (m.ArrayIndex = 0)) =
      [⟨"1".toList, [], "string".toList, [], 0⟩, ⟨"0".toList, [], "string".toList, [], 0⟩] :=
  (genParamsArray_stable_short (fun _ => none) []
    [⟨"1".toList, [], "string".toList, [], 0⟩, ⟨"0".toList, [], "string".toList, [], 0⟩]
    (by decide) 0).2.1

/-- C10 amended, at a concrete input: two mappings share the name `a`, both
extract, and the payload holds the value of the later one. -/
theorem genParamsObject_last_success_witness :
    genParamsObject (fun _ => none) ["x".toList, "7".toList]
        [⟨"0".toList, "a".toList, "string".toList, [], 0⟩,
          ⟨"1".toList, "a".toList, "int".toList, [], 0⟩] =
      .ok (.object [("a".toList, .int 7)]) ∧
    lastSuccess (fun _ => none) ["x".toList, "7".toList]
        [⟨"0".toList, "a".toList, "string".toList, [], 0⟩,
          ⟨"1".toList, "a".toList, "int".toList, [], 0⟩] "a".toList = some (.int 7) :=
  ⟨by decide, (genParamsObject_last_success (fun _ => none) ["x".toList, "7".toList]
    [⟨"0".toList, "a".toList, "string".toList, [], 0⟩,
      ⟨"1".toList, "a".toList, "int".toList, [], 0⟩] "a".toList).2.2
    [⟨"0".toList, "a".toList, "string".toList, [], 0⟩]
    ⟨"1".toList, "a".toList, "int".toList, [], 0⟩ [] (.int 7) rfl rfl (by decide)
    (by simp)⟩

/-! ## Claims on `genParams` -/

/-- The row `genParams` works on is the normalized row. -/
theorem genParams_row (rows : List Str) :
    (if rows.length = 1 then stringsSplit (rows.getD 0 []) (Char.ofNat 9) else rows) =
      normalizedRow rows := by
  match rows with
  | [] => rfl
  | [_] => rfl
  | _ :: _ :: _ => rfl

/-- `json.Marshal` fails on a list only when one of its values cannot be written. -/
theorem marshalValues_isSome (vs : List Value) (h : ∀ v ∈ vs, marshalValue v ≠ none) :
    ∃ js, marshalValues vs = some js := by
  induction vs with
  | nil => exact ⟨[], rfl⟩
  | cons v rest ih =>
    obtain ⟨js, hjs⟩ := ih (fun v hv => h v (List.mem_cons_of_mem _ hv))
    obtain ⟨j, hj⟩ := Option.ne_none_iff_exists'.mp (h v (List.mem_cons_self _ _))
    exact ⟨j :: js, by simp [marshalValues, hj, hjs]⟩

/-- A failure of `json.Marshal` on a list points at a value that cannot be written. -/
theorem marshalValues_none (vs : List Value) (h : marshalValues vs = none) :
    ∃ v ∈ vs, marshalValue v = none := by
  by_contra hcon
  push_neg at hcon
  obtain ⟨js, hjs⟩ := marshalValues_isSome vs hcon
  rw [hjs] at h
  cases h

/-- A failure of `json.Marshal` on a map points at a value that cannot be written. -/
theorem marshalMembers_none (m : GoMap) (h : marshalMembers m = none) :
    ∃ e ∈ m, marshalValue e.2 = none := by
  by_contra hcon
  push_neg at hcon
  obtain ⟨js, hjs⟩ := marshalMembers_isSome m hcon
  rw [hjs] at h
  cases h

/-- The slice filled by the loop of `genParamsArray` is `nil` when no
extraction succeeds and holds the successful values otherwise. -/
theorem arrayParams_eq (sortSlice : List ParamMapping → List ParamMapping)
    (parseFloat : Str → Option Nat) (rows : List Str) (mappings : List ParamMapping) :
    arrayParams sortSlice parseFloat rows mappings =
      if (sortSlice mappings).filterMap (extracted parseFloat rows) = [] then none
      else some ((sortSlice mappings).filterMap (extracted parseFloat rows)) := by
  unfold arrayParams
  have key : ∀ (l : List ParamMapping) (acc : Option (List Value)),
      l.foldl (fun params mapping =>
        match extractValueFromCSV parseFloat rows mapping with
        | .error _ => params
        | .ok value => appendSlice params value) acc =
      if l.filterMap (extracted parseFloat rows) = [] then acc
      else some (acc.getD [] ++ l.filterMap (extracted parseFloat rows)) := by
    intro l
    induction l with
    | nil => intro acc; simp
    | cons m ms ih =>
      intro acc
      rw [List.foldl_cons, ih]
      cases hm : extractValueFromCSV parseFloat rows m with
      | error e => simp [extracted, hm, Except.toOption]
      | ok v =>
        cases acc <;>
          by_cases hms : List.filterMap (extracted parseFloat rows) ms = [] <;>
          simp [extracted, hm, Except.toOption, appendSlice, hms]
  rw [key]
  simp

/-- When every extraction fails the map of `genParamsObject` stays empty. -/
theorem objectParams_all_fail (parseFloat : Str → Option Nat) (rows : List Str)
    (mappings : List ParamMapping)
    (h : ∀ m ∈ mappings, extracted parseFloat rows m = none) :
    objectParams parseFloat rows mappings = [] := by
  unfold objectParams
  generalize ([] : GoMap) = acc
  induction mappings generalizing acc with
  | nil => rfl
  | cons m ms ih =>
    rw [List.foldl_cons]
    have hm := h m (List.mem_cons_self _ _)
    cases he : extractValueFromCSV parseFloat rows m with
    | error e => exact ih (fun m' hm' => h m' (List.mem_cons_of_mem _ hm')) acc
    | ok v => simp [extracted, he, Except.toOption] at hm

/-- The values `json.Marshal` refuses are the floats that are not finite. -/
theorem marshalValue_eq_none (v : Value) :
    marshalValue v = none ↔ ∃ bits, v = .float bits ∧ floatIsFinite bits = false := by
  cases v with
  | float bits => by_cases h : floatIsFinite bits = true <;> simp [marshalValue, h]
  | strSlice xs => cases xs <;> simp [marshalValue]
  | intSlice xs => cases xs <;> simp [marshalValue]
  | _ => simp [marshalValue]

/-- C11 as stated fails. By the design of the error path, `genParams` does not
always succeed: a float mapping on the field `NaN` converts to a NaN, which
`json.Marshal` refuses, in array mode and in object mode. And in array mode,
when the only mapping fails (an int mapping on the field `x`), the slice is
still `nil` and the payload is `null`, not an array. -/
theorem genParams_not_always_array :
    genParams sortMappings parseFloatNaN "array".toList
        [⟨"0".toList, "a".toList, "float".toList, [], 0⟩] ["NaN".toList] =
      .error .marshalError ∧
    genParams sortMappings parseFloatNaN "object".toList
        [⟨"0".toList, "a".toList, "float".toList, [], 0⟩] ["NaN".toList] =
      .error .marshalError ∧
    genParams sortMappings (fun _ => none) "array".toList
        [⟨"0".toList, "a".toList, "int".toList, [], 0⟩] ["x".toList] = .ok .null := by
  refine ⟨by decide, by decide, by decide⟩

/-- C11, amended: for every row and every non-empty mapping list, with
`sort.Slice` taken by its contract: in object mode `genParams` returns a JSON
object whenever every converted value can be written as JSON, the empty
object when no mapping yields a value; in array mode it returns a non-empty
JSON array whenever some mapping yields a value and every converted value can
be written; and it returns an error only when some converted value cannot be
written, which is the case of a float that is NaN or infinite. -/
theorem genParams_shape (sortSlice : List ParamMapping → List ParamMapping)
    (hsort : SortSliceContract sortSlice) (parseFloat : Str → Option Nat) (paramMode : Str)
    (mappings : List ParamMapping) (rows : List Str) (hne : mappings ≠ []) :
    (paramMode ≠ "array".toList →
      ((∀ m ∈ mappings, ∀ v, extracted parseFloat (normalizedRow rows) m = some v →
          marshalValue v ≠ none) →
        ∃ members, genParams sortSlice parseFloat paramMode mappings rows =
          .ok (.object members)) ∧
      ((∀ m ∈ mappings, extracted parseFloat (normalizedRow rows) m = none) →
        genParams sortSlice parseFloat paramMode mappings rows = .ok (.object []))) ∧
    (paramMode = "array".toList →
      (∃ m ∈ mappings, extracted parseFloat (normalizedRow rows) m ≠ none) →
      (∀ m ∈ mappings, ∀ v, extracted parseFloat (normalizedRow rows) m = some v →
          marshalValue v ≠ none) →
      ∃ js, js ≠ [] ∧
        genParams sortSlice parseFloat paramMode mappings rows = .ok (.array js)) ∧
    (∀ e, genParams sortSlice parseFloat paramMode mappings rows = .error e →
      e = .marshalError ∧
      ∃ m ∈ mappings, ∃ v, extracted parseFloat (normalizedRow rows) m = some v ∧
        marshalValue v = none ∧ ∃ bits, v = .float bits ∧ floatIsFinite bits = false) := by
  have hlen : ¬ mappings.length = 0 := fun h => hne (List.length_eq_zero.mp h)
  obtain ⟨hperm, _⟩ := hsort mappings
  have hmemvals : ∀ v ∈ (sortSlice mappings).filterMap (extracted parseFloat (normalizedRow rows)),
      ∃ m ∈ mappings, extracted parseFloat (normalizedRow rows) m = some v := by
    intro v hv
    obtain ⟨m, hm, hmv⟩ := List.mem_filterMap.mp hv
    exact ⟨m, hperm.subset hm, hmv⟩
  refine ⟨fun hmode => ⟨fun hall => ?_, fun hfail => ?_⟩, fun hmode hsome hall => ?_,
    fun e he => ?_⟩
  · obtain ⟨members, hm⟩ := marshalMembers_isSome
      (objectParams parseFloat (normalizedRow rows) mappings)
      (objectLoop_values parseFloat (normalizedRow rows) (fun v => marshalValue v ≠ none)
        mappings hall [] (by simp))
    exact ⟨members, by
      simp only [genParams, genParams_row, hlen, if_false, hmode, genParamsObject, marshalMap,
        hm]⟩
  · simp only [genParams, genParams_row, hlen, if_false, hmode, genParamsObject, marshalMap,
      objectParams_all_fail parseFloat (normalizedRow rows) mappings hfail, marshalMembers]
  · obtain ⟨m, hm, hmv⟩ := hsome
    obtain ⟨v, hv⟩ := Option.ne_none_iff_exists'.mp hmv
    have hin : v ∈ (sortSlice mappings).filterMap (extracted parseFloat (normalizedRow rows)) :=
      List.mem_filterMap.mpr ⟨m, hperm.symm.subset hm, hv⟩
    have hnil : (sortSlice mappings).filterMap (extracted parseFloat (normalizedRow rows)) ≠ [] :=
      List.ne_nil_of_mem hin
    obtain ⟨js, hjs⟩ := marshalValues_isSome _ (fun v hv => by
      obtain ⟨m', hm', hmv'⟩ := hmemvals v hv
      exact hall m' hm' v hmv')
    refine ⟨js, ?_, ?_⟩
    · intro hjs0
      have := marshalValues_length _ _ hjs
      rw [hjs0] at this
      exact hnil (List.length_eq_zero.mp this.symm)
    · simp only [genParams, genParams_row, hlen, if_false, hmode, if_true, genParamsArray,
        arrayParams_eq, hnil, marshalSlice, hjs]
  · have hbad : ∀ v, (∃ m ∈ mappings, extracted parseFloat (normalizedRow rows) m = some v) →
        marshalValue v = none →
        ∃ m ∈ mappings, ∃ v, extracted parseFloat (normalizedRow rows) m = some v ∧
          marshalValue v = none ∧ ∃ bits, v = .float bits ∧ floatIsFinite bits = false := by
      intro v ⟨m, hm, hmv⟩ hnone
      exact ⟨m, hm, v, hmv, hnone, (marshalValue_eq_none v).mp hnone⟩
    simp only [genParams, genParams_row, hlen, if_false] at he
    by_cases hmode : paramMode = "array".toList
    · simp only [hmode, if_true, genParamsArray, arrayParams_eq] at he
      split at he
      · simp [marshalSlice] at he
      · simp only [marshalSlice] at he
        cases hmv : marshalValues
          ((sortSlice mappings).filterMap (extracted parseFloat (normalizedRow rows))) with
        | some js => rw [hmv] at he; cases he
        | none =>
          rw [hmv] at he
          simp only [Except.error.injEq] at he
          obtain ⟨v, hv, hnone⟩ := marshalValues_none _ hmv
          exact ⟨he.symm, hbad v (hmemvals v hv) hnone⟩
    · simp only [hmode, if_false, genParamsObject, marshalMap] at he
      cases hmm : marshalMembers (objectParams parseFloat (normalizedRow rows) mappings) with
      | some ms => rw [hmm] at he; cases he
      | none =>
        rw [hmm] at he
        simp only [Except.error.injEq] at he
        obtain ⟨e', he', hnone⟩ := marshalMembers_none _ hmm
        have hfrom := objectLoop_values parseFloat (normalizedRow rows)
          (fun v => ∃ m ∈ mappings, extracted parseFloat (normalizedRow rows) m = some v)
          mappings (fun m hm v hv => ⟨m, hm, hv⟩) [] (by simp) e' he'
        exact ⟨he.symm, hbad e'.2 hfrom hnone⟩

/-- C11 amended, at a concrete input: in object mode a single int mapping on
the field `x` fails and the payload is the empty object. -/
theorem genParams_shape_witness :
    genParams insertionSortByIndex (fun _ => none) "object".toList
        [⟨"0".toList, "a".toList, "int".toList, [], 0⟩] ["x".toList] = .ok (.object []) :=
  ((genParams_shape insertionSortByIndex insertionSortByIndex_contract (fun _ => none)
    "object".toList [⟨"0".toList, "a".toList, "int".toList, [], 0⟩] ["x".toList]
    (by decide)).1 (by decide)).2 (by decide)

/-- C16: when no mappings are configured, `genParams` (whatever the mode)
applies the legacy extraction to the row after the single-field tab re-split,
and the result equals the reference: an error and no payload for a row of
fewer than five fields, otherwise the two-element JSON array of field 4 as a
string and of field 2 parsed as a base-10 integer, 0 when it does not parse. -/
theorem genParams_legacy (sortSlice : List ParamMapping → List ParamMapping)
    (parseFloat : Str → Option Nat) (paramMode : Str) (rows : List Str) :
    genParams sortSlice parseFloat paramMode [] rows = legacyReference (normalizedRow rows) ∧
    ((normalizedRow rows).length < 5 →
      genParams sortSlice parseFloat paramMode [] rows = .error .rowTooShort) ∧
    (5 ≤ (normalizedRow rows).length →
      genParams sortSlice parseFloat paramMode [] rows =
        .ok (.array [.str ((normalizedRow rows).getD 4 []),
          .int ((atoi ((normalizedRow rows).getD 2 [])).getD 0)])) := by
  have hmain : genParams sortSlice parseFloat paramMode [] rows =
      legacyReference (normalizedRow rows) := by
    simp only [genParams, genParams_row, List.length_nil, if_true, genParamsLegacy,
      legacyReference]
    by_cases h5 : (normalizedRow rows).length < 5
    · rw [if_pos h5, if_pos h5]
    · rw [if_neg h5, if_neg h5, if_pos (by omega)]
      cases atoi ((normalizedRow rows).getD 2 []) <;>
        simp [marshalSlice, marshalValues, marshalValue]
  refine ⟨hmain, fun h => ?_, fun h => ?_⟩
  · rw [hmain, legacyReference, if_pos h]
  · rw [hmain, legacyReference, if_neg (by omega)]

/-! ## Lemmas and claims on the type converter -/

/-- `strings.Contains` with a separator of one character is membership. -/
theorem stringsContains_singleton (s : Str) (c : Char) :
    stringsContains s [c] = decide (c ∈ s) := by
  unfold stringsContains
  induction s with
  | nil => rfl
  | cons x xs ih =>
    rw [List.tails, List.any_cons, ih]
    by_cases h : c = x
    · subst h; simp [List.isPrefixOf]
    · simp [List.isPrefixOf, h]

/-- `strings.Split` at one character is the split of a list at that element. -/
theorem stringsSplit_eq_splitOn (s : Str) (sep : Char) :
    stringsSplit s sep = s.splitOn sep := by
  induction s with
  | nil => rfl
  | cons c cs ih =>
    rw [stringsSplit, List.splitOn, List.splitOnP_cons]
    by_cases h : c = sep
    · subst h
      simp only [if_true, beq_self_eq_true]
      rw [ih]
      rfl
    · have hb : (c == sep) = false := by simpa using h
      simp only [h, if_false, hb, Bool.false_eq_true]
      rw [ih, List.splitOn]
      cases hs : List.splitOnP (fun x => x == sep) cs with
      | nil => exact absurd hs (List.splitOnP_ne_nil _ _)
      | cons p ps => rfl

/-- `strings.Split` returns at least one piece. -/
theorem stringsSplit_ne_nil (s : Str) (sep : Char) : stringsSplit s sep ≠ [] := by
  rw [stringsSplit_eq_splitOn, List.splitOn]
  exact List.splitOnP_ne_nil _ _

/-- The pieces computed by the converter are those of the reference, before
trimming. -/
theorem splitParts_trimmed (value : Str) :
    (splitParts (trimSpace value)).map trimSpace = referencePieces value := by
  unfold splitParts referencePieces separators
  have hpred : (fun sep => stringsContains (trimSpace value) [sep]) =
      (fun sep => decide (sep ∈ trimSpace value)) := by
    funext sep
    exact stringsContains_singleton _ _
  rw [hpred]
  cases hf : List.find? (fun sep => decide (sep ∈ trimSpace value)) [',', ';', '|', ' '] with
  | none => simp [hf]
  | some sep =>
    simp only [hf]
    have hne := stringsSplit_ne_nil (trimSpace value) sep
    have hlen : ¬ (stringsSplit (trimSpace value) sep).length = 0 :=
      fun h => hne (List.length_eq_zero.mp h)
    rw [if_neg hlen, stringsSplit_eq_splitOn]

/-- The `string[]` loop keeps the trimmed pieces that are not empty; the
slice stays `nil` when there is none. -/
theorem collectStrings_eq (parts : List Str) :
    collectStrings parts =
      if (parts.map trimSpace).filter (fun piece => decide (piece ≠ [])) = [] then none
      else some ((parts.map trimSpace).filter (fun piece => decide (piece ≠ []))) := by
  unfold collectStrings
  have key : ∀ (l : List Str) (acc : Option (List Str)),
      l.foldl (fun result part =>
        let trimmed := trimSpace part
        if trimmed ≠ [] then appendSlice result trimmed else result) acc =
      if (l.map trimSpace).filter (fun piece => decide (piece ≠ [])) = [] then acc
      else some (acc.getD [] ++ (l.map trimSpace).filter (fun piece => decide (piece ≠ []))) := by
    intro l
    induction l with
    | nil => intro acc; simp
    | cons x xs ih =>
      intro acc
      rw [List.foldl_cons, ih]
      by_cases hx : trimSpace x = []
      · simp [hx]
      · cases acc <;>
          by_cases hxs : List.filter (fun piece => decide (piece ≠ []))
            (List.map trimSpace xs) = [] <;>
          simp [hx, hxs, appendSlice, List.filter_cons]
  rw [key]
  simp

/-- A trimmed text that is not empty neither starts nor ends with white space. -/
theorem trimSpace_trimmed (x : Str) (h : trimSpace x ≠ []) : TrimmedText (trimSpace x) := by
  have hr : trimSpace x = (x.dropWhile isSpace).rdropWhile isSpace := rfl
  refine ⟨h, ?_, ?_⟩
  · intro c hc
    have hpre : trimSpace x <+: x.dropWhile isSpace := by
      rw [hr]; exact List.rdropWhile_prefix _ _
    obtain ⟨t, ht⟩ := hpre
    have hhead : (x.dropWhile isSpace).head? = some c := by
      rw [← ht]
      cases hx : trimSpace x with
      | nil => exact absurd hx h
      | cons a as => rw [hx] at hc; simpa using hc
    have := List.head?_dropWhile_not isSpace x
    rw [hhead] at this
    exact this
  · intro c hc
    rw [hr] at hc h
    have := List.rdropWhile_last_not isSpace (x.dropWhile isSpace) h
    rw [List.getLast?_eq_getLast _ h] at hc
    simp only [Option.some.injEq] at hc
    rw [hc] at this
    simpa using this

/-- C12: for every value that is not blank, `convertValueByType(value,
"string[]")` returns no error and its result is the reference list: the value
trimmed, split at the first of comma, semicolon, pipe and space that occurs
in it (one piece when none occurs), every piece trimmed, the empty pieces
dropped (a Go slice that is `nil` when this list is empty); and no element of
the result is empty or starts or ends with white space. -/
theorem convert_string_list (parseFloat : Str → Option Nat) (value : Str)
    (hne : trimSpace value ≠ []) :
    ∃ xs, convertValueByType parseFloat value "string[]".toList = .ok (.strSlice xs) ∧
      xs = (if stringListReference value = [] then none
        else some (stringListReference value)) ∧
      xs.getD [] = stringListReference value ∧
      ∀ x ∈ xs.getD [], TrimmedText x := by
  have hconv : convertValueByType parseFloat value "string[]".toList =
      .ok (.strSlice (collectStrings (splitParts (trimSpace value)))) := by
    unfold convertValueByType
    rw [if_neg (by decide), if_neg (by decide), if_neg (by decide), if_neg (by decide),
      if_pos rfl]
    simp only [hne, if_false]
  have hcol := collectStrings_eq (splitParts (trimSpace value))
  rw [splitParts_trimmed] at hcol
  have hget : (collectStrings (splitParts (trimSpace value))).getD [] =
      stringListReference value := by
    rw [hcol]
    unfold stringListReference
    split
    · rename_i h0; rw [h0]; rfl
    · rfl
  refine ⟨_, hconv, hcol, hget, ?_⟩
  intro x hx
  rw [hget] at hx
  unfold stringListReference referencePieces at hx
  obtain ⟨hmem, hnonempty⟩ := List.mem_filter.mp hx
  obtain ⟨y, _, hy⟩ := List.mem_map.mp hmem
  rw [← hy]
  apply trimSpace_trimmed
  rw [hy]
  simpa using hnonempty

/-- C12, at the inputs of the claim: `a,b,c` gives `a`, `b`, `c`; `a;b|c`
gives `a`, `b|c`; `a b c` gives `a`, `b`, `c`. -/
theorem convert_string_list_witness :
    (∃ xs, convertValueByType (fun _ => none) "a,b,c".toList "string[]".toList =
        .ok (.strSlice xs) ∧ xs.getD [] = ["a".toList, "b".toList, "c".toList]) ∧
    (∃ xs, convertValueByType (fun _ => none) "a;b|c".toList "string[]".toList =
        .ok (.strSlice xs) ∧ xs.getD [] = ["a".toList, "b|c".toList]) ∧
    (∃ xs, convertValueByType (fun _ => none) "a b c".toList "string[]".toList =
        .ok (.strSlice xs) ∧ xs.getD [] = ["a".toList, "b".toList, "c".toList]) := by
  refine ⟨?_, ?_, ?_⟩
  · obtain ⟨xs, h1, _, h3, _⟩ :=
      convert_string_list (fun _ => none) "a,b,c".toList (by decide)
    exact ⟨xs, h1, h3.trans (by decide)⟩
  · obtain ⟨xs, h1, _, h3, _⟩ :=
      convert_string_list (fun _ => none) "a;b|c".toList (by decide)
    exact ⟨xs, h1, h3.trans (by decide)⟩
  · obtain ⟨xs, h1, _, h3, _⟩ :=
      convert_string_list (fun _ => none) "a b c".toList (by decide)
    exact ⟨xs, h1, h3.trans (by decide)⟩

/-- `parseDigits` reads a text of digits as the number it writes, continuing
from `acc`, and fails on any other character. -/
theorem parseDigits_eq (ds : Str) :
    ∀ acc : Nat, parseDigits ds acc =
      if ds.all (fun c => decide (48 ≤ c.toNat ∧ c.toNat ≤ 57)) = true then
        some (ds.foldl (fun acc c => 10 * acc + (c.toNat - 48)) acc)
      else none := by
  induction ds with
  | nil => intro acc; rfl
  | cons c cs ih =>
    intro acc
    rw [parseDigits, digitVal]
    by_cases hc : 48 ≤ c.toNat ∧ c.toNat ≤ 57
    · simp only [hc, and_self, if_true, ih, List.all_cons, decide_True, Bool.true_and,
        List.foldl_cons]
      rw [Nat.mul_comm acc 10]
    · simp [hc]

/-- The range checks of `strconv.Atoi` after the digits are read, against the
reference: a negative text may reach `2^63`, another text must stay below. -/
theorem atoi_digits (d : Char) (ds : Str) :
    ((match parseDigits (d :: ds) 0 with
      | none => none
      | some n => if n ≤ 2 ^ 63 then some (-(n : Int)) else none) =
      (if isDigits (d :: ds) = true then
        (if inIntRange (-(digitsValue (d :: ds) : Int)) = true then
          some (-(digitsValue (d :: ds) : Int)) else none)
      else none)) ∧
    ((match parseDigits (d :: ds) 0 with
      | none => none
      | some n => if n < 2 ^ 63 then some (n : Int) else none) =
      (if isDigits (d :: ds) = true then
        (if inIntRange (digitsValue (d :: ds) : Int) = true then
          some (digitsValue (d :: ds) : Int) else none)
      else none)) := by
  rw [parseDigits_eq]
  have hd : isDigits (d :: ds) = (d :: ds).all (fun c => decide (48 ≤ c.toNat ∧ c.toNat ≤ 57)) := by
    simp [isDigits]
  rw [hd]
  by_cases hall : (d :: ds).all (fun c => decide (48 ≤ c.toNat ∧ c.toNat ≤ 57)) = true
  · rw [if_pos hall, if_pos hall, if_pos hall]
    simp only [inIntRange, decide_eq_true_eq]
    have hv : digitsValue (d :: ds) =
        (d :: ds).foldl (fun acc c => 10 * acc + (c.toNat - 48)) 0 := rfl
    rw [← hv]
    constructor
    · by_cases hr : digitsValue (d :: ds) ≤ 2 ^ 63
      · rw [if_pos hr, if_pos (by omega)]
      · rw [if_neg hr, if_neg (by omega)]
    · by_cases hr : digitsValue (d :: ds) < 2 ^ 63
      · rw [if_pos hr, if_pos (by omega)]
      · rw [if_neg hr, if_neg (by omega)]
  · rw [if_neg hall, if_neg hall, if_neg hall]
    exact ⟨rfl, rfl⟩

/-- `strconv.Atoi` accepts exactly the texts that are base-10 integers within
the machine range, and returns their value. -/
theorem atoi_eq_machineInteger (s : Str) : atoi s = machineInteger s := by
  unfold atoi machineInteger integerValue
  match s with
  | [] => rfl
  | c :: cs =>
    simp only
    by_cases hm : c = '-'
    · subst hm
      simp only [decide_True, true_or, if_true]
      cases cs with
      | nil => rfl
      | cons d ds =>
        simp only
        rw [(atoi_digits d ds).1]
        by_cases hdig : isDigits (d :: ds) = true
        · rw [if_pos hdig, if_pos hdig]
        · rw [if_neg hdig, if_neg hdig]
    · by_cases hp : c = '+'
      · subst hp
        simp only [hm, decide_False, false_or, if_true, if_false, Bool.false_eq_true]
        cases cs with
        | nil => rfl
        | cons d ds =>
          simp only
          rw [(atoi_digits d ds).2]
          by_cases hdig : isDigits (d :: ds) = true
          · rw [if_pos hdig, if_pos hdig]
          · rw [if_neg hdig, if_neg hdig]
      · simp only [hm, hp, decide_False, or_self, if_false, Bool.false_eq_true]
        rw [(atoi_digits c cs).2]
        by_cases hdig : isDigits (c :: cs) = true
        · rw [if_pos hdig, if_pos hdig]
        · rw [if_neg hdig, if_neg hdig]

/-- The `int[]` loop keeps the values of the trimmed pieces that are machine
integers; the slice stays `nil` when there is none. -/
theorem collectInts_eq (parts : List Str) :
    collectInts parts =
      if (parts.map trimSpace).filterMap machineInteger = [] then none
      else some ((parts.map trimSpace).filterMap machineInteger) := by
  unfold collectInts
  have key : ∀ (l : List Str) (acc : Option (List Int)),
      l.foldl (fun result part =>
        let trimmed := trimSpace part
        if trimmed ≠ [] then
          match atoi trimmed with
          | some num => appendSlice result num
          | none => result
        else result) acc =
      if (l.map trimSpace).filterMap machineInteger = [] then acc
      else some (acc.getD [] ++ (l.map trimSpace).filterMap machineInteger) := by
    intro l
    induction l with
    | nil => intro acc; simp
    | cons x xs ih =>
      intro acc
      rw [List.foldl_cons, ih]
      by_cases hx : trimSpace x = []
      · have h0 : machineInteger [] = none := rfl
        simp [hx, h0]
      · simp only [ne_eq, hx, not_false_eq_true, if_true, atoi_eq_machineInteger,
          List.map_cons, List.filterMap_cons]
        cases hmi : machineInteger (trimSpace x) with
        | none => simp
        | some n =>
          cases acc <;>
            by_cases hxs : List.filterMap machineInteger (List.map trimSpace xs) = [] <;>
            simp [hxs, appendSlice]
  rw [key]
  simp

/-- C13: for every value, `convertValueByType(value, "int[]")` returns no
error, and its result holds, in their order, exactly the integers written by
those pieces (the same first-separator split and trim as for `string[]`) that
are base-10 integers of the machine range; the other pieces are dropped. The
Go slice is empty and not `nil` for a blank value, and `nil` when a value
that is not blank has no integer piece. -/
theorem convert_int_list (parseFloat : Str → Option Nat) (value : Str) :
    ∃ xs, convertValueByType parseFloat value "int[]".toList = .ok (.intSlice xs) ∧
      xs = (if trimSpace value = [] then some []
        else if intListReference value = [] then none
        else some (intListReference value)) ∧
      xs.getD [] = intListReference value ∧
      (xs.getD []).length ≤ (referencePieces value).length := by
  have hcol := collectInts_eq (splitParts (trimSpace value))
  rw [splitParts_trimmed] at hcol
  have hconv : convertValueByType parseFloat value "int[]".toList =
      .ok (.intSlice (if trimSpace value = [] then some []
        else collectInts (splitParts (trimSpace value)))) := by
    unfold convertValueByType
    rw [if_neg (by decide), if_neg (by decide), if_neg (by decide), if_neg (by decide),
      if_neg (by decide), if_pos rfl]
    split <;> rfl
  have hx : (if trimSpace value = [] then some []
        else collectInts (splitParts (trimSpace value))) =
      (if trimSpace value = [] then some []
        else if intListReference value = [] then none
        else some (intListReference value)) := by
    split
    · rfl
    · rw [hcol]; rfl
  have hget : (if trimSpace value = [] then some []
        else if intListReference value = [] then none
        else some (intListReference value)).getD [] = intListReference value := by
    split
    · rename_i h0
      have : intListReference value = [] := by
        unfold intListReference referencePieces
        rw [h0]
        rfl
      rw [this]; rfl
    · split
      · rename_i h0; rw [h0]; rfl
      · rfl
  refine ⟨_, hconv, hx, by rw [hx, hget], ?_⟩
  rw [hx, hget]
  exact List.length_filterMap_le _ _

/-- C13, at the inputs of the claim: `1,2,x,4` gives 1, 2, 4 and
`1, abc, 3, 4.5, 5` gives 1, 3, 5. -/
theorem convert_int_list_witness :
    (∃ xs, convertValueByType (fun _ => none) "1,2,x,4".toList "int[]".toList =
        .ok (.intSlice xs) ∧ xs.getD [] = [1, 2, 4]) ∧
    (∃ xs, convertValueByType (fun _ => none) "1, abc, 3, 4.5, 5".toList "int[]".toList =
        .ok (.intSlice xs) ∧ xs.getD [] = [1, 3, 5]) := by
  refine ⟨?_, ?_⟩
  · obtain ⟨xs, h1, _, h3, _⟩ := convert_int_list (fun _ => none) "1,2,x,4".toList
    exact ⟨xs, h1, h3.trans (by decide)⟩
  · obtain ⟨xs, h1, _, h3, _⟩ := convert_int_list (fun _ => none) "1, abc, 3, 4.5, 5".toList
    exact ⟨xs, h1, h3.trans (by decide)⟩

/-- A blank text trims to the empty text. -/
theorem trimSpace_blank (value : Str) (h : ∀ c ∈ value, isSpace c = true) :
    trimSpace value = [] := by
  unfold trimSpace
  rw [List.dropWhile_eq_nil_iff.mpr h]
  rfl

/-- C14: for every type tag, known or not, `convertValueByType` applied to
the empty string or to a string of white space only returns no error and the
documented zero value: the empty string for `string` and for an unknown
tag, 0 for `int`, 0.0 for `float`, `false` for `bool`, and an empty list for
`string[]` and `int[]`. -/
theorem convert_blank (parseFloat : Str → Option Nat) (value paramType : Str)
    (hblank : ∀ c ∈ value, isSpace c = true) :
    convertValueByType parseFloat value paramType = .ok (zeroValue paramType) ∧
    zeroValue "string".toList = .str [] ∧ zeroValue "int".toList = .int 0 ∧
    zeroValue "float".toList = .float 0 ∧ zeroValue "bool".toList = .bool false ∧
    zeroValue "string[]".toList = .strSlice (some []) ∧
    zeroValue "int[]".toList = .intSlice (some []) ∧
    (paramType ∉ ["string".toList, "int".toList, "float".toList, "bool".toList,
        "string[]".toList, "int[]".toList] → zeroValue paramType = .str []) := by
  refine ⟨?_, by decide, by decide, by decide, by decide, by decide, by decide, ?_⟩
  · unfold convertValueByType zeroValue
    rw [trimSpace_blank value hblank]
    by_cases h1 : paramType = "string".toList
    · rw [if_pos h1, h1]; rfl
    · rw [if_neg h1]
      by_cases h2 : paramType = "int".toList
      · rw [if_pos h2, if_pos h2]; rfl
      · rw [if_neg h2, if_neg h2]
        by_cases h3 : paramType = "float".toList
        · rw [if_pos h3, if_pos h3]; rfl
        · rw [if_neg h3, if_neg h3]
          by_cases h4 : paramType = "bool".toList
          · rw [if_pos h4, if_pos h4]; rfl
          · rw [if_neg h4, if_neg h4]
            by_cases h5 : paramType = "string[]".toList
            · rw [if_pos h5, if_pos h5]; rfl
            · rw [if_neg h5, if_neg h5]
              by_cases h6 : paramType = "int[]".toList
              · rw [if_pos h6, if_pos h6]; rfl
              · rw [if_neg h6, if_neg h6]
  · intro hnot
    simp only [List.mem_cons, List.mem_singleton, List.not_mem_nil, or_false, not_or] at hnot
    unfold zeroValue
    rw [if_neg hnot.2.1, if_neg hnot.2.2.1, if_neg hnot.2.2.2.1, if_neg hnot.2.2.2.2.1,
      if_neg hnot.2.2.2.2.2]

/-- C14, at concrete inputs: a string of a space and a tab converts to 0 as an
`int` and to the empty list as an `int[]`. -/
theorem convert_blank_witness :
    convertValueByType (fun _ => none) [' ', Char.ofNat 9] "int".toList = .ok (.int 0) ∧
    convertValueByType (fun _ => none) [' ', Char.ofNat 9] "int[]".toList =
      .ok (.intSlice (some [])) :=
  ⟨(convert_blank (fun _ => none) [' ', Char.ofNat 9] "int".toList (by decide)).1,
    (convert_blank (fun _ => none) [' ', Char.ofNat 9] "int[]".toList (by decide)).1⟩

/-- The code of a digit character. -/
theorem digitChar_toNat (d : Nat) (h : d < 10) : (digitChar d).toNat = 48 + d := by
  unfold digitChar
  interval_cases d <;> rfl

/-- The digit character of the value of a digit character. -/
theorem digitChar_of_digit (c : Char) (h : 48 ≤ c.toNat ∧ c.toNat ≤ 57) :
    digitChar (c.toNat - 48) = c := by
  unfold digitChar
  rw [show 48 + (c.toNat - 48) = c.toNat by omega]
  exact Char.ofNat_toNat c

/-- The digits of `n` are written in front of the accumulator, whatever the
bound as long as it exceeds `n`. -/
theorem formatNatAux_eq (n : Nat) :
    ∀ (fuel : Nat) (acc : Str), n < fuel → formatNatAux fuel n acc = formatNat n ++ acc := by
  induction n using Nat.strong_induction_on with
  | _ n ih =>
    intro fuel acc hlt
    cases fuel with
    | zero => omega
    | succ fuel =>
      rw [formatNatAux, formatNat, formatNatAux]
      by_cases h10 : n < 10
      · rw [if_pos h10, if_pos h10]; rfl
      · rw [if_neg h10, if_neg h10]
        have hdiv : n / 10 < n := Nat.div_lt_self (by omega) (by omega)
        rw [ih (n / 10) hdiv fuel _ (by omega), ih (n / 10) hdiv n _ hdiv]
        simp

/-- A number below ten is written with one digit. -/
theorem formatNat_lt (n : Nat) (h : n < 10) : formatNat n = [digitChar n] := by
  rw [formatNat, formatNatAux, if_pos h]

/-- A number from ten on is written as its tenth followed by its last digit. -/
theorem formatNat_ge (n : Nat) (h : 10 ≤ n) :
    formatNat n = formatNat (n / 10) ++ [digitChar (n % 10)] := by
  rw [formatNat, formatNatAux, if_neg (by omega),
    formatNatAux_eq (n / 10) n _ (Nat.div_lt_self (by omega) (by omega))]

/-- The value of a digit text extended by one digit. -/
theorem digitsValue_append (xs : Str) (c : Char) :
    digitsValue (xs ++ [c]) = 10 * digitsValue xs + (c.toNat - 48) := by
  simp [digitsValue, List.foldl_append]

/-- The decimal writing of `n` is a non-empty text of digits whose value is `n`. -/
theorem formatNat_spec (n : Nat) :
    digitsValue (formatNat n) = n ∧ isDigits (formatNat n) = true := by
  induction n using Nat.strong_induction_on with
  | _ n ih =>
    by_cases h10 : n < 10
    · rw [formatNat_lt n h10]
      have := digitChar_toNat n h10
      simp only [digitsValue, isDigits, List.foldl_cons, List.foldl_nil, this, Nat.mul_zero,
        Nat.zero_add, Nat.add_sub_cancel_left, List.isEmpty_cons, Bool.not_false, List.all_cons,
        List.all_nil, Bool.and_true, Bool.true_and, decide_eq_true_eq, true_and]
      omega
    · have hdiv : n / 10 < n := Nat.div_lt_self (by omega) (by omega)
      obtain ⟨hv, hd⟩ := ih (n / 10) hdiv
      rw [formatNat_ge n (by omega), digitsValue_append, hv,
        digitChar_toNat (n % 10) (Nat.mod_lt _ (by omega))]
      refine ⟨by omega, ?_⟩
      simp only [isDigits, List.isEmpty_eq_true, Bool.and_eq_true, Bool.not_eq_true',
        List.all_append, List.all_cons, List.all_nil, Bool.and_true, decide_eq_true_eq] at hd ⊢
      refine ⟨by simp, hd.2, ?_⟩
      rw [digitChar_toNat (n % 10) (Nat.mod_lt _ (by omega))]
      omega

/-- Writing the value of a text of digits gives the text without its leading
zeros. -/
theorem formatNat_digitsValue (ds : Str)
    (hall : ds.all (fun c => decide (48 ≤ c.toNat ∧ c.toNat ≤ 57)) = true) :
    formatNat (digitsValue ds) = canonicalDigits ds := by
  induction ds using List.reverseRecOn with
  | nil => rfl
  | append_singleton init c ih =>
    rw [List.all_append, Bool.and_eq_true] at hall
    have hc : 48 ≤ c.toNat ∧ c.toNat ≤ 57 := by simpa using hall.2
    have ih' := ih hall.1
    rw [digitsValue_append]
    unfold canonicalDigits at ih' ⊢
    rw [List.dropWhile_append]
    by_cases hstrip : init.dropWhile (fun c => decide (c = '0')) = []
    · rw [if_pos hstrip] at ih'
      have hV : digitsValue init = 0 := by
        have := (formatNat_spec (digitsValue init)).1
        rw [ih'] at this
        exact this.symm
      rw [hV, hstrip]
      simp only [List.isEmpty_nil, if_true, Nat.mul_zero, Nat.zero_add]
      rw [formatNat_lt _ (by omega), digitChar_of_digit c hc]
      by_cases hc0 : c = '0'
      · subst hc0; rfl
      · simp [List.dropWhile_cons, hc0]
    · rw [if_neg hstrip] at ih'
      have hVpos : 0 < digitsValue init := by
        rcases Nat.eq_zero_or_pos (digitsValue init) with h0 | h0
        · exfalso
          rw [h0] at ih'
          have hhead := List.head_dropWhile_not (fun c => decide (c = '0')) init hstrip
          have hz : (init.dropWhile (fun c => decide (c = '0'))).head hstrip = '0' := by
            have : ∀ (l : Str) (hl : l ≠ []), ['0'] = l → l.head hl = '0' := by
              intro l hl h; subst h; rfl
            exact this _ hstrip ih'
          rw [hz] at hhead
          simp at hhead
        · exact h0
      have hne : ¬ (init.dropWhile (fun c => decide (c = '0'))).isEmpty = true := by
        simpa using hstrip
      rw [if_neg hne]
      have hnn : init.dropWhile (fun c => decide (c = '0')) ++ [c] ≠ [] := by simp
      rw [if_neg hnn, formatNat_ge _ (by omega)]
      have h1 : (10 * digitsValue init + (c.toNat - 48)) / 10 = digitsValue init := by omega
      have h2 : (10 * digitsValue init + (c.toNat - 48)) % 10 = c.toNat - 48 := by omega
      rw [h1, h2, ih', digitChar_of_digit c hc]

/-- A text of digits has the value 0 exactly when it holds zeros only. -/
theorem digitsValue_eq_zero_iff (ds : Str)
    (hall : ds.all (fun c => decide (48 ≤ c.toNat ∧ c.toNat ≤ 57)) = true) :
    digitsValue ds = 0 ↔ ds.dropWhile (fun c => decide (c = '0')) = [] := by
  have hf := formatNat_digitsValue ds hall
  unfold canonicalDigits at hf
  constructor
  · intro h0
    by_contra hstrip
    rw [if_neg hstrip, h0] at hf
    have hhead := List.head_dropWhile_not (fun c => decide (c = '0')) ds hstrip
    have : ∀ (l : Str) (hl : l ≠ []), ['0'] = l → l.head hl = '0' := by
      intro l hl h; subst h; rfl
    rw [this _ hstrip hf] at hhead
    simp at hhead
  · intro hstrip
    rw [if_pos hstrip] at hf
    have := (formatNat_spec (digitsValue ds)).1
    rw [hf] at this
    exact this.symm

/-- A digit is not white space. -/
theorem isSpace_digit (c : Char) (h : 48 ≤ c.toNat ∧ c.toNat ≤ 57) : isSpace c = false := by
  unfold isSpace
  simp only [Bool.or_eq_false_iff, Bool.and_eq_false_imp, decide_eq_true_eq, beq_eq_false_iff_ne,
    ne_eq, decide_eq_false_iff_not]
  omega

/-- A text that neither starts nor ends with white space is left as it is by
the trimming. -/
theorem trimSpace_of_trimmed (x : Str) (h : TrimmedText x) : trimSpace x = x := by
  obtain ⟨hne, hhead, hlast⟩ := h
  have hdrop : ∀ (l : Str), (∀ c, l.head? = some c → isSpace c = false) →
      l.dropWhile isSpace = l := by
    intro l hl
    cases l with
    | nil => rfl
    | cons a as =>
      have := hl a rfl
      simp [List.dropWhile_cons, this]
  unfold trimSpace
  rw [hdrop x hhead, hdrop x.reverse (by rw [List.head?_reverse]; exact hlast),
    List.reverse_reverse]

/-- The decimal writing of a number is a trimmed text that starts with a digit. -/
theorem formatNat_shape (k : Nat) :
    ∃ c rest, formatNat k = c :: rest ∧ (48 ≤ c.toNat ∧ c.toNat ≤ 57) ∧
      (∀ l, (formatNat k).getLast? = some l → 48 ≤ l.toNat ∧ l.toNat ≤ 57) := by
  have hd := (formatNat_spec k).2
  simp only [isDigits, Bool.and_eq_true, Bool.not_eq_true', List.isEmpty_eq_false,
    List.all_eq_true, decide_eq_true_eq] at hd
  cases hk : formatNat k with
  | nil => exact absurd hk hd.1
  | cons c rest =>
    rw [hk] at hd
    refine ⟨c, rest, rfl, hd.2 c (List.mem_cons_self _ _), ?_⟩
    intro l hl
    exact hd.2 l (List.mem_of_mem_getLast? hl)

/-- The decimal writing of an integer is read back as that integer. -/
theorem integerValue_formatInt (n : Int) : integerValue (formatInt n) = some n := by
  unfold formatInt
  by_cases hneg : n < 0
  · rw [if_pos hneg]
    obtain ⟨hv, hd⟩ := formatNat_spec n.natAbs
    simp only [integerValue, if_true, hd, hv]
    congr 1
    omega
  · rw [if_neg hneg]
    obtain ⟨c, rest, hk, hc, _⟩ := formatNat_shape n.toNat
    obtain ⟨hv, hd⟩ := formatNat_spec n.toNat
    rw [hk] at hv hd
    rw [hk]
    have hm : ¬ c = '-' := by
      intro h; rw [h] at hc; revert hc; decide
    have hp : ¬ c = '+' := by
      intro h; rw [h] at hc; revert hc; decide
    simp only [integerValue, hm, hp, if_false, hd, if_true, hv]
    congr 1
    omega

/-- The decimal writing of an integer neither starts nor ends with white space. -/
theorem formatInt_trimmed (n : Int) : TrimmedText (formatInt n) := by
  unfold formatInt
  obtain ⟨c, rest, hk, hc, hlast⟩ := formatNat_shape (if n < 0 then n.natAbs else n.toNat)
  by_cases hneg : n < 0
  · rw [if_pos hneg] at hk hlast ⊢
    refine ⟨by simp, ?_, ?_⟩
    · intro a ha
      simp only [List.head?_cons, Option.some.injEq] at ha
      rw [← ha]; decide
    · intro a ha
      rw [hk] at ha hlast
      rw [List.getLast?_cons_cons] at ha
      exact isSpace_digit a (hlast a ha)
  · rw [if_neg hneg] at hk hlast ⊢
    refine ⟨by rw [hk]; simp, ?_, ?_⟩
    · intro a ha
      rw [hk] at ha
      simp only [List.head?_cons, Option.some.injEq] at ha
      rw [← ha]
      exact isSpace_digit c hc
    · intro a ha
      exact isSpace_digit a (hlast a ha)

/-- The decimal writing of the value of an integer text is its normal form. -/
theorem formatInt_integerValue (t : Str) (n : Int) (hne : trimSpace t = t)
    (h : integerValue t = some n) : formatInt n = normalize t := by
  have hdig : ∀ ds : Str, isDigits ds = true →
      ds.all (fun c => decide (48 ≤ c.toNat ∧ c.toNat ≤ 57)) = true := by
    intro ds hd
    simp only [isDigits, Bool.and_eq_true] at hd
    exact hd.2
  unfold normalize
  rw [hne]
  cases t with
  | nil => simp [integerValue] at h
  | cons c rest =>
    simp only [integerValue] at h
    by_cases hm : c = '-'
    · subst hm
      simp only [if_true] at h
      by_cases hd : isDigits rest = true
      · rw [if_pos hd] at h
        simp only [Option.some.injEq] at h
        have hf := formatNat_digitsValue rest (hdig rest hd)
        have hz := digitsValue_eq_zero_iff rest (hdig rest hd)
        simp only [List.head?_cons, true_or, if_true, List.tail_cons, decide_True]
        unfold canonicalDigits at hf
        unfold formatInt
        by_cases hv : digitsValue rest = 0
        · have hstrip := hz.mp hv
          rw [if_pos hstrip]
          rw [← h, hv]
          rfl
        · have hstrip : ¬ rest.dropWhile (fun c => decide (c = '0')) = [] :=
            fun hs => hv (hz.mpr hs)
          rw [if_neg hstrip] at hf ⊢
          rw [if_pos (by omega), ← hf]
          congr 2
          omega
      · rw [if_neg hd] at h; cases h
    · by_cases hp : c = '+'
      · subst hp
        simp only [hm, if_false, if_true] at h
        by_cases hd : isDigits rest = true
        · rw [if_pos hd] at h
          simp only [Option.some.injEq] at h
          have hf := formatNat_digitsValue rest (hdig rest hd)
          simp only [List.head?_cons, Option.some.injEq, hm, false_or, if_true,
            List.tail_cons, decide_False, Bool.false_eq_true, if_false]
          unfold canonicalDigits at hf
          unfold formatInt
          rw [if_neg (by omega), ← h, Int.toNat_ofNat, hf]
        · rw [if_neg hd] at h; cases h
      · simp only [hm, hp, if_false] at h
        by_cases hd : isDigits (c :: rest) = true
        · rw [if_pos hd] at h
          simp only [Option.some.injEq] at h
          have hf := formatNat_digitsValue (c :: rest) (hdig _ hd)
          have hm' : ¬ '-' = c := fun e => hm e.symm
          have hp' : ¬ '+' = c := fun e => hp e.symm
          simp only [List.head?_cons, Option.some.injEq, hm, hp, or_self, if_false,
            decide_False, Bool.false_eq_true]
          unfold canonicalDigits at hf
          unfold formatInt
          rw [if_neg (by omega), ← h, Int.toNat_ofNat, hf]
        · rw [if_neg hd] at h; cases h

/-- Trimming a trimmed text changes nothing. -/
theorem trimSpace_idem (s : Str) : trimSpace (trimSpace s) = trimSpace s := by
  by_cases h : trimSpace s = []
  · rw [h]; rfl
  · exact trimSpace_of_trimmed _ (trimSpace_trimmed s h)

/-- The normal form depends on the trimmed text only. -/
theorem normalize_trimSpace (s : Str) : normalize (trimSpace s) = normalize s := by
  unfold normalize
  rw [trimSpace_idem]

/-- C15: for every well-formed base-10 integer string `s` within the machine
integer range (an optional sign followed by decimal digits, possibly between
white space; `n` is its value), `convertValueByType(s, "int")` succeeds with
`n` and the decimal writing of `n` is `normalize(s)`; conversely for every
integer `n` of the machine range `convertValueByType(format(n), "int")`
returns `n`; and a trimmed string that is not empty and not such an integer
is an error. -/
theorem convert_int_roundtrip (parseFloat : Str → Option Nat) :
    (∀ (s : Str) (n : Int), machineInteger (trimSpace s) = some n →
      convertValueByType parseFloat s "int".toList = .ok (.int n) ∧
      formatInt n = normalize s) ∧
    (∀ n : Int, -2 ^ 63 ≤ n → n < 2 ^ 63 →
      convertValueByType parseFloat (formatInt n) "int".toList = .ok (.int n)) ∧
    (∀ s : Str, trimSpace s ≠ [] → machineInteger (trimSpace s) = none →
      convertValueByType parseFloat s "int".toList = .error .atoiError) := by
  have hconv : ∀ s : Str, trimSpace s ≠ [] →
      convertValueByType parseFloat s "int".toList =
        match machineInteger (trimSpace s) with
        | some n => .ok (.int n)
        | none => .error .atoiError := by
    intro s hne
    unfold convertValueByType
    rw [if_neg (by decide), if_pos rfl]
    simp only [hne, if_false, atoi_eq_machineInteger]
  refine ⟨fun s n h => ?_, fun n hlo hhi => ?_, fun s hne h => ?_⟩
  · have hne : trimSpace s ≠ [] := by
      intro h0
      rw [h0] at h
      cases h
    refine ⟨by rw [hconv s hne, h], ?_⟩
    have hiv : integerValue (trimSpace s) = some n := by
      unfold machineInteger at h
      cases hi : integerValue (trimSpace s) with
      | none => rw [hi] at h; cases h
      | some m =>
        rw [hi] at h
        simp only at h
        split at h
        · simp only [Option.some.injEq] at h; rw [h]
        · cases h
    rw [formatInt_integerValue (trimSpace s) n (trimSpace_idem s) hiv, normalize_trimSpace]
  · have htrim := trimSpace_of_trimmed _ (formatInt_trimmed n)
    have hne : trimSpace (formatInt n) ≠ [] := by
      rw [htrim]; exact (formatInt_trimmed n).1
    rw [hconv _ hne, htrim]
    have hr : inIntRange n = true := by
      simp only [inIntRange, decide_eq_true_eq]
      exact ⟨hlo, hhi⟩
    simp [machineInteger, integerValue_formatInt, hr]
  · rw [hconv s hne, h]

/-- C15, at concrete inputs: the text `-007` between spaces converts to -7,
whose decimal writing `-7` is the normal form of the text; writing the least
machine integer and converting it gives it back; `4.5` is an error. -/
theorem convert_int_roundtrip_witness :
    (convertValueByType (fun _ => none) " -007 ".toList "int".toList = .ok (.int (-7)) ∧
      formatInt (-7) = normalize " -007 ".toList) ∧
    convertValueByType (fun _ => none) (formatInt (-9223372036854775808)) "int".toList =
      .ok (.int (-9223372036854775808)) ∧
    convertValueByType (fun _ => none) "4.5".toList "int".toList = .error .atoiError :=
  ⟨(convert_int_roundtrip (fun _ => none)).1 " -007 ".toList (-7) (by decide),
    (convert_int_roundtrip (fun _ => none)).2.1 (-9223372036854775808) (by decide) (by decide),
    (convert_int_roundtrip (fun _ => none)).2.2 "4.5".toList (by decide) (by decide)⟩

/-- C16, at a concrete input: a row read as the single field
`a<tab>b<tab>12<tab>d<tab>e` is split again and gives the array of `e` and 12;
a row of three fields gives an error. -/
theorem genParams_legacy_witness :
    genParams sortMappings (fun _ => none) "object".toList []
        [['a', Char.ofNat 9, 'b', Char.ofNat 9, '1', '2', Char.ofNat 9, 'd', Char.ofNat 9, 'e']] =
      .ok (.array [.str "e".toList, .int 12]) ∧
    genParams sortMappings (fun _ => none) "object".toList []
        ["a".toList, "b".toList, "12".toList] = .error .rowTooShort :=
  ⟨((genParams_legacy sortMappings (fun _ => none) "object".toList
      [['a', Char.ofNat 9, 'b', Char.ofNat 9, '1', '2', Char.ofNat 9, 'd', Char.ofNat 9,
        'e']]).2.2 (by decide)),
    ((genParams_legacy sortMappings (fun _ => none) "object".toList
      ["a".toList, "b".toList, "12".toList]).2.1 (by decide))⟩

/-! ## Claims on the input validation and the producer loop -/

/-- What `validateInputs` checks: the URL and the CSV path are not blank and
the three numeric fields are accepted by `strconv.Atoi`. Neither the sign of
the numbers nor the endpoint list is examined. -/
theorem validateInputs_eq_none (h : Entries) :
    validateInputs h = none ↔
      trimSpace h.urlEntry ≠ [] ∧ trimSpace h.csvPathEntry ≠ [] ∧ atoi h.qpsEntry ≠ none ∧
        atoi h.workersEntry ≠ none ∧ atoi h.retriesEntry ≠ none := by
  unfold validateInputs
  by_cases h1 : trimSpace h.urlEntry = []
  · simp [h1]
  · by_cases h2 : trimSpace h.csvPathEntry = []
    · simp [h1, h2]
    · by_cases h3 : atoi h.qpsEntry = none
      · simp [h1, h2, h3]
      · by_cases h4 : atoi h.workersEntry = none
        · simp [h1, h2, h3, h4]
        · by_cases h5 : atoi h.retriesEntry = none <;> simp [h1, h2, h3, h4, h5]

/-- C17 (evaluation at the failing input): with the fields QPS `0`, workers
`0`, retries `-1` and an empty endpoint text, `validateInputs` returns no
error and the run starts with `qps = 0`, `workers = 0`, `maxRetries = -1` and
the endpoint list made of one empty address; the division `time.Second /
time.Duration(qps)` of the started run then panics. -/
theorem validateInputs_accepts_zero :
    validateInputs ⟨"http://host/api".toList, "rows.csv".toList, "0".toList, "0".toList,
        "-1".toList, []⟩ = none ∧
    startExecution ⟨"http://host/api".toList, "rows.csv".toList, "0".toList, "0".toList,
        "-1".toList, []⟩ = some ⟨0, 0, -1, [[]]⟩ ∧
    tickerInterval 0 = none := by
  refine ⟨by decide, by decide, by decide⟩

/-- A producer that has returned takes no further step: only the cancellation
of the context can still happen, and it changes nothing else. -/
theorem producerRun_returned (gen : List Str → Option Str) (allRows : List (List Str))
    (evs : List ProducerEvent) :
    ∀ (s s' : ProducerState),
      s.phase = .returnedNoData ∨ s.phase = .returnedCancelled ∨
        s.phase = .returnedCompleted →
      producerRun gen allRows s evs = some s' →
      s'.phase = s.phase ∧ s'.i = s.i ∧ s'.enqueued = s.enqueued ∧ s'.mapped = s.mapped ∧
      s'.successCount = s.successCount ∧ s'.errorCount = s.errorCount ∧
      s'.processedCount = s.processedCount ∧ s'.snapshots = s.snapshots ∧
      s'.report = s.report ∧ ∀ e ∈ evs, e = .cancel := by
  induction evs with
  | nil =>
    intro s s' _ hrun
    simp only [producerRun, Option.some.injEq] at hrun
    subst hrun
    simp
  | cons ev evs ih =>
    intro s s' hphase hrun
    simp only [producerRun] at hrun
    cases ev with
    | cancel =>
      simp only [producerStep] at hrun
      obtain ⟨h1, h2, h3, h4, h5, h6, h7, h8, h9, h10⟩ :=
        ih { s with ctxDone := true } s' hphase hrun
      exact ⟨h1, h2, h3, h4, h5, h6, h7, h8, h9, by simpa using h10⟩
    | advance =>
      rcases hphase with h | h | h <;> simp [producerStep, h] at hrun
    | send =>
      rcases hphase with h | h | h <;> simp [producerStep, h] at hrun
    | stop =>
      rcases hphase with h | h | h <;> simp [producerStep, h] at hrun

/-- C18: for a CSV of a header row only, and for one with no row at all,
`executeRequests` has returned as soon as the rows are read, with zero work:
there is no data row; and in every state of the run no row was handed to the
parameter mapper, no task was enqueued, no row was counted as processed or as
an error, and no progress snapshot (in particular none with total 0) was
emitted; no step of the producer remains. -/
theorem producer_no_data (gen : List Str → Option Str) (allRows : List (List Str))
    (hrows : allRows.length ≤ 1) :
    allRows.tail.length = 0 ∧
    (producerInit allRows).phase = .returnedNoData ∧
    ∀ (evs : List ProducerEvent) (s : ProducerState),
      producerRun gen allRows (producerInit allRows) evs = some s →
      s.phase = .returnedNoData ∧ s.mapped = [] ∧ s.enqueued = [] ∧ s.processedCount = 0 ∧
      s.successCount = 0 ∧ s.errorCount = 0 ∧ s.snapshots = [] ∧ s.report = none ∧
      ∀ e ∈ evs, e = .cancel := by
  have hinit : producerInit allRows =
      ⟨.returnedNoData, 0, 0, 0, 0, 0, [], [], [], none, false⟩ := by
    unfold producerInit totalRows
    rw [if_pos (by omega)]
  refine ⟨by simp; omega, by rw [hinit], ?_⟩
  intro evs s hrun
  obtain ⟨h1, _, h3, h4, h5, h6, h7, h8, h9, h10⟩ :=
    producerRun_returned gen allRows evs (producerInit allRows) s
      (Or.inl (by rw [hinit])) hrun
  rw [hinit] at h1 h3 h4 h5 h6 h7 h8 h9
  exact ⟨h1, h4, h3, h7, h5, h6, h8, h9, h10⟩

/-- C18, at a concrete input: a CSV with its header row only. -/
theorem producer_no_data_witness :
    (producerInit [["id".toList, "name".toList]]).phase = .returnedNoData :=
  (producer_no_data (fun _ => none) [["id".toList, "name".toList]] (by decide)).2.1

@[simp] theorem maybeProgress_phase (total : Int) (s : ProducerState) :
    (maybeProgress total s).phase = s.phase := by
  unfold maybeProgress; split <;> rfl

@[simp] theorem maybeProgress_i (total : Int) (s : ProducerState) :
    (maybeProgress total s).i = s.i := by
  unfold maybeProgress; split <;> rfl

@[simp] theorem maybeProgress_rowIndex (total : Int) (s : ProducerState) :
    (maybeProgress total s).rowIndex = s.rowIndex := by
  unfold maybeProgress; split <;> rfl

@[simp] theorem maybeProgress_successCount (total : Int) (s : ProducerState) :
    (maybeProgress total s).successCount = s.successCount := by
  unfold maybeProgress; split <;> rfl

@[simp] theorem maybeProgress_errorCount (total : Int) (s : ProducerState) :
    (maybeProgress total s).errorCount = s.errorCount := by
  unfold maybeProgress; split <;> rfl

@[simp] theorem maybeProgress_processedCount (total : Int) (s : ProducerState) :
    (maybeProgress total s).processedCount = s.processedCount := by
  unfold maybeProgress; split <;> rfl

@[simp] theorem maybeProgress_enqueued (total : Int) (s : ProducerState) :
    (maybeProgress total s).enqueued = s.enqueued := by
  unfold maybeProgress; split <;> rfl

@[simp] theorem maybeProgress_report (total : Int) (s : ProducerState) :
    (maybeProgress total s).report = s.report := by
  unfold maybeProgress; split <;> rfl

@[simp] theorem maybeProgress_ctxDone (total : Int) (s : ProducerState) :
    (maybeProgress total s).ctxDone = s.ctxDone := by
  unfold maybeProgress; split <;> rfl

/-- The budget of rows that can still be counted after a cancellation never
exceeds ten. -/
theorem overrunBudget_le (s : ProducerState) : overrunBudget s ≤ 10 := by
  unfold overrunBudget
  split <;> omega

/-- Once the context is cancelled, a step of the producer keeps it cancelled,
only appends to the tasks sent, and pays every row it counts and every task
it sends from the budget. -/
theorem producerStep_overrun (gen : List Str → Option Str) (allRows : List (List Str))
    (s s' : ProducerState) (ev : ProducerEvent) (hdone : s.ctxDone = true)
    (hstep : producerStep gen allRows s ev = some s') :
    s'.ctxDone = true ∧ s.enqueued <+: s'.enqueued ∧
    s'.processedCount + overrunBudget s' ≤ s.processedCount + overrunBudget s ∧
    s'.enqueued.length + overrunBudget s' ≤ s.enqueued.length + overrunBudget s := by
  cases ev with
  | cancel =>
    simp only [producerStep, Option.some.injEq] at hstep
    subst hstep
    exact ⟨rfl, List.prefix_refl _, le_refl _, le_refl _⟩
  | advance =>
    simp only [producerStep] at hstep
    split at hstep
    · rename_i hphase
      split at hstep
      · simp only [Option.some.injEq] at hstep
        subst hstep
        simp only [overrunBudget, hphase]
        exact ⟨hdone, List.prefix_refl _, by omega, by omega⟩
      · split at hstep
        · simp only [Option.some.injEq] at hstep
          subst hstep
          simp only [overrunBudget, hphase]
          exact ⟨hdone, List.prefix_refl _, by omega, by omega⟩
        · rename_i hcheck
          simp only [Option.some.injEq] at hstep
          subst hstep
          have hmod : ¬ s.i % 10 = 0 := fun h => hcheck ⟨h, hdone⟩
          simp only [overrunBudget, hphase]
          exact ⟨hdone, List.prefix_refl _, by omega, by omega⟩
    · rename_i hphase
      split at hstep
      · cases hstep
      · split at hstep
        · simp only [Option.some.injEq] at hstep
          subst hstep
          simp only [overrunBudget, hphase]
          exact ⟨hdone, List.prefix_refl _, by omega, by omega⟩
        · split at hstep
          · simp only [hdone, if_true, Option.some.injEq] at hstep
            subst hstep
            simp only [overrunBudget, hphase]
            exact ⟨trivial, List.prefix_refl _, by omega, by omega⟩
          · simp only [Option.some.injEq] at hstep
            subst hstep
            simp only [overrunBudget, hphase]
            exact ⟨hdone, List.prefix_refl _, by omega, by omega⟩
    · cases hstep
  | send =>
    simp only [producerStep] at hstep
    split at hstep
    · rename_i task hphase
      simp only [Option.some.injEq] at hstep
      subst hstep
      simp only [maybeProgress_ctxDone, maybeProgress_enqueued, maybeProgress_processedCount,
        overrunBudget, maybeProgress_phase, maybeProgress_i, hphase, List.length_append,
        List.length_singleton]
      exact ⟨hdone, List.prefix_append _ _, by omega, by omega⟩
    · cases hstep
  | stop =>
    simp only [producerStep] at hstep
    split at hstep
    · rename_i task hphase
      rw [if_pos hdone] at hstep
      simp only [Option.some.injEq] at hstep
      subst hstep
      simp only [overrunBudget, hphase]
      exact ⟨hdone, List.prefix_refl _, by omega, by omega⟩
    · cases hstep

/-- The overrun of a run that starts with the context cancelled. -/
theorem producerRun_overrun (gen : List Str → Option Str) (allRows : List (List Str))
    (evs : List ProducerEvent) :
    ∀ (s s' : ProducerState), s.ctxDone = true → producerRun gen allRows s evs = some s' →
      s.enqueued <+: s'.enqueued ∧
      s'.processedCount + overrunBudget s' ≤ s.processedCount + overrunBudget s ∧
      s'.enqueued.length + overrunBudget s' ≤ s.enqueued.length + overrunBudget s := by
  induction evs with
  | nil =>
    intro s s' _ hrun
    simp only [producerRun, Option.some.injEq] at hrun
    subst hrun
    exact ⟨List.prefix_refl _, le_refl _, le_refl _⟩
  | cons ev evs ih =>
    intro s s' hdone hrun
    simp only [producerRun] at hrun
    cases hstep : producerStep gen allRows s ev with
    | none => rw [hstep] at hrun; cases hrun
    | some s1 =>
      rw [hstep] at hrun
      obtain ⟨h1, h2, h3, h4⟩ := producerStep_overrun gen allRows s s1 ev hdone hstep
      obtain ⟨g2, g3, g4⟩ := ih s1 s' h1 hrun
      exact ⟨h2.trans g2, by omega, by omega⟩

/-- A step of the producer keeps two facts: it has returned on cancellation
only if the context is cancelled, and there is a completion report only once
it has returned after the loop. -/
theorem producerStep_report (gen : List Str → Option Str) (allRows : List (List Str))
    (s s' : ProducerState) (ev : ProducerEvent)
    (hk : (s.phase = .returnedCancelled → s.ctxDone = true) ∧
      (s.phase ≠ .returnedCompleted → s.report = none))
    (hstep : producerStep gen allRows s ev = some s') :
    (s'.phase = .returnedCancelled → s'.ctxDone = true) ∧
      (s'.phase ≠ .returnedCompleted → s'.report = none) := by
  obtain ⟨hk1, hk2⟩ := hk
  cases ev with
  | cancel =>
    simp only [producerStep, Option.some.injEq] at hstep
    subst hstep
    exact ⟨fun _ => rfl, hk2⟩
  | advance =>
    simp only [producerStep] at hstep
    split at hstep
    · rename_i hphase
      have hrep := hk2 (by rw [hphase]; simp)
      split at hstep
      · simp only [Option.some.injEq] at hstep
        subst hstep
        simp
      · split at hstep
        · rename_i hcheck
          simp only [Option.some.injEq] at hstep
          subst hstep
          exact ⟨fun _ => hcheck.2, fun _ => hrep⟩
        · simp only [Option.some.injEq] at hstep
          subst hstep
          exact ⟨by simp, fun _ => hrep⟩
    · rename_i hphase
      have hrep := hk2 (by rw [hphase]; simp)
      split at hstep
      · cases hstep
      · split at hstep
        · simp only [Option.some.injEq] at hstep
          subst hstep
          exact ⟨by simp, fun _ => hrep⟩
        · split at hstep
          · split at hstep
            · rename_i hdone
              simp only [Option.some.injEq] at hstep
              subst hstep
              exact ⟨fun _ => hdone, fun _ => hrep⟩
            · simp only [Option.some.injEq] at hstep
              subst hstep
              simp only [maybeProgress_phase, maybeProgress_report, maybeProgress_ctxDone]
              exact ⟨by simp, fun _ => hrep⟩
          · simp only [Option.some.injEq] at hstep
            subst hstep
            exact ⟨by simp, fun _ => hrep⟩
    · cases hstep
  | send =>
    simp only [producerStep] at hstep
    split at hstep
    · rename_i task hphase
      have hrep := hk2 (by rw [hphase]; simp)
      simp only [Option.some.injEq] at hstep
      subst hstep
      simp only [maybeProgress_phase, maybeProgress_report, maybeProgress_ctxDone]
      exact ⟨by simp, fun _ => hrep⟩
    · cases hstep
  | stop =>
    simp only [producerStep] at hstep
    split at hstep
    · rename_i task hphase
      have hrep := hk2 (by rw [hphase]; simp)
      split at hstep
      · rename_i hdone
        simp only [Option.some.injEq] at hstep
        subst hstep
        exact ⟨fun _ => hdone, fun _ => hrep⟩
      · cases hstep
    · cases hstep

/-- The two facts of `producerStep_report` hold along every run from the start. -/
theorem producerRun_report (gen : List Str → Option Str) (allRows : List (List Str))
    (evs : List ProducerEvent) :
    ∀ (s s' : ProducerState),
      (s.phase = .returnedCancelled → s.ctxDone = true) ∧
        (s.phase ≠ .returnedCompleted → s.report = none) →
      producerRun gen allRows s evs = some s' →
      (s'.phase = .returnedCancelled → s'.ctxDone = true) ∧
        (s'.phase ≠ .returnedCompleted → s'.report = none) := by
  induction evs with
  | nil =>
    intro s s' hk hrun
    simp only [producerRun, Option.some.injEq] at hrun
    subst hrun
    exact hk
  | cons ev evs ih =>
    intro s s' hk hrun
    simp only [producerRun] at hrun
    cases hstep : producerStep gen allRows s ev with
    | none => rw [hstep] at hrun; cases hrun
    | some s1 =>
      rw [hstep] at hrun
      exact ih s1 s' (producerStep_report gen allRows s s1 ev hk hstep) hrun

/-- C19 as stated fails. On a file of a header and one data row, cancel the
run while the producer is in the iteration of the data row (after the
periodic check, which is made at every tenth row only). If the mapping of the
row fails, the row is still counted as an error before the cancellation is
seen; if it succeeds, the `select` may still take the send and the task is
enqueued and counted. In both cases the state after the cancellation differs
from the state at which it occurred, and the producer that returns on
cancellation makes no completion report. -/
theorem producer_counts_after_cancel :
    (producerRun (fun _ => none) [["h".toList], ["r".toList]]
        (producerInit [["h".toList], ["r".toList]]) [.advance, .advance, .advance]).map
        (fun s => (s.phase, s.processedCount, s.errorCount, s.enqueued)) =
      some (.mapping, 0, 0, []) ∧
    (producerRun (fun _ => none) [["h".toList], ["r".toList]]
        (producerInit [["h".toList], ["r".toList]])
        [.advance, .advance, .advance, .cancel, .advance]).map
        (fun s => (s.phase, s.processedCount, s.errorCount, s.report)) =
      some (.returnedCancelled, 1, 1, none) ∧
    (producerRun (fun _ => some "[]".toList) [["h".toList], ["r".toList]]
        (producerInit [["h".toList], ["r".toList]])
        [.advance, .advance, .advance, .advance]).map
        (fun s => (s.processedCount, s.successCount, s.enqueued)) =
      some (0, 0, []) ∧
    (producerRun (fun _ => some "[]".toList) [["h".toList], ["r".toList]]
        (producerInit [["h".toList], ["r".toList]])
        [.advance, .advance, .advance, .advance, .cancel, .send]).map
        (fun s => (s.processedCount, s.successCount, s.enqueued)) =
      some (1, 1, [⟨"[]".toList, 2⟩]) := by
  refine ⟨by decide, by decide, by decide, by decide⟩

/-- C19, amended: in the producer step relation, once the producer has seen
the cancellation (at the check made every tenth row, at the check that
follows a mapping failure, or at the `select` of the enqueue) it has
returned: every state reachable afterwards has the same enqueued-task
sequence and the same processed, success and error counts; and it returns
this way only when the signal has been raised. Between the raising of the
signal and that moment the producer only appends to the enqueued tasks, and
it counts at most ten further rows and enqueues at most ten further tasks. -/
theorem producer_cancel (gen : List Str → Option Str) (allRows : List (List Str)) :
    (∀ (s s' : ProducerState) (evs : List ProducerEvent), s.phase = .returnedCancelled →
      producerRun gen allRows s evs = some s' →
      s'.phase = .returnedCancelled ∧ s'.enqueued = s.enqueued ∧
      s'.processedCount = s.processedCount ∧ s'.successCount = s.successCount ∧
      s'.errorCount = s.errorCount) ∧
    (∀ (evs : List ProducerEvent) (s : ProducerState),
      producerRun gen allRows (producerInit allRows) evs = some s →
      s.phase = .returnedCancelled → s.ctxDone = true) ∧
    (∀ (s s' : ProducerState) (evs : List ProducerEvent), s.ctxDone = true →
      producerRun gen allRows s evs = some s' →
      s.enqueued <+: s'.enqueued ∧ s'.processedCount ≤ s.processedCount + 10 ∧
      s'.enqueued.length ≤ s.enqueued.length + 10) := by
  refine ⟨?_, ?_, ?_⟩
  · intro s s' evs hphase hrun
    obtain ⟨h1, _, h3, _, h5, h6, h7, _, _, _⟩ :=
      producerRun_returned gen allRows evs s s' (Or.inr (Or.inl hphase)) hrun
    exact ⟨h1.trans hphase, h3, h7, h5, h6⟩
  · intro evs s hrun hphase
    have hinit : ((producerInit allRows).phase = .returnedCancelled →
        (producerInit allRows).ctxDone = true) ∧
        ((producerInit allRows).phase ≠ .returnedCompleted →
          (producerInit allRows).report = none) := by
      unfold producerInit
      split <;> simp
    exact (producerRun_report gen allRows evs _ s hinit hrun).1 hphase
  · intro s s' evs hdone hrun
    obtain ⟨h1, h2, h3⟩ := producerRun_overrun gen allRows evs s s' hdone hrun
    have hb := overrunBudget_le s
    exact ⟨h1, by omega, by omega⟩

/-- C19 amended, at a concrete run: on a header and one data row whose
mapping fails, with the cancellation raised during that row, the producer
returns on cancellation, and a later event leaves the enqueued tasks and the
counts as they are. -/
theorem producer_cancel_witness :
    producerRun (fun _ => none) [["h".toList], ["r".toList]]
        (producerInit [["h".toList], ["r".toList]])
        [.advance, .advance, .advance, .cancel, .advance] =
      some ⟨.returnedCancelled, 1, 2, 0, 1, 1, [["r".toList]], [], [], none, true⟩ ∧
    (⟨.returnedCancelled, 1, 2, 0, 1, 1, [["r".toList]], [], [], none, true⟩ :
        ProducerState).ctxDone = true ∧
    ((⟨.returnedCancelled, 1, 2, 0, 1, 1, [["r".toList]], [], [], none, true⟩ :
        ProducerState).phase = .returnedCancelled ∧
      (⟨.returnedCancelled, 1, 2, 0, 1, 1, [["r".toList]], [], [], none, true⟩ :
        ProducerState).enqueued = [] ∧
      (⟨.returnedCancelled, 1, 2, 0, 1, 1, [["r".toList]], [], [], none, true⟩ :
        ProducerState).processedCount = 1 ∧
      (⟨.returnedCancelled, 1, 2, 0, 1, 1, [["r".toList]], [], [], none, true⟩ :
        ProducerState).successCount = 0 ∧
      (⟨.returnedCancelled, 1, 2, 0, 1, 1, [["r".toList]], [], [], none, true⟩ :
        ProducerState).errorCount = 1) :=
  ⟨by decide,
    (producer_cancel (fun _ => none) [["h".toList], ["r".toList]]).2.1
      [.advance, .advance, .advance, .cancel, .advance]
      ⟨.returnedCancelled, 1, 2, 0, 1, 1, [["r".toList]], [], [], none, true⟩
      (by decide) rfl,
    (producer_cancel (fun _ => none) [["h".toList], ["r".toList]]).1
      ⟨.returnedCancelled, 1, 2, 0, 1, 1, [["r".toList]], [], [], none, true⟩
      ⟨.returnedCancelled, 1, 2, 0, 1, 1, [["r".toList]], [], [], none, true⟩
      [.cancel] rfl (by decide)⟩

/-- The tasks of two stretches of rows, one after the other. -/
theorem tasksFrom_append (gen : List Str → Option Str) (a b : List (List Str)) :
    ∀ k : Nat, tasksFrom gen k (a ++ b) = tasksFrom gen k a ++ tasksFrom gen (k + a.length) b := by
  induction a with
  | nil => intro k; simp [tasksFrom]
  | cons row rest ih =>
    intro k
    have h : k + 1 + rest.length = k + (rest.length + 1) := by omega
    simp only [List.cons_append, tasksFrom, List.append_eq, ih (k + 1), List.append_assoc,
      List.length_cons, h]

/-- The errors of two stretches of rows, one after the other. -/
theorem errorsFrom_append (gen : List Str → Option Str) (a b : List (List Str)) :
    ∀ k : Nat, errorsFrom gen k (a ++ b) = errorsFrom gen k a + errorsFrom gen (k + a.length) b := by
  induction a with
  | nil => intro k; simp [errorsFrom]
  | cons row rest ih =>
    intro k
    have h : k + 1 + rest.length = k + (rest.length + 1) := by omega
    simp only [List.cons_append, errorsFrom, List.append_eq, ih (k + 1), List.length_cons, h]
    omega

/-- The rows before index `i + 1` are the rows before `i` and the row at `i`. -/
theorem take_succ_of_get (allRows : List (List Str)) (i : Nat) (row : List Str)
    (hget : allRows.get? i = some row) : allRows.take (i + 1) = allRows.take i ++ [row] := by
  rw [List.take_succ]
  simp only [List.get?_eq_getElem?] at hget
  rw [hget]
  rfl

/-- An index with a row is inside the file. -/
theorem lt_of_get (allRows : List (List Str)) (i : Nat) (row : List Str)
    (hget : allRows.get? i = some row) : i < allRows.length := by
  by_contra h
  rw [List.get?_eq_none.mpr (by omega)] at hget
  cases hget

/-- The tasks of the rows before index `i + 1`. -/
theorem tasksFrom_take_succ (gen : List Str → Option Str) (allRows : List (List Str))
    (i : Nat) (row : List Str) (hget : allRows.get? i = some row) :
    tasksFrom gen 0 (allRows.take (i + 1)) =
      tasksFrom gen 0 (allRows.take i) ++
        (if i = 0 then []
          else match gen row with
            | some paramsJSON => [⟨paramsJSON, (i : Int) + 1⟩]
            | none => []) := by
  have hlt := lt_of_get allRows i row hget
  rw [take_succ_of_get allRows i row hget, tasksFrom_append, List.length_take,
    Nat.min_eq_left (by omega)]
  simp [tasksFrom]

/-- The errors of the rows before index `i + 1`. -/
theorem errorsFrom_take_succ (gen : List Str → Option Str) (allRows : List (List Str))
    (i : Nat) (row : List Str) (hget : allRows.get? i = some row) :
    errorsFrom gen 0 (allRows.take (i + 1)) =
      errorsFrom gen 0 (allRows.take i) +
        (if i = 0 then 0
          else match gen row with
            | some _ => 0
            | none => 1) := by
  have hlt := lt_of_get allRows i row hget
  rw [take_succ_of_get allRows i row hget, errorsFrom_append, List.length_take,
    Nat.min_eq_left (by omega)]
  simp [errorsFrom]

/-- The snapshots after a progress update are the earlier ones and, at most,
one of the current counts. -/
theorem maybeProgress_snapshots (total : Int) (s : ProducerState) (snap : ProgressSnapshot)
    (hmem : snap ∈ (maybeProgress total s).snapshots) :
    snap ∈ s.snapshots ∨ snap = ⟨s.processedCount, total, s.successCount, s.errorCount⟩ := by
  unfold maybeProgress at hmem
  split at hmem
  · simp only [List.mem_append, List.mem_singleton] at hmem
    exact hmem
  · exact Or.inl hmem

/-- The invariant of the producer survives a progress update whose snapshot
is consistent. -/
theorem producerInv_maybeProgress (gen : List Str → Option Str) (allRows : List (List Str))
    (s : ProducerState) (hinv : producerInv gen allRows s)
    (hsnap : snapshotOk gen allRows
      ⟨s.processedCount, totalRows allRows, s.successCount, s.errorCount⟩) :
    producerInv gen allRows (maybeProgress (totalRows allRows) s) := by
  obtain ⟨h1, h2, h3, h4, h5, h6, h7, h8, h9⟩ := hinv
  unfold producerInv
  simp only [maybeProgress_phase, maybeProgress_i, maybeProgress_rowIndex,
    maybeProgress_successCount, maybeProgress_errorCount, maybeProgress_processedCount,
    maybeProgress_enqueued, maybeProgress_report, maybeProgress_ctxDone]
  refine ⟨h1, h2, h3, h4, h5, h6, h7, ?_, h9⟩
  intro snap hmem
  rcases maybeProgress_snapshots _ s snap hmem with h | h
  · exact h8 snap h
  · rw [h]
    exact hsnap

/-- A step other than a cancellation keeps the invariant of the producer. -/
theorem producerStep_inv (gen : List Str → Option Str) (allRows : List (List Str))
    (hlen : 1 ≤ allRows.length) (s s' : ProducerState) (ev : ProducerEvent)
    (hinv : producerInv gen allRows s) (hev : ev ≠ .cancel)
    (hstep : producerStep gen allRows s ev = some s') : producerInv gen allRows s' := by
  obtain ⟨h1, h2, h3, h4, h5, h6, h7, h8, h9⟩ := hinv
  cases ev with
  | cancel => exact absurd rfl hev
  | advance =>
    simp only [producerStep] at hstep
    split at hstep
    · rename_i hphase
      rw [hphase] at h9
      simp only at h9
      obtain ⟨hrow, hrep⟩ := h9
      split at hstep
      · rename_i hget
        simp only [Option.some.injEq] at hstep
        subst hstep
        have hi : s.i = allRows.length := by
          have := List.get?_eq_none.mp hget
          omega
        refine ⟨h1, h2, h3, h4, h5, h6, h7, ?_, ?_⟩
        · intro snap hmem
          simp only [List.mem_append, List.mem_singleton] at hmem
          rcases hmem with h | h
          · exact h8 snap h
          · rw [h]
            have ht : (totalRows allRows).toNat + 1 = s.i := by
              unfold totalRows
              omega
            refine ⟨rfl, ?_, le_refl _, ?_⟩
            · show totalRows allRows = s.successCount + s.errorCount
              unfold totalRows
              omega
            · show s.successCount = _
              rw [ht, ← h3]
              exact h5
        · exact ⟨hi, rfl⟩
      · rename_i row hget
        split at hstep
        · rename_i hcheck
          rw [h1] at hcheck
          exact absurd hcheck.2 (by simp)
        · simp only [Option.some.injEq] at hstep
          subst hstep
          exact ⟨h1, h2, h3, h4, h5, h6, h7, h8, hrow, lt_of_get allRows s.i row hget, hrep⟩
    · rename_i hphase
      rw [hphase] at h9
      simp only at h9
      obtain ⟨hrow, hlt, hrep⟩ := h9
      split at hstep
      · cases hstep
      · rename_i row hget
        split at hstep
        · rename_i hhead
          simp only [Option.some.injEq] at hstep
          subst hstep
          have hi : s.i = 0 := by omega
          refine ⟨h1, by show s.i + 1 ≤ _; omega, ?_, ?_, h5, h6, ?_, h8, ?_⟩
          · show s.enqueued = tasksFrom gen 0 (allRows.take (s.i + 1))
            rw [tasksFrom_take_succ gen allRows s.i row hget, if_pos hi, List.append_nil]
            exact h3
          · show s.errorCount = errorsFrom gen 0 (allRows.take (s.i + 1))
            rw [errorsFrom_take_succ gen allRows s.i row hget, if_pos hi, add_zero]
            exact h4
          · show s.processedCount = ((s.i + 1 - 1 : Nat) : Int)
            omega
          · show s.rowIndex + 1 = ((s.i + 1 : Nat) : Int) ∧ s.report = none
            exact ⟨by omega, hrep⟩
        · rename_i hhead
          have hi : s.i ≠ 0 := by omega
          split at hstep
          · rename_i hgen
            rw [if_neg (by rw [h1]; simp)] at hstep
            simp only [Option.some.injEq] at hstep
            subst hstep
            have htasks : s.enqueued = tasksFrom gen 0 (allRows.take (s.i + 1)) := by
              rw [tasksFrom_take_succ gen allRows s.i row hget, if_neg hi, hgen]
              simpa using h3
            apply producerInv_maybeProgress
            · refine ⟨h1, by show s.i + 1 ≤ _; omega, htasks, ?_, h5, ?_, ?_, h8, ?_⟩
              · show s.errorCount + 1 = errorsFrom gen 0 (allRows.take (s.i + 1))
                rw [errorsFrom_take_succ gen allRows s.i row hget, if_neg hi, hgen]
                simpa using h4
              · show s.processedCount + 1 = s.successCount + (s.errorCount + 1)
                omega
              · show s.processedCount + 1 = ((s.i + 1 - 1 : Nat) : Int)
                omega
              · show s.rowIndex + 1 = ((s.i + 1 : Nat) : Int) ∧ s.report = none
                exact ⟨by omega, hrep⟩
            · have ht : (s.processedCount + 1).toNat + 1 = s.i + 1 := by omega
              refine ⟨rfl, ?_, ?_, ?_⟩
              · show s.processedCount + 1 = s.successCount + (s.errorCount + 1)
                omega
              · show s.processedCount + 1 ≤ totalRows allRows
                unfold totalRows
                omega
              · show s.successCount = _
                rw [ht, ← htasks]
                exact h5
          · rename_i paramsJSON hgen
            simp only [Option.some.injEq] at hstep
            subst hstep
            have hr : s.rowIndex + 1 = (s.i : Int) + 1 := by omega
            have hi1 : 1 ≤ s.i := by omega
            exact ⟨h1, h2, h3, h4, h5, h6, h7, h8, hr, hi1, hrep, row, hget, hgen, hr⟩
    · cases hstep
  | send =>
    simp only [producerStep] at hstep
    split at hstep
    · rename_i task hphase
      rw [hphase] at h9
      simp only at h9
      obtain ⟨hrow, hi, hrep, row, hget, hgen, htask⟩ := h9
      simp only [Option.some.injEq] at hstep
      subst hstep
      have hlt := lt_of_get allRows s.i row hget
      have htasks : s.enqueued ++ [task] = tasksFrom gen 0 (allRows.take (s.i + 1)) := by
        rw [tasksFrom_take_succ gen allRows s.i row hget, if_neg (by omega), hgen, ← h3]
        cases task
        simp only at htask
        simp [htask]
      apply producerInv_maybeProgress
      · refine ⟨h1, by show s.i + 1 ≤ _; omega, htasks, ?_, ?_, ?_, ?_, h8, ?_⟩
        · show s.errorCount = errorsFrom gen 0 (allRows.take (s.i + 1))
          rw [errorsFrom_take_succ gen allRows s.i row hget, if_neg (by omega), hgen]
          simpa using h4
        · show s.successCount + 1 = ((s.enqueued ++ [task]).length : Int)
          rw [List.length_append, List.length_singleton]
          push_cast
          omega
        · show s.processedCount + 1 = s.successCount + 1 + s.errorCount
          omega
        · show s.processedCount + 1 = ((s.i + 1 - 1 : Nat) : Int)
          omega
        · show s.rowIndex = ((s.i + 1 : Nat) : Int) ∧ s.report = none
          exact ⟨by omega, hrep⟩
      · have ht : (s.processedCount + 1).toNat + 1 = s.i + 1 := by omega
        refine ⟨rfl, ?_, ?_, ?_⟩
        · show s.processedCount + 1 = s.successCount + 1 + s.errorCount
          omega
        · show s.processedCount + 1 ≤ totalRows allRows
          unfold totalRows
          omega
        · show s.successCount + 1 = _
          rw [ht, ← htasks, List.length_append, List.length_singleton]
          push_cast
          omega
    · cases hstep
  | stop =>
    simp only [producerStep] at hstep
    split at hstep
    · rw [if_neg (by rw [h1]; simp)] at hstep
      cases hstep
    · cases hstep

/-- A run without cancellation keeps the invariant of the producer. -/
theorem producerRun_inv (gen : List Str → Option Str) (allRows : List (List Str))
    (hlen : 1 ≤ allRows.length) (evs : List ProducerEvent) :
    ∀ (s s' : ProducerState), producerInv gen allRows s → (∀ e ∈ evs, e ≠ .cancel) →
      producerRun gen allRows s evs = some s' → producerInv gen allRows s' := by
  induction evs with
  | nil =>
    intro s s' hinv _ hrun
    simp only [producerRun, Option.some.injEq] at hrun
    subst hrun
    exact hinv
  | cons ev evs ih =>
    intro s s' hinv hev hrun
    simp only [producerRun] at hrun
    cases hstep : producerStep gen allRows s ev with
    | none => rw [hstep] at hrun; cases hrun
    | some s1 =>
      rw [hstep] at hrun
      exact ih s1 s'
        (producerStep_inv gen allRows hlen s s1 ev hinv (hev ev (List.mem_cons_self _ _)) hstep)
        (fun e he => hev e (List.mem_cons_of_mem _ he)) hrun

/-- A run of two stretches of events is the run of the second from the state
the first one reaches. -/
theorem producerRun_append (gen : List Str → Option Str) (allRows : List (List Str))
    (a b : List ProducerEvent) :
    ∀ (s s1 : ProducerState), producerRun gen allRows s a = some s1 →
      producerRun gen allRows s (a ++ b) = producerRun gen allRows s1 b := by
  induction a with
  | nil =>
    intro s s1 hrun
    simp only [producerRun, Option.some.injEq] at hrun
    subst hrun
    rfl
  | cons ev evs ih =>
    intro s s1 hrun
    rw [List.cons_append]
    simp only [producerRun] at hrun ⊢
    cases hstep : producerStep gen allRows s ev with
    | none => rw [hstep] at hrun; cases hrun
    | some s2 =>
      rw [hstep] at hrun
      exact ih s2 s1 hrun

/-- The steps of one row: from the head of the loop, without cancellation, the
producer comes to the head of the next iteration. -/
theorem producerRun_row (gen : List Str → Option Str) (allRows : List (List Str))
    (s : ProducerState) (row : List Str) (hphase : s.phase = .loopHead)
    (hdone : s.ctxDone = false) (hrow : s.rowIndex = (s.i : Int))
    (hget : allRows.get? s.i = some row) :
    ∃ s1, producerRun gen allRows s
        (if s.i = 0 then [.advance, .advance]
          else match gen row with
            | some _ => [.advance, .advance, .send]
            | none => [.advance, .advance]) = some s1 ∧
      s1.phase = .loopHead ∧ s1.ctxDone = false ∧ s1.rowIndex = (s1.i : Int) ∧
      s1.i = s.i + 1 := by
  have hget2 : allRows[s.i]? = some row := by simpa using hget
  by_cases hi : s.i = 0
  · rw [if_pos hi]
    have hhead : s.rowIndex + 1 ≤ 1 := by omega
    refine ⟨{ s with phase := .loopHead, i := s.i + 1, rowIndex := s.rowIndex + 1 }, ?_,
      rfl, hdone, ?_, rfl⟩
    · simp [producerRun, producerStep, hphase, hget2, hdone, hhead]
    · show s.rowIndex + 1 = ((s.i + 1 : Nat) : Int)
      omega
  · rw [if_neg hi]
    have hhead : ¬ s.rowIndex + 1 ≤ 1 := by omega
    cases hgen : gen row with
    | none =>
      refine ⟨maybeProgress (totalRows allRows)
        { s with
          phase := .loopHead
          i := s.i + 1
          rowIndex := s.rowIndex + 1
          mapped := s.mapped ++ [row]
          errorCount := s.errorCount + 1
          processedCount := s.processedCount + 1 }, ?_, ?_, ?_, ?_, ?_⟩
      · simp [producerRun, producerStep, hphase, hget2, hdone, hhead, hgen]
      · simp
      · simpa using hdone
      · simp only [maybeProgress_rowIndex, maybeProgress_i]
        show s.rowIndex + 1 = ((s.i + 1 : Nat) : Int)
        omega
      · simp
    | some paramsJSON =>
      refine ⟨maybeProgress (totalRows allRows)
        { s with
          phase := .loopHead
          i := s.i + 1
          rowIndex := s.rowIndex + 1
          mapped := s.mapped ++ [row]
          enqueued := s.enqueued ++ [⟨paramsJSON, s.rowIndex + 1⟩]
          successCount := s.successCount + 1
          processedCount := s.processedCount + 1 }, ?_, ?_, ?_, ?_, ?_⟩
      · simp [producerRun, producerStep, hphase, hget2, hdone, hhead, hgen]
      · simp
      · simpa using hdone
      · simp only [maybeProgress_rowIndex, maybeProgress_i]
        show s.rowIndex + 1 = ((s.i + 1 : Nat) : Int)
        omega
      · simp

/-- The events of `completingRun` hold no cancellation. -/
theorem completingRun_no_cancel (gen : List Str → Option Str) (rest : List (List Str)) :
    ∀ k : Nat, ∀ e ∈ completingRun gen k rest, e ≠ .cancel := by
  induction rest with
  | nil =>
    intro k e he
    simp only [completingRun, List.mem_singleton] at he
    rw [he]
    simp
  | cons row rest ih =>
    intro k e he
    simp only [completingRun, List.mem_append] at he
    rcases he with he | he
    · split at he
      · simp only [List.mem_cons, List.mem_singleton, List.not_mem_nil, or_false] at he
        rcases he with he | he <;> rw [he] <;> simp
      · split at he
        · simp only [List.mem_cons, List.mem_singleton, List.not_mem_nil, or_false] at he
          rcases he with he | he | he <;> rw [he] <;> simp
        · simp only [List.mem_cons, List.mem_singleton, List.not_mem_nil, or_false] at he
          rcases he with he | he <;> rw [he] <;> simp
    · exact ih (k + 1) e he

/-- From the head of the loop, without cancellation, the steps of
`completingRun` for the rows that remain bring the producer to its return
after the loop. -/
theorem producerRun_completing (gen : List Str → Option Str) (allRows : List (List Str))
    (rest : List (List Str)) :
    ∀ (k : Nat) (s : ProducerState), s.phase = .loopHead → s.ctxDone = false →
      s.rowIndex = (s.i : Int) → s.i = k → allRows.drop k = rest →
      ∃ s', producerRun gen allRows s (completingRun gen k rest) = some s' ∧
        s'.phase = .returnedCompleted := by
  induction rest with
  | nil =>
    intro k s hphase hdone hrow hi hdrop
    have hget : allRows.get? s.i = none := by
      rw [List.get?_eq_none]
      have := List.drop_eq_nil_iff.mp hdrop
      omega
    have hget2 : allRows[s.i]? = none := by simpa using hget
    refine ⟨{ s with
      phase := .returnedCompleted
      snapshots := s.snapshots ++
        [⟨totalRows allRows, totalRows allRows, s.successCount, s.errorCount⟩]
      report := some (s.successCount, s.errorCount) }, ?_, rfl⟩
    simp [completingRun, producerRun, producerStep, hphase, hget2]
  | cons row rest ih =>
    intro k s hphase hdone hrow hi hdrop
    have hlt : k < allRows.length := by
      by_contra h
      rw [List.drop_eq_nil_iff.mpr (by omega)] at hdrop
      cases hdrop
    have hcons := List.drop_eq_getElem_cons hlt
    rw [hcons] at hdrop
    simp only [List.cons.injEq] at hdrop
    have hget : allRows.get? s.i = some row := by
      rw [hi, List.get?_eq_getElem?, List.getElem?_eq_getElem hlt, hdrop.1]
    obtain ⟨s1, hrun1, hp1, hd1, hr1, hi1⟩ :=
      producerRun_row gen allRows s row hphase hdone hrow hget
    obtain ⟨s2, hrun2, hp2⟩ := ih (k + 1) s1 hp1 hd1 hr1 (by omega) hdrop.2
    refine ⟨s2, ?_, hp2⟩
    simp only [completingRun]
    rw [hi] at hrun1
    rw [producerRun_append gen allRows _ _ s s1 hrun1]
    exact hrun2

/-- The tasks of a stretch of data rows, as a numbered list filtered by the
success of the mapping. -/
theorem tasksFrom_eq_filterMap (gen : List Str → Option Str) (rows : List (List Str)) :
    ∀ k : Nat, 1 ≤ k →
      tasksFrom gen k rows = (rows.enumFrom (k + 1)).filterMap
        (fun nr => (gen nr.2).map (fun paramsJSON => ⟨paramsJSON, (nr.1 : Int)⟩)) := by
  induction rows with
  | nil => intro k _; rfl
  | cons row rest ih =>
    intro k hk
    simp only [tasksFrom, List.enumFrom_cons, List.filterMap_cons]
    rw [if_neg (by omega), ih (k + 1) (by omega)]
    cases hgen : gen row with
    | none => simp
    | some paramsJSON => simp

/-- The tasks computed along the loop are the tasks as the specification
words them. -/
theorem tasksFrom_eq_expectedTasks (gen : List Str → Option Str) (allRows : List (List Str)) :
    tasksFrom gen 0 allRows = expectedTasks gen allRows := by
  cases allRows with
  | nil => rfl
  | cons header rest =>
    simp only [tasksFrom, expectedTasks, List.tail_cons, if_pos, List.nil_append]
    exact tasksFrom_eq_filterMap gen rest 1 (le_refl 1)

/-- The errors of a stretch of data rows: the number of rows whose mapping
fails. -/
theorem errorsFrom_eq_length (gen : List Str → Option Str) (rows : List (List Str)) :
    ∀ k : Nat, 1 ≤ k →
      errorsFrom gen k rows = ((rows.filter (fun row => (gen row).isNone)).length : Int) := by
  induction rows with
  | nil => intro k _; rfl
  | cons row rest ih =>
    intro k hk
    simp only [errorsFrom, List.filter_cons]
    rw [if_neg (by omega), ih (k + 1) (by omega)]
    cases hgen : gen row with
    | none => simp; omega
    | some paramsJSON => simp

/-- The errors counted along the loop are the data rows whose mapping fails. -/
theorem errorsFrom_eq_failed (gen : List Str → Option Str) (allRows : List (List Str)) :
    errorsFrom gen 0 allRows =
      ((allRows.tail.filter (fun row => (gen row).isNone)).length : Int) := by
  cases allRows with
  | nil => rfl
  | cons header rest =>
    simp only [errorsFrom, List.tail_cons, if_pos, zero_add]
    exact errorsFrom_eq_length gen rest 1 (le_refl 1)

/-- The tasks of a stretch of rows: one for each data row whose mapping
succeeds, with the payload of the mapping and the index of the row plus one. -/
theorem mem_tasksFrom (gen : List Str → Option Str) (rows : List (List Str))
    (t : RequestTask) :
    ∀ k : Nat, t ∈ tasksFrom gen k rows ↔
      ∃ (j : Nat) (row : List Str), rows.get? j = some row ∧ 1 ≤ k + j ∧
        gen row = some t.ParamsJSON ∧ t.RowIndex = ((k + j : Nat) : Int) + 1 := by
  induction rows with
  | nil => intro k; simp [tasksFrom]
  | cons row rest ih =>
    intro k
    simp only [tasksFrom, List.mem_append, ih (k + 1)]
    constructor
    · rintro (h | ⟨j, r, hget, hk, hgen, hidx⟩)
      · split at h
        · cases h
        · rename_i hk
          split at h
          · rename_i paramsJSON hgen
            simp only [List.mem_singleton] at h
            subst h
            exact ⟨0, row, rfl, by omega, hgen, by simp⟩
          · cases h
      · exact ⟨j + 1, r, hget, by omega, hgen, by rw [hidx]; push_cast; omega⟩
    · rintro ⟨j, r, hget, hk, hgen, hidx⟩
      cases j with
      | zero =>
        left
        simp only [List.get?_cons_zero, Option.some.injEq] at hget
        subst hget
        rw [if_neg (by omega), hgen]
        cases t
        simp only at hidx
        simp [hidx]
      | succ j =>
        right
        exact ⟨j, r, hget, by omega, hgen, by rw [hidx]; push_cast; omega⟩

/-- The row numbers of the tasks of a stretch of rows that starts at index `k`
are above `k`, and strictly increasing. -/
theorem tasksFrom_increasing (gen : List Str → Option Str) (rows : List (List Str)) :
    ∀ k : Nat, (∀ t ∈ tasksFrom gen k rows, (k : Int) + 1 ≤ t.RowIndex) ∧
      ((tasksFrom gen k rows).map (fun t => t.RowIndex)).Pairwise (fun a b => a < b) := by
  induction rows with
  | nil => intro k; simp [tasksFrom]
  | cons row rest ih =>
    intro k
    obtain ⟨hlow, hpair⟩ := ih (k + 1)
    have hlow2 : ∀ t ∈ tasksFrom gen (k + 1) rest, (k : Int) + 2 ≤ t.RowIndex := by
      intro t ht
      have := hlow t ht
      push_cast at this
      omega
    simp only [tasksFrom]
    split
    · simp only [List.nil_append]
      exact ⟨fun t ht => by have := hlow2 t ht; omega, hpair⟩
    · split
      · simp only [List.singleton_append, List.mem_cons, List.map_cons, List.pairwise_cons,
          List.mem_map]
        refine ⟨?_, ?_, hpair⟩
        · rintro t (ht | ht)
          · rw [ht]
          · have := hlow2 t ht
            omega
        · rintro a ⟨t, ht, rfl⟩
          have := hlow2 t ht
          show (k : Int) + 1 < t.RowIndex
          omega
      · simp only [List.nil_append]
        exact ⟨fun t ht => by have := hlow2 t ht; omega, hpair⟩

/-- C20: for a CSV with at least one data row and a run that is never
cancelled, in every state the producer reaches the tasks enqueued are exactly
the tasks of the rows handled so far (the data rows whose mapping succeeds,
in file order, each with its 1-based row number, the header being row 1), the
error count is the number of handled data rows whose mapping fails, the
success count is the number of tasks enqueued, and processed = success +
error ≤ total; every progress snapshot has processed = success + error ≤
total with the success count of the tasks enqueued up to it; at completion all
data rows are handled, processed = total, and the report carries the counts.
Such a run does complete. The tasks are those of the data rows at index k ≥ 1
whose mapping succeeds, with row number k + 1, so the first data row has
number 2, and the row numbers are strictly increasing. -/
theorem producer_uncancelled (gen : List Str → Option Str) (allRows : List (List Str))
    (hrows : 2 ≤ allRows.length) :
    (∀ (evs : List ProducerEvent) (s : ProducerState), (∀ e ∈ evs, e ≠ .cancel) →
      producerRun gen allRows (producerInit allRows) evs = some s →
      s.enqueued = expectedTasks gen (allRows.take s.i) ∧
      s.errorCount =
        (((allRows.take s.i).tail.filter (fun row => (gen row).isNone)).length : Int) ∧
      s.successCount = (s.enqueued.length : Int) ∧
      s.processedCount = s.successCount + s.errorCount ∧
      s.processedCount ≤ totalRows allRows ∧
      (∀ snap ∈ s.snapshots,
        snap.total = totalRows allRows ∧ snap.processed = snap.success + snap.error ∧
        snap.processed ≤ snap.total ∧
        snap.success =
          ((expectedTasks gen (allRows.take (snap.processed.toNat + 1))).length : Int)) ∧
      (s.phase = .returnedCompleted →
        s.enqueued = expectedTasks gen allRows ∧
        s.errorCount = ((allRows.tail.filter (fun row => (gen row).isNone)).length : Int) ∧
        s.processedCount = totalRows allRows ∧
        s.report = some (s.successCount, s.errorCount))) ∧
    (∃ (evs : List ProducerEvent) (s : ProducerState), (∀ e ∈ evs, e ≠ .cancel) ∧
      producerRun gen allRows (producerInit allRows) evs = some s ∧
      s.phase = .returnedCompleted) ∧
    (∀ t : RequestTask, t ∈ expectedTasks gen allRows ↔
      ∃ (k : Nat) (row : List Str), 1 ≤ k ∧ allRows.get? k = some row ∧
        gen row = some t.ParamsJSON ∧ t.RowIndex = (k : Int) + 1) ∧
    ((expectedTasks gen allRows).map (fun t => t.RowIndex)).Pairwise (fun a b => a < b) := by
  have hinit : producerInit allRows = ⟨.loopHead, 0, 0, 0, 0, 0, [], [], [], none, false⟩ := by
    unfold producerInit totalRows
    rw [if_neg (by omega)]
  have hinv0 : producerInv gen allRows (producerInit allRows) := by
    rw [hinit]
    refine ⟨rfl, Nat.zero_le _, ?_, ?_, rfl, rfl, rfl, ?_, rfl, rfl⟩
    · show [] = tasksFrom gen 0 (allRows.take 0)
      rw [List.take_zero]
      rfl
    · show (0 : Int) = errorsFrom gen 0 (allRows.take 0)
      rw [List.take_zero]
      rfl
    · intro snap hmem
      cases hmem
  refine ⟨?_, ?_, ?_, ?_⟩
  · intro evs s hev hrun
    obtain ⟨_, h2, h3, h4, h5, h6, h7, h8, h9⟩ :=
      producerRun_inv gen allRows (by omega) evs _ s hinv0 hev hrun
    refine ⟨?_, ?_, h5, h6, ?_, ?_, ?_⟩
    · rw [h3, tasksFrom_eq_expectedTasks]
    · rw [h4, errorsFrom_eq_failed]
    · unfold totalRows
      omega
    · intro snap hmem
      obtain ⟨k1, k2, k3, k4⟩ := h8 snap hmem
      refine ⟨k1, k2, k3, ?_⟩
      rw [k4, tasksFrom_eq_expectedTasks]
    · intro hphase
      rw [hphase] at h9
      simp only at h9
      obtain ⟨hi, hrep⟩ := h9
      rw [hi, List.take_length] at h3 h4
      refine ⟨?_, ?_, ?_, hrep⟩
      · rw [h3, tasksFrom_eq_expectedTasks]
      · rw [h4, errorsFrom_eq_failed]
      · unfold totalRows
        omega
  · obtain ⟨s, hrun, hphase⟩ := producerRun_completing gen allRows allRows 0
      (producerInit allRows) (by rw [hinit]) (by rw [hinit]) (by rw [hinit]; rfl)
      (by rw [hinit]) (List.drop_zero _)
    exact ⟨completingRun gen 0 allRows, s, completingRun_no_cancel gen allRows 0, hrun, hphase⟩
  · intro t
    rw [← tasksFrom_eq_expectedTasks, mem_tasksFrom gen allRows t 0]
    constructor
    · rintro ⟨j, row, hget, hj, hgen, hidx⟩
      exact ⟨j, row, by omega, hget, hgen, by rw [hidx]; push_cast; omega⟩
    · rintro ⟨k, row, hk, hget, hgen, hidx⟩
      exact ⟨k, row, hget, by omega, hgen, by rw [hidx]; push_cast; omega⟩
  · rw [← tasksFrom_eq_expectedTasks]
    exact (tasksFrom_increasing gen allRows 0).2

/-- C20, at a concrete input: a header and three data rows, the second of
which has no second field and fails to map. The run without cancellation
completes, with the tasks of rows 2 and 4, three rows processed, two
successes and one error. -/
theorem producer_uncancelled_witness :
    2 ≤ [["id".toList, "v".toList], ["1".toList, "a".toList], ["x".toList],
      ["2".toList, "b".toList]].length ∧
    (∃ (evs : List ProducerEvent) (s : ProducerState), (∀ e ∈ evs, e ≠ .cancel) ∧
      producerRun (fun row => if row.length < 2 then none else some (row.headD []))
        [["id".toList, "v".toList], ["1".toList, "a".toList], ["x".toList],
          ["2".toList, "b".toList]]
        (producerInit [["id".toList, "v".toList], ["1".toList, "a".toList], ["x".toList],
          ["2".toList, "b".toList]]) evs = some s ∧
      s.phase = .returnedCompleted) ∧
    expectedTasks (fun row => if row.length < 2 then none else some (row.headD []))
        [["id".toList, "v".toList], ["1".toList, "a".toList], ["x".toList],
          ["2".toList, "b".toList]] =
      [⟨"1".toList, 2⟩, ⟨"2".toList, 4⟩] ∧
    (producerRun (fun row => if row.length < 2 then none else some (row.headD []))
        [["id".toList, "v".toList], ["1".toList, "a".toList], ["x".toList],
          ["2".toList, "b".toList]]
        (producerInit [["id".toList, "v".toList], ["1".toList, "a".toList], ["x".toList],
          ["2".toList, "b".toList]])
        [.advance, .advance, .advance, .advance, .send, .advance, .advance,
          .advance, .advance, .send, .advance]).map
        (fun s => (s.phase, s.processedCount, s.successCount, s.errorCount)) =
      some (.returnedCompleted, 3, 2, 1) :=
  ⟨by decide,
    (producer_uncancelled (fun row => if row.length < 2 then none else some (row.headD []))
      [["id".toList, "v".toList], ["1".toList, "a".toList], ["x".toList],
        ["2".toList, "b".toList]] (by decide)).2.1,
    by decide, by decide⟩

end HttpGuiTool
